import Mathlib

/-! GURLS++ : incremental pivoted incomplete Cholesky wrapper and option store

A shallow embedding of `gurls++/src/icholwrapper.cpp` (`ICholWrapper::train`,
`ICholWrapper::eval`, `ICholWrapper::computeNewKcol`) and of the option
classes of `gurls++/include/options.h`.

Conventions of the embedding.

* The element type `T` of the source is a linearly ordered field `α`; the two
  transcendental primitives the code calls (`sqrt`, `exp`) are parameters, so
  the model runs over `ℚ` and specialises to `ℝ` with `Real.sqrt`, `Real.exp`.
* A column-major buffer `A` with leading dimension `ld` is a function of a row
  and a column: `A j c` stands for `A[j + ld*c]`.  A vector is a function of
  its index.
* `unsigned long` values are natural numbers; the one subtraction that can
  wrap (`round(...) - 1`) is taken modulo `2^64`.
* `double`s behave like the field `α` as long as no pivot is zero and no
  exponential underflows; the statements made in exact arithmetic are about
  this field.  The special values of `double` (the infinities, NaN, the
  underflow to `0`) are embedded apart, in the section on doubles with special
  values (`Dbl`, `max_elementD`, `trainLoopD`, `expDouble`); that embedding
  computes the numbers of the field model while the pivots are non-zero
  (`trainLoopD_eq_lift`).
-/

namespace Gurls

open Finset

/-! ## Numeric primitives (gmath) -/

section Primitives

variable {α : Type} [LinearOrderedField α]

/-- Modelled from the spec: `subMatrixFromRows` (row extraction, absent from the
sources); row `k` of the result is row `rows k` of `A`. -/
def subMatrixFromRows (A : Nat → Nat → α) (rows : Nat → Nat) : Nat → Nat → α :=
  fun k c => A (rows k) c

/-- Modelled from the spec: `transpose` (absent from the sources). -/
def transpose (A : Nat → Nat → α) : Nat → Nat → α :=
  fun c k => A k c

/-- Modelled from the spec: `getRow` (row extraction, absent from the sources). -/
def getRow (A : Nat → Nat → α) (row : Nat) : Nat → α :=
  fun c => A row c

/-- Modelled from the spec: `distance` (pairwise distance, absent from the
sources); the source comment at its call names it `square_distance`: the squared
Euclidean distance between column `k` of `A` and the single column `B`, both
with `rows` entries. -/
def distance (A : Nat → Nat → α) (B : Nat → α) (rows : Nat) : Nat → α :=
  fun k => ∑ c ∈ range rows, (A c k - B c) * (A c k - B c)

/-- Modelled from the spec: `gurls::swap(cols, A+a, ld, A+b, ld)` (strided swap,
absent from the sources): exchanges rows `a` and `b` of the first `cols`
columns. -/
def swapRows (A : Nat → Nat → α) (a b cols : Nat) : Nat → Nat → α :=
  fun j c =>
    if c < cols then
      (if j = a then A b c else if j = b then A a c else A j c)
    else A j c

/-- The loop of `std::max_element`: `largest` is the best index so far, `first`
the next index to inspect, the last argument the number of indices left. -/
def max_element_loop (d : Nat → α) (largest first : Nat) : Nat → Nat
  | 0 => largest
  | k + 1 => max_element_loop d (if d largest < d first then first else largest) (first + 1) k

/-- The index returned by `std::max_element(d + first, d + last) - d`, for entries
that are numbers (`max_elementD` is the same search on doubles that may be NaN). -/
def max_element (d : Nat → α) (first last : Nat) : Nat :=
  if last ≤ first then last
  else max_element_loop d first (first + 1) (last - first - 1)

/-- The source function `ICholWrapper::computeNewKcol`: the kernel values between
the rows `pVec[start..n)` of `Xtr` and the row `pVec[start-1]`. -/
def computeNewKcol (exp : α → α) (Xtr : Nat → Nat → α) (_xr xc : Nat) (sigma : α)
    (pVec : Nat → Nat) (start n : Nat) : List α :=
  let len := n - start
  let XtrPvec := subMatrixFromRows Xtr (fun k => pVec (start + k))
  let XtrPvecT := transpose XtrPvec
  let XtrRow := getRow Xtr (pVec (start - 1))
  let newKcol := distance XtrPvecT XtrRow xc
  (List.range len).map (fun k => exp ((-1 / (sigma * sigma)) * newKcol k))

/-- Modelled from the spec: `gemv(CblasNoTrans, rows, cols, a, A, ld, x, 1, b, y, 1)`
(general matrix-vector product, absent from the sources): `y := a*A*x + b*y`. -/
def gemvNoTrans (cols : Nat) (a : α) (A : Nat → Nat → α) (x : Nat → α) (b : α)
    (y : Nat → α) : Nat → α :=
  fun r => a * (∑ c ∈ range cols, A r c * x c) + b * y r

/-- Modelled from the spec: `gemv(CblasTrans, rows, cols, a, A, ld, x, 1, b, y, 1)`
(general matrix-vector product with the transpose flag, absent from the
sources): `y := a*A'*x + b*y`. -/
def gemvTrans (rows : Nat) (a : α) (A : Nat → Nat → α) (x : Nat → α) (b : α)
    (y : Nat → α) : Nat → α :=
  fun c => a * (∑ r ∈ range rows, A r c * x r) + b * y c

/-- Modelled from the spec: `nrm2(n, x, 1)` (Euclidean norm, absent from the sources). -/
def nrm2 (sqrt : α → α) (n : Nat) (x : Nat → α) : α :=
  sqrt (∑ j ∈ range n, x j * x j)

/-- Modelled from the spec: `dot(A, B, C, ..., CblasNoTrans, CblasNoTrans, ...)`
(matrix product, absent from the sources), `inner` the shared dimension. -/
def dotNN (inner : Nat) (A B : Nat → Nat → α) : Nat → Nat → α :=
  fun r c => ∑ k ∈ range inner, A r k * B k c

/-- Modelled from the spec: `dot(A, B, C, ..., CblasTrans, CblasNoTrans, ...)`
(matrix product with the first factor transposed, absent from the sources). -/
def dotTN (inner : Nat) (A B : Nat → Nat → α) : Nat → Nat → α :=
  fun r c => ∑ k ∈ range inner, A k r * B k c

end Primitives

/-! ## The checkpoint set -/

/-- The value of `gurls::round(std::pow(m, k / r))` in exact arithmetic: the
nearest integer to the `r`-th root of `m^k`, that is the greatest `q` with
`2q - 1 ≤ 2 * m^(k/r)`.  In every call `1 ≤ k ≤ r`, so the value is at most `m`. -/
def roundPow (m k r : Nat) : Nat :=
  Nat.findGreatest (fun q => (2 * q - 1) ^ r ≤ 2 ^ r * m ^ k) m

/-- The effect of `std::set<unsigned long>::insert` on the ascending enumeration of the set. -/
def setInsert (x : Nat) : List Nat → List Nat
  | [] => [x]
  | y :: ys => if x < y then x :: y :: ys else if x = y then y :: ys else y :: setInsert x ys

/-- The subtraction `x - 1` of `unsigned long`, which wraps at `0`. -/
def ulongPred (x : Nat) : Nat :=
  (x + 2 ^ 64 - 1) % 2 ^ 64

/-- The set `ireg` of checkpoint iterations built at the start of `train`, in
ascending order: `round(pow(m, (i+1)/n_rank)) - 1` for `i < n_rank`, the
subtraction being that of `unsigned long`. -/
def ireg (m n_rank : Nat) : List Nat :=
  (List.range n_rank).foldl (fun s i => setInsert (ulongPred (roundPow m (i + 1) n_rank)) s) []

/-! ## The training loop -/

/-- A dense matrix object `gMat2D<T>`: its dimensions and its entries. -/
structure gMat2D (α : Type) where
  rows : Nat
  cols : Nat
  data : Nat → Nat → α

/-- What one call of `ICholWrapper::train` reads: its arguments, the options it
looks up and the collaborators it calls. -/
structure TrainInput (α : Type) where
  /-- the training points, `n × d` -/
  X : Nat → Nat → α
  /-- the targets, `n × t` -/
  y : Nat → Nat → α
  n : Nat
  d : Nat
  t : Nat
  /-- the option `paramsel.rank_max` -/
  m : Nat
  /-- the option `paramsel.n_rank` -/
  n_rank : Nat
  /-- the option `paramsel.sigma` -/
  sigma : α
  /-- the number of rows of `split.Xva` -/
  Xva_rows : Nat
  /-- the kernel between validation and training points computed by `PredKernelTrainTest` -/
  predKernel_K : Nat → Nat → α
  /-- the performance task chosen by `hoperf`: from the predictions to the data of `acc` -/
  perfTask : (Nat → Nat → α) → List α
  /-- the constant `std::numeric_limits<T>::max()` -/
  Tmax : α
  /-- the clock: milliseconds elapsed since the start of the loop, read at the end of a checkpoint -/
  elapsed : Nat → α
  /-- the content of a freshly allocated, not yet written `n × t` buffer -/
  uninit : Nat → Nat → α

/-- The buffers of the decomposition. -/
structure CholState (α : Type) where
  G : Nat → Nat → α
  Q : Nat → Nat → α
  RR : Nat → Nat → α
  yPvec : Nat → Nat → α
  diagG : Nat → α
  pVec : Nat → Nat

/-- The record kept by the model selection. -/
structure SelState (α : Type) where
  alpha : gMat2D α
  maxPerf : α
  maxRank : Nat
  perfs_mat : Nat → α
  /-- the write position `perfs - perfs_mat->getData()` -/
  perfs : Nat
  times_mat : Nat → α
  /-- the write position `times - times_mat->getData()` -/
  times : Nat

/-- What `train` stores under `paramsel`. -/
structure Published (α : Type) where
  alpha : gMat2D α
  acc : gMat2D α
  maxRank : Nat
  maxPerf : α
  times : gMat2D α

section Train

variable {α : Type} [LinearOrderedField α]

/-- The buffers before the loop: `G`, `Q`, `RR` zeroed, `yPvec` a copy of `y`;
`diagG` and `pVec` are allocated by the first iteration only. -/
def initChol (inp : TrainInput α) : CholState α :=
  { G := fun _ _ => 0
    Q := fun _ _ => 0
    RR := fun _ _ => 0
    yPvec := inp.y
    diagG := fun _ => 0
    pVec := fun _ => 0 }

/-- The selection record before the loop. -/
def initSel (inp : TrainInput α) : SelState α :=
  { alpha := { rows := 0, cols := 0, data := inp.uninit }
    maxPerf := -inp.Tmax
    maxRank := 0
    perfs_mat := fun _ => 0
    perfs := 0
    times_mat := fun _ => 0
    times := 0 }

/-- The branch `i == 0` of the loop body. -/
def firstIter (sqrt exp : α → α) (inp : TrainInput α) (s : CholState α) : CholState α :=
  let n := inp.n
  let diagG : Nat → α := fun _ => 1
  let pVec : Nat → Nat := fun j => j
  let G0 : Nat → Nat → α := fun j c => if j = 0 ∧ c = 0 then 1 else s.G j c
  let newKcol := computeNewKcol exp inp.X n inp.d inp.sigma pVec 1 n
  let nk : Nat → α := fun k => newKcol.getD k 0
  let G1 : Nat → Nat → α := fun j c => if c = 0 ∧ 1 ≤ j ∧ j < n then nk (j - 1) else G0 j c
  let nk2 : Nat → α := fun k => nk k * nk k
  let diagG1 : Nat → α := fun j => if 1 ≤ j ∧ j < n then diagG j + (-1) * nk2 (j - 1) else diagG j
  let normG := sqrt ((∑ k ∈ range (n - 1), nk2 k) + G1 0 0 * G1 0 0)
  let Q1 : Nat → Nat → α := fun j c => if c = 0 ∧ j < n then (1 / normG) * G1 j 0 else s.Q j c
  let RR1 : Nat → Nat → α := fun a b => if a = 0 ∧ b = 0 then 1 / (normG * normG) else s.RR a b
  { G := G1, Q := Q1, RR := RR1, yPvec := s.yPvec, diagG := diagG1, pVec := pVec }

/-- The branch `i != 0` of the loop body, in the field `α`, where the quotient by a
zero pivot is `0`; `nextIterD` is the same branch on doubles, where a zero pivot
gives an infinity and NaN. -/
def nextIter (sqrt exp : α → α) (inp : TrainInput α) (i : Nat) (s : CholState α) :
    CholState α :=
  let n := inp.n
  let jast := max_element s.diagG i n
  let pVec : Nat → Nat :=
    fun j => if j = i then s.pVec jast else if j = jast then s.pVec i else s.pVec j
  let yPvec := swapRows s.yPvec i jast inp.t
  let G1 := swapRows s.G i jast (i + 1)
  let Q1 := swapRows s.Q i jast i
  let G_ii := sqrt (s.diagG jast)
  let G2 : Nat → Nat → α := fun j c => if j = i ∧ c = i then G_ii else G1 j c
  let newKcol := computeNewKcol exp inp.X n inp.d inp.sigma pVec (i + 1) n
  let cols := i
  let G_ip1_n : Nat → Nat → α := fun r c => G2 (i + 1 + r) c
  let G_i : Nat → α := fun c => G2 i c
  let beta := 1 / G_ii
  let newKcol1 := gemvNoTrans cols (-beta) G_ip1_n G_i beta (fun r => newKcol.getD r 0)
  let G3 : Nat → Nat → α :=
    fun j c => if c = i ∧ i + 1 ≤ j ∧ j < n then newKcol1 (j - (i + 1)) else G2 j c
  let G_ip1_n1 : Nat → Nat → α := fun r c => if c = cols then newKcol1 r else G_ip1_n r c
  let G_ip1_n2 : Nat → Nat → α := fun r c => G_ip1_n1 r c * G_ip1_n1 r c
  let sums : Nat → α := fun r => ∑ c ∈ range (cols + 1), G_ip1_n2 r c
  let diagG : Nat → α :=
    fun j => if i + 1 ≤ j ∧ j < n then 1 + (-1) * sums (j - (i + 1)) else s.diagG j
  let Gcol : Nat → α := fun j => G3 j i
  let Rcol := gemvTrans n 1 Q1 Gcol 0 (fun _ => 0)
  let Q_i := gemvNoTrans cols (-1) Q1 Rcol 1 Gcol
  let normG := nrm2 sqrt n Q_i
  let Q2 : Nat → Nat → α := fun j c => if c = i ∧ j < n then (1 / normG) * Q_i j else Q1 j c
  let RR_Rcol := gemvNoTrans cols 1 s.RR Rcol 0 (fun _ => 0)
  let RR1 : Nat → Nat → α :=
    fun a b => if b = i ∧ a < cols then (-1 / normG) * RR_Rcol a else s.RR a b
  let RR2 : Nat → Nat → α := fun a b => if a = i ∧ b < cols then RR1 b i else RR1 a b
  let normG2 := normG * normG
  let RR3 : Nat → Nat → α :=
    fun a b => if a = i ∧ b = i then ((∑ c ∈ range cols, Rcol c * RR_Rcol c) + 1) / normG2
      else RR2 a b
  { G := G3, Q := Q2, RR := RR3, yPvec := yPvec, diagG := diagG, pVec := pVec }

/-- The value of `normG` in the branch `i == 0`: the norm of the first column of `G`. -/
def normG_first (sqrt exp : α → α) (inp : TrainInput α) (s : CholState α) : α :=
  let n := inp.n
  let newKcol := computeNewKcol exp inp.X n inp.d inp.sigma (fun j => j) 1 n
  let nk2 : Nat → α := fun k => newKcol.getD k 0 * newKcol.getD k 0
  sqrt ((∑ k ∈ range (n - 1), nk2 k) +
    (firstIter sqrt exp inp s).G 0 0 * (firstIter sqrt exp inp s).G 0 0)

/-- The vector `Rcol = Q(:,1:(i-1))' * Gcol` of the branch `i != 0`. -/
def Rcol_next (sqrt exp : α → α) (inp : TrainInput α) (i : Nat) (s : CholState α) : Nat → α :=
  gemvTrans inp.n 1 (swapRows s.Q i (max_element s.diagG i inp.n) i)
    (fun j => (nextIter sqrt exp inp i s).G j i) 0 (fun _ => 0)

/-- The column `Q_i = Gcol - Q(:,1:(i-1)) * Rcol` of the branch `i != 0`, before it is
normalised. -/
def Qi_next (sqrt exp : α → α) (inp : TrainInput α) (i : Nat) (s : CholState α) : Nat → α :=
  gemvNoTrans i (-1) (swapRows s.Q i (max_element s.diagG i inp.n) i)
    (Rcol_next sqrt exp inp i s) 1 (fun j => (nextIter sqrt exp inp i s).G j i)

/-- The value of `normG = nrm2(n, Q_i, 1)` in the branch `i != 0`. -/
def normG_next (sqrt exp : α → α) (inp : TrainInput α) (i : Nat) (s : CholState α) : α :=
  nrm2 sqrt inp.n (Qi_next sqrt exp inp i s)

/-- The decomposition part of the loop body at iteration `i`. -/
def cholStep (sqrt exp : α → α) (inp : TrainInput α) (i : Nat) (s : CholState α) :
    CholState α :=
  if i = 0 then firstIter sqrt exp inp s else nextIter sqrt exp inp i s

/-- The buffer `alpha_i` of a checkpoint, before the rows are sent back through
`pVec`: the three `dot` calls `QtYp = Q' * yPvec`, `RRQtYp = RR_sub * QtYp` and
`alpha_i = Q * RRQtYp` at rank `ii = i + 1`. -/
def alpha_i (inp : TrainInput α) (i : Nat) (s : CholState α) : Nat → Nat → α :=
  let n := inp.n
  let ii := i + 1
  let QtYp := dotTN n s.Q s.yPvec
  let RRQtYp := dotNN ii s.RR QtYp
  dotNN ii s.Q RRQtYp

/-- The coefficient matrix `alphaMat` built at a checkpoint: `Q*RR*(Q'*yPvec)` at
rank `i + 1`, its rows sent back through `pVec`. -/
def alphaMat (inp : TrainInput α) (i : Nat) (s : CholState α) : Nat → Nat → α :=
  let n := inp.n
  let t := inp.t
  (List.range n).foldl
    (fun M j => fun r c => if r = s.pVec j ∧ c < t then alpha_i inp i s j c else M r c)
    inp.uninit

/-- The score `perf_i` of a checkpoint: the mean of the `acc` returned by the
performance task on the predictions `predKernel_K * alphaMat`. -/
def perf_i (inp : TrainInput α) (i : Nat) (s : CholState α) : α :=
  let pred := dotNN inp.n inp.predKernel_K (alphaMat inp i s)
  let acc := inp.perfTask pred
  acc.sum / (acc.length : α)

/-- The checkpoint block of the loop body (`ireg.find(i) != ireg.end()`). -/
def checkpoint (inp : TrainInput α) (i : Nat) (s : CholState α) (sel : SelState α) :
    SelState α :=
  let p := perf_i inp i s
  let perfs_mat : Nat → α := fun k => if k = sel.perfs then p else sel.perfs_mat k
  let times_mat : Nat → α := fun k => if k = sel.times then inp.elapsed i else sel.times_mat k
  if sel.maxPerf < p then
    { alpha := { rows := inp.n, cols := inp.t, data := alphaMat inp i s }
      maxPerf := p
      maxRank := i
      perfs_mat := perfs_mat
      perfs := sel.perfs + 1
      times_mat := times_mat
      times := sel.times + 1 }
  else
    { alpha := sel.alpha
      maxPerf := sel.maxPerf
      maxRank := sel.maxRank
      perfs_mat := perfs_mat
      perfs := sel.perfs + 1
      times_mat := times_mat
      times := sel.times + 1 }

/-- One pass through the body of the main loop. -/
def trainIter (sqrt exp : α → α) (inp : TrainInput α) (i : Nat)
    (st : CholState α × SelState α) : CholState α × SelState α :=
  let s := cholStep sqrt exp inp i st.1
  if i ∈ ireg inp.m inp.n_rank then (s, checkpoint inp i s st.2) else (s, st.2)

/-- The state after the first `k` iterations of the main loop. -/
def trainLoop (sqrt exp : α → α) (inp : TrainInput α) : Nat → CholState α × SelState α
  | 0 => (initChol inp, initSel inp)
  | k + 1 => trainIter sqrt exp inp k (trainLoop sqrt exp inp k)

/-- The value of `normG` by which iteration `c` of the main loop divides the new
column of `Q`. -/
def normG_at (sqrt exp : α → α) (inp : TrainInput α) (c : Nat) : α :=
  if c = 0 then normG_first sqrt exp inp (trainLoop sqrt exp inp 0).1
  else normG_next sqrt exp inp c (trainLoop sqrt exp inp c).1

/-- The source function `ICholWrapper::train`: runs the `m` iterations and publishes the record. -/
def train (sqrt exp : α → α) (inp : TrainInput α) : Published α :=
  let sel := (trainLoop sqrt exp inp inp.m).2
  let size := (ireg inp.m inp.n_rank).length
  { alpha := sel.alpha
    acc := { rows := 1, cols := size, data := fun _ k => sel.perfs_mat k }
    maxRank := sel.maxRank
    maxPerf := sel.maxPerf
    times := { rows := 1, cols := size, data := fun _ k => sel.times_mat k } }

end Train

/-! ## `ICholWrapper::eval` and the option classes of `options.h` -/

/-- The exceptions thrown by the embedded code: a `gException` built from one of
the message constants of `exceptions.h`, or from a literal message. -/
inductive gException where
  | Exception_Illegal_Dynamic_Cast
  | Exception_Unknown_Function
  | Exception_Unsupported_MatrixType
  | Exception_Invalid_TaskSequence
  | message (text : String)
  deriving DecidableEq, Repr

/-- The source function `ICholWrapper::eval`.  `W` is the state of the wrapper
(its option list); `trainedModel` is the inherited `GurlsWrapper::trainedModel`
and `predTask` the call `PredPrimal::execute(X, y, *opt)`, both defined outside
the embedded sources. -/
def eval {α W : Type} (trainedModel : W → Bool)
    (predTask : gMat2D α → W → Except gException (gMat2D α)) (self : W) (X : gMat2D α) :
    Except gException (gMat2D α) :=
  if !trainedModel self then
    Except.error (gException.message "Error, Train Model First")
  else
    predTask X self

/-- The enumeration `OptTypes`. -/
inductive OptTypes where
  | GenericOption | StringOption | NumberOption
  | StringListOption | NumberListOption | FunctionOption
  | MatrixOption | VectorOption
  | OptListOption | TaskSequenceOption | TaskIDOption
  deriving DecidableEq, Repr

/-- The enumeration `OptMatrixBase::MatrixType`. -/
inductive MatrixType where
  | FLOAT | DOUBLE | ULONG
  deriving DecidableEq, Repr

/-- An option object: one constructor per class of `options.h`, with the data
members of the class; `base` is an object of the class `GurlsOption` itself.
`GurlsOption` and `OptMatrixBase` are the two classes that do not override
`isA`. -/
inductive GurlsOption (α : Type) where
  | base (type : OptTypes)
  | OptString (value : String)
  | OptStringList (value : List String)
  | OptNumber (value : α)
  | OptNumberList (value : List α)
  | OptFunction (name : String)
  | OptMatrixBase (matType : MatrixType)
  | OptMatrix (matType : MatrixType) (value : gMat2D α)
  | OptTaskSequence (tasks : List String)

/-- The classes of `options.h`. -/
inductive OptClass where
  | GurlsOption | OptString | OptStringList | OptNumber | OptNumberList
  | OptFunction | OptMatrixBase | OptMatrix | OptTaskSequence
  deriving DecidableEq, Repr

namespace GurlsOption

variable {α : Type}

/-- The dynamic class of an option object. -/
def classOf : GurlsOption α → OptClass
  | .base _ => .GurlsOption
  | .OptString _ => .OptString
  | .OptStringList _ => .OptStringList
  | .OptNumber _ => .OptNumber
  | .OptNumberList _ => .OptNumberList
  | .OptFunction _ => .OptFunction
  | .OptMatrixBase _ => .OptMatrixBase
  | .OptMatrix _ _ => .OptMatrix
  | .OptTaskSequence _ => .OptTaskSequence

/-- The virtual member `isA`, dispatched on the dynamic class. -/
def isA : GurlsOption α → OptTypes → Bool
  | .base _, id => id = OptTypes.GenericOption
  | .OptString _, id => id = OptTypes.StringOption
  | .OptStringList _, id => id = OptTypes.StringListOption
  | .OptNumber _, id => id = OptTypes.NumberOption
  | .OptNumberList _, id => id = OptTypes.NumberListOption
  | .OptFunction _, id => id = OptTypes.FunctionOption
  | .OptMatrixBase _, id => id = OptTypes.GenericOption
  | .OptMatrix _ _, id => id = OptTypes.MatrixOption
  | .OptTaskSequence _, id => id = OptTypes.TaskSequenceOption

end GurlsOption

/-- The static member `OptString::dynacast`. -/
def OptString.dynacast {α : Type} (opt : GurlsOption α) : Except gException (GurlsOption α) :=
  if opt.isA OptTypes.StringOption then Except.ok opt
  else Except.error gException.Exception_Illegal_Dynamic_Cast

/-- The static member `OptStringList::dynacast`. -/
def OptStringList.dynacast {α : Type} (opt : GurlsOption α) :
    Except gException (GurlsOption α) :=
  if opt.isA OptTypes.StringListOption then Except.ok opt
  else Except.error gException.Exception_Illegal_Dynamic_Cast

/-- The static member `OptNumber::dynacast`. -/
def OptNumber.dynacast {α : Type} (opt : GurlsOption α) : Except gException (GurlsOption α) :=
  if opt.isA OptTypes.NumberOption then Except.ok opt
  else Except.error gException.Exception_Illegal_Dynamic_Cast

/-- The static member `OptNumberList::dynacast`. -/
def OptNumberList.dynacast {α : Type} (opt : GurlsOption α) :
    Except gException (GurlsOption α) :=
  if opt.isA OptTypes.NumberListOption then Except.ok opt
  else Except.error gException.Exception_Illegal_Dynamic_Cast

/-- The static member `OptFunction::dynacast`. -/
def OptFunction.dynacast {α : Type} (opt : GurlsOption α) : Except gException (GurlsOption α) :=
  if opt.isA OptTypes.FunctionOption then Except.ok opt
  else Except.error gException.Exception_Illegal_Dynamic_Cast

/-- The static member `OptMatrix<Matrix>::dynacast`. -/
def OptMatrix.dynacast {α : Type} (opt : GurlsOption α) : Except gException (GurlsOption α) :=
  if opt.isA OptTypes.MatrixOption then Except.ok opt
  else Except.error gException.Exception_Illegal_Dynamic_Cast

/-- The static member `OptTaskSequence::dynacast`. -/
def OptTaskSequence.dynacast {α : Type} (opt : GurlsOption α) :
    Except gException (GurlsOption α) :=
  if opt.isA OptTypes.TaskSequenceOption then Except.ok opt
  else Except.error gException.Exception_Illegal_Dynamic_Cast

/-- The member `OptFunction::getValue` of an `OptFunction` whose name is `name`.
The four aggregation functions `mean`, `min`, `max`, `median` are declared in
`options.h` and defined elsewhere. -/
def OptFunction.getValue {α : Type} (mean min max median : (Nat → α) → Int → α)
    (name : String) (array : Nat → α) (n : Int) : Except gException α :=
  if name = "mean" then Except.ok (mean array n)
  else if name = "min" then Except.ok (min array n)
  else if name = "max" then Except.ok (max array n)
  else if name = "median" then Except.ok (median array n)
  else Except.error gException.Exception_Unknown_Function

/-! ## Predicates and inputs used in the statements -/

/-- The array `p` maps `[0, n)` into itself without repetition. -/
def PermOn (n : Nat) (p : Nat → Nat) : Prop :=
  (∀ j, j < n → p j < n) ∧ (∀ a b, a < n → b < n → p a = p b → a = b)

/-- The kernel value the code computes between the samples `a` and `b` of `X`:
`exp(-1/sigma^2 * square_distance)`, as one entry of `computeNewKcol`. -/
def kernel {α : Type} [LinearOrderedField α] (exp : α → α) (X : Nat → Nat → α) (d : Nat)
    (sigma : α) (a b : Nat) : α :=
  exp ((-1 / (sigma * sigma)) * ∑ c ∈ range d, (X a c - X b c) * (X a c - X b c))

/-- The matrix `K` restricted to `[0, n) × [0, n)` is positive definite: the
quadratic form of every vector that is not zero on `[0, n)` is positive. -/
def PosDefOn {α : Type} [LinearOrderedField α] (n : Nat) (K : Nat → Nat → α) : Prop :=
  ∀ v : Nat → α, (∃ a, a < n ∧ v a ≠ 0) →
    0 < ∑ a ∈ range n, ∑ b ∈ range n, v a * K a b * v b

/-- The decomposition invariant after `i` iterations, for the kernel `K` of the
training points: the pivot order is a permutation, `G` is zero above the diagonal
and in the columns not yet written, its first `i` columns reproduce the first `i`
pivoted columns of `K`, the residuals of the remaining rows are up to date, and
the pivots are positive. -/
structure CholInv {α : Type} [LinearOrderedField α] (K : Nat → Nat → α) (n i : Nat)
    (s : CholState α) : Prop where
  perm : PermOn n s.pVec
  upper : ∀ j c, j < c → s.G j c = 0
  zerocol : ∀ j c, i ≤ c → s.G j c = 0
  gram : ∀ j c, j < n → c < i →
    ∑ k ∈ range i, s.G j k * s.G c k = K (s.pVec j) (s.pVec c)
  diag : ∀ j, i ≤ j → j < n → s.diagG j = 1 - ∑ k ∈ range i, s.G j k * s.G j k
  pos : ∀ c, c < i → 0 < s.G c c

/-- The matrix `K` restricted to `[0, n) × [0, n)` is positive semi-definite: no
quadratic form is negative. -/
def PosSemidefOn {α : Type} [LinearOrderedField α] (n : Nat) (K : Nat → Nat → α) : Prop :=
  ∀ v : Nat → α, 0 ≤ ∑ a ∈ range n, ∑ b ∈ range n, v a * K a b * v b

/-- The entry `(a, c)` of the factor `R = Q' * G` of the state `s` (`n` rows). -/
def Rfactor {α : Type} [LinearOrderedField α] (n : Nat) (s : CholState α) (a c : Nat) : α :=
  ∑ j ∈ range n, s.Q j a * s.G j c

/-- The orthogonalisation invariant after `k` iterations: the first `k` columns of
`Q` are orthonormal, column `c` of `G` is the combination of the columns `0..c` of
`Q` with the coefficients of `R = Q' * G`, and the leading block of `RR` is
symmetric and a left inverse of `R * R'`. -/
structure QRInv {α : Type} [LinearOrderedField α] (n k : Nat) (s : CholState α) : Prop where
  orth : ∀ a b, a < k → b < k →
    ∑ j ∈ range n, s.Q j a * s.Q j b = if a = b then 1 else 0
  span : ∀ j c, j < n → c < k →
    s.G j c = ∑ a ∈ range (c + 1), s.Q j a * Rfactor n s a c
  symm : ∀ a b, a < k → b < k → s.RR a b = s.RR b a
  inv : ∀ a b, a < k → b < k →
    ∑ c ∈ range k, s.RR a c * (∑ l ∈ range k, Rfactor n s c l * Rfactor n s b l) =
      if a = b then 1 else 0

/-- The residual update in the words of the specification, for the row `j` at an
iteration `i ≥ 1` that starts in the state `s`: the residual that the sample now at
position `j` had before the step (it stood at position `i` if `j` is the pivot
position `jast`, and at `j` otherwise), minus the square of the newly written
entry `G[j][i]`. -/
def diagG_by_subtraction {α : Type} [LinearOrderedField α] (sqrt exp : α → α)
    (inp : TrainInput α) (i : Nat) (s : CholState α) (j : Nat) : α :=
  s.diagG (if j = max_element s.diagG i inp.n then i else j) -
    (nextIter sqrt exp inp i s).G j i * (nextIter sqrt exp inp i s).G j i

/-- A training call in the scenario of four samples with two features, rank
budget three and two checkpoints: the corners of the unit square, one target
column, bandwidth one, and a performance task whose `acc` is the single value 1. -/
def scenarioInput (α : Type) [LinearOrderedField α] : TrainInput α :=
  { X := fun j c =>
      if j = 1 ∧ c = 0 then 1 else if j = 2 ∧ c = 1 then 1 else if j = 3 ∧ c < 2 then 1 else 0
    y := fun j _ => if j < 2 then 1 else -1
    n := 4
    d := 2
    t := 1
    m := 3
    n_rank := 2
    sigma := 1
    Xva_rows := 1
    predKernel_K := fun _ _ => 1
    perfTask := fun _ => [1]
    Tmax := 2 ^ 1024 - 2 ^ 971
    elapsed := fun i => (i : α)
    uninit := fun _ _ => 0 }

/-- A training call on the two points `0` and `1` of the line, with rank budget two
(the number of samples), one checkpoint and bandwidth one. -/
def twoPointInput (α : Type) [LinearOrderedField α] : TrainInput α :=
  { X := fun j _ => (j : α)
    y := fun j _ => (j : α)
    n := 2
    d := 1
    t := 1
    m := 2
    n_rank := 1
    sigma := 1
    Xva_rows := 1
    predKernel_K := fun _ _ => 1
    perfTask := fun pred => [pred 0 0]
    Tmax := 2 ^ 1024 - 2 ^ 971
    elapsed := fun i => (i : α)
    uninit := fun _ _ => 0 }

/-! ## Doubles with special values

The buffers `G`, `diagG` of the source hold `double`s.  Where a pivot is zero the
quotient `1.0 / G_ii` is an infinity and the entries computed from it are NaN, which
a field does not hold.  This section embeds the part of the loop that writes `G`,
`diagG` and `pVec` over numbers extended by the infinities and NaN, and the
underflow of the exponential. -/

/-- A value of the type `double` of the source, as far as the special values go: a
number (the arithmetic of numbers is taken exact), an infinity or NaN.  Zeros carry
no sign: the zero pivots of the decomposition are `sqrt(+0) = +0`, whose reciprocal
is `+inf`. -/
inductive Dbl (α : Type) where
  | num (x : α)
  | pinf
  | ninf
  | nan

namespace Dbl

variable {α : Type} [LinearOrderedField α]

/-- The sum of two doubles: `inf + (-inf)` is NaN and NaN propagates. -/
def add : Dbl α → Dbl α → Dbl α
  | num x, num y => num (x + y)
  | num _, pinf => pinf
  | num _, ninf => ninf
  | num _, nan => nan
  | pinf, num _ => pinf
  | pinf, pinf => pinf
  | pinf, ninf => nan
  | pinf, nan => nan
  | ninf, num _ => ninf
  | ninf, pinf => nan
  | ninf, ninf => ninf
  | ninf, nan => nan
  | nan, _ => nan

/-- The product of two doubles: `inf * 0` is NaN and NaN propagates. -/
def mul : Dbl α → Dbl α → Dbl α
  | num x, num y => num (x * y)
  | num x, pinf => if x = 0 then nan else if 0 < x then pinf else ninf
  | num x, ninf => if x = 0 then nan else if 0 < x then ninf else pinf
  | num _, nan => nan
  | pinf, num y => if y = 0 then nan else if 0 < y then pinf else ninf
  | pinf, pinf => pinf
  | pinf, ninf => ninf
  | pinf, nan => nan
  | ninf, num y => if y = 0 then nan else if 0 < y then ninf else pinf
  | ninf, pinf => ninf
  | ninf, ninf => pinf
  | ninf, nan => nan
  | nan, _ => nan

/-- The opposite of a double. -/
def neg : Dbl α → Dbl α
  | num x => num (-x)
  | pinf => ninf
  | ninf => pinf
  | nan => nan

/-- The quotient `1.0 / x` of doubles: `1.0 / 0` is `+inf`. -/
def inv : Dbl α → Dbl α
  | num x => if x = 0 then pinf else num (1 / x)
  | pinf => num 0
  | ninf => num 0
  | nan => nan

/-- The square root of a double: NaN on a negative number and on NaN. -/
def sqrt (sqrt : α → α) : Dbl α → Dbl α
  | num x => if x < 0 then nan else num (sqrt x)
  | pinf => pinf
  | ninf => nan
  | nan => nan

/-- The comparison `a < b` of doubles: false as soon as one side is NaN. -/
def lt : Dbl α → Dbl α → Bool
  | num x, num y => decide (x < y)
  | num _, pinf => true
  | num _, ninf => false
  | num _, nan => false
  | pinf, _ => false
  | ninf, num _ => true
  | ninf, pinf => true
  | ninf, ninf => false
  | ninf, nan => false
  | nan, _ => false

/-- The comparison `a <= b` of doubles: false as soon as one side is NaN. -/
def le : Dbl α → Dbl α → Bool
  | num x, num y => decide (x ≤ y)
  | num _, pinf => true
  | num _, ninf => false
  | num _, nan => false
  | pinf, num _ => false
  | pinf, pinf => true
  | pinf, ninf => false
  | pinf, nan => false
  | ninf, num _ => true
  | ninf, pinf => true
  | ninf, ninf => true
  | ninf, nan => false
  | nan, _ => false

/-- The sum `f 0 + ... + f (n-1)` of doubles, accumulated from `0`, as inside `gemv` and
`sum_col`.  Whether the result is a number, an infinity or NaN does not depend on the
order of the accumulation. -/
def sum (n : Nat) (f : Nat → Dbl α) : Dbl α :=
  (List.range n).foldl (fun acc c => add acc (f c)) (num 0)

end Dbl

section TrainDoubles

variable {α : Type} [LinearOrderedField α]

/-- Modelled from the spec: `gurls::exp` (elementwise `exp` of a buffer, absent from
the sources) on `double`s, as far as underflow goes: for `x ≤ -746` the value `e^x`
is below half the smallest positive `double` (`2^-1075`) and the result is `0`;
elsewhere the value `exp x` is taken exact. -/
def expDouble (exp : α → α) (x : α) : α :=
  if x ≤ -746 then 0 else exp x

/-- The loop of `std::max_element` on doubles: as `max_element_loop`, with the
comparison of doubles. -/
def max_element_loopD (d : Nat → Dbl α) (largest first : Nat) : Nat → Nat
  | 0 => largest
  | k + 1 =>
    max_element_loopD d (if Dbl.lt (d largest) (d first) then first else largest) (first + 1) k

/-- The index returned by `std::max_element(d + first, d + last) - d` on doubles. -/
def max_elementD (d : Nat → Dbl α) (first last : Nat) : Nat :=
  if last ≤ first then last
  else max_element_loopD d first (first + 1) (last - first - 1)

/-- Modelled from the spec: `gemv(CblasNoTrans, rows, cols, a, A, ld, x, 1, b, y, 1)` on
doubles (absent from the sources), `y := a*(A*x) + b*y`. -/
def gemvNoTransD (cols : Nat) (a : Dbl α) (A : Nat → Nat → Dbl α) (x : Nat → Dbl α) (b : Dbl α)
    (y : Nat → Dbl α) : Nat → Dbl α :=
  fun r => Dbl.add (Dbl.mul a (Dbl.sum cols (fun c => Dbl.mul (A r c) (x c)))) (Dbl.mul b (y r))

/-- Modelled from the spec: `gurls::swap(cols, A+a, ld, A+b, ld)` on a buffer of
doubles: exchanges rows `a` and `b` of the first `cols` columns. -/
def swapRowsD (A : Nat → Nat → Dbl α) (a b cols : Nat) : Nat → Nat → Dbl α :=
  fun j c =>
    if c < cols then
      (if j = a then A b c else if j = b then A a c else A j c)
    else A j c

/-- The buffers `G`, `diagG`, `pVec` of the decomposition, holding doubles. -/
structure DblState (α : Type) where
  G : Nat → Nat → Dbl α
  diagG : Nat → Dbl α
  pVec : Nat → Nat

/-- The buffers of doubles before the loop: `G` zeroed. -/
def initD : DblState α :=
  { G := fun _ _ => Dbl.num 0
    diagG := fun _ => Dbl.num 0
    pVec := fun _ => 0 }

/-- The branch `i == 0` of the loop body on doubles, as far as `G`, `diagG` and
`pVec` go; the kernel values are numbers. -/
def firstIterD (exp : α → α) (inp : TrainInput α) (s : DblState α) : DblState α :=
  let n := inp.n
  let diagG : Nat → Dbl α := fun _ => Dbl.num 1
  let pVec : Nat → Nat := fun j => j
  let G0 : Nat → Nat → Dbl α := fun j c => if j = 0 ∧ c = 0 then Dbl.num 1 else s.G j c
  let newKcol := computeNewKcol exp inp.X n inp.d inp.sigma pVec 1 n
  let nk : Nat → Dbl α := fun k => Dbl.num (newKcol.getD k 0)
  let G1 : Nat → Nat → Dbl α := fun j c => if c = 0 ∧ 1 ≤ j ∧ j < n then nk (j - 1) else G0 j c
  let nk2 : Nat → Dbl α := fun k => Dbl.mul (nk k) (nk k)
  let diagG1 : Nat → Dbl α :=
    fun j => if 1 ≤ j ∧ j < n then Dbl.add (diagG j) (Dbl.mul (Dbl.num (-1)) (nk2 (j - 1)))
      else diagG j
  { G := G1, diagG := diagG1, pVec := pVec }

/-- The branch `i != 0` of the loop body on doubles, as far as `G`, `diagG` and
`pVec` go; the kernel values are numbers. -/
def nextIterD (sqrt exp : α → α) (inp : TrainInput α) (i : Nat) (s : DblState α) :
    DblState α :=
  let n := inp.n
  let jast := max_elementD s.diagG i n
  let pVec : Nat → Nat :=
    fun j => if j = i then s.pVec jast else if j = jast then s.pVec i else s.pVec j
  let G1 := swapRowsD s.G i jast (i + 1)
  let G_ii := Dbl.sqrt sqrt (s.diagG jast)
  let G2 : Nat → Nat → Dbl α := fun j c => if j = i ∧ c = i then G_ii else G1 j c
  let newKcol := computeNewKcol exp inp.X n inp.d inp.sigma pVec (i + 1) n
  let cols := i
  let G_ip1_n : Nat → Nat → Dbl α := fun r c => G2 (i + 1 + r) c
  let G_i : Nat → Dbl α := fun c => G2 i c
  let beta := Dbl.inv G_ii
  let newKcol1 :=
    gemvNoTransD cols (Dbl.neg beta) G_ip1_n G_i beta (fun r => Dbl.num (newKcol.getD r 0))
  let G3 : Nat → Nat → Dbl α :=
    fun j c => if c = i ∧ i + 1 ≤ j ∧ j < n then newKcol1 (j - (i + 1)) else G2 j c
  let G_ip1_n1 : Nat → Nat → Dbl α := fun r c => if c = cols then newKcol1 r else G_ip1_n r c
  let G_ip1_n2 : Nat → Nat → Dbl α := fun r c => Dbl.mul (G_ip1_n1 r c) (G_ip1_n1 r c)
  let sums : Nat → Dbl α := fun r => Dbl.sum (cols + 1) (fun c => G_ip1_n2 r c)
  let diagG : Nat → Dbl α :=
    fun j =>
      if i + 1 ≤ j ∧ j < n then
        Dbl.add (Dbl.num 1) (Dbl.mul (Dbl.num (-1)) (sums (j - (i + 1))))
      else s.diagG j
  { G := G3, diagG := diagG, pVec := pVec }

/-- The buffers of doubles after the first `k` iterations of the main loop. -/
def trainLoopD (sqrt exp : α → α) (inp : TrainInput α) : Nat → DblState α
  | 0 => initD
  | k + 1 =>
    if k = 0 then firstIterD exp inp (trainLoopD sqrt exp inp k)
    else nextIterD sqrt exp inp k (trainLoopD sqrt exp inp k)

end TrainDoubles

/-- A training call on three equal points: the point `0` of the line three times,
rank budget three, bandwidth one. -/
def threeEqualInput (α : Type) [LinearOrderedField α] : TrainInput α :=
  { X := fun _ _ => 0
    y := fun _ _ => 0
    n := 3
    d := 1
    t := 1
    m := 3
    n_rank := 1
    sigma := 1
    Xva_rows := 1
    predKernel_K := fun _ _ => 1
    perfTask := fun pred => [pred 0 0]
    Tmax := 2 ^ 1024 - 2 ^ 971
    elapsed := fun i => (i : α)
    uninit := fun _ _ => 0 }

/-- A training matrix with the two points `0` and `100` of the line. -/
def farPointsX (α : Type) [LinearOrderedField α] : Nat → Nat → α :=
  fun j _ => if j = 1 then 100 else 0

/-- The buffers of doubles that hold the numbers of the buffers `G`, `diagG`, `pVec` of a
state of the decomposition. -/
def liftState {α : Type} [LinearOrderedField α] (t : CholState α) : DblState α :=
  { G := fun j c => Dbl.num (t.G j c)
    diagG := fun j => Dbl.num (t.diagG j)
    pVec := t.pVec }

/-! # Theorems -/


/-! ## Pivot selection -/

section Pivot

variable {α : Type} [LinearOrderedField α]

theorem max_element_loop_spec (d : Nat → α) (lo : Nat) :
    ∀ (k largest first : Nat), lo ≤ largest → largest < first →
      (∀ j, lo ≤ j → j < first → d j ≤ d largest) →
      (∀ j, lo ≤ j → j < largest → d j < d largest) →
      lo ≤ max_element_loop d largest first k ∧
      max_element_loop d largest first k < first + k ∧
      (∀ j, lo ≤ j → j < first + k → d j ≤ d (max_element_loop d largest first k)) ∧
      (∀ j, lo ≤ j → j < max_element_loop d largest first k →
        d j < d (max_element_loop d largest first k)) := by
  intro k
  induction k with
  | zero =>
    intro largest first h1 h2 h3 h4
    exact ⟨h1, by simpa using h2, by simpa using h3, h4⟩
  | succ k ih =>
    intro largest first h1 h2 h3 h4
    simp only [max_element_loop]
    by_cases hlt : d largest < d first
    · rw [if_pos hlt]
      have := ih first (first + 1) (le_trans h1 h2.le) (Nat.lt_succ_self _)
        (fun j hj1 hj2 => by
          rcases Nat.lt_succ_iff_lt_or_eq.mp hj2 with h | h
          · exact le_trans (h3 j hj1 h) hlt.le
          · rw [h])
        (fun j hj1 hj2 => lt_of_le_of_lt (h3 j hj1 hj2) hlt)
      rw [show first + (k + 1) = first + 1 + k by omega]
      exact this
    · rw [if_neg hlt]
      have := ih largest (first + 1) h1 (Nat.lt_succ_of_lt h2)
        (fun j hj1 hj2 => by
          rcases Nat.lt_succ_iff_lt_or_eq.mp hj2 with h | h
          · exact h3 j hj1 h
          · rw [h]; exact not_lt.mp hlt)
        h4
      rw [show first + (k + 1) = first + 1 + k by omega]
      exact this

theorem max_element_spec (d : Nat → α) (first last : Nat) (h : first < last) :
    first ≤ max_element d first last ∧ max_element d first last < last ∧
    (∀ j, first ≤ j → j < last → d j ≤ d (max_element d first last)) ∧
    (∀ j, first ≤ j → j < max_element d first last → d j < d (max_element d first last)) := by
  unfold max_element
  rw [if_neg (not_le.mpr h)]
  have := max_element_loop_spec d first (last - first - 1) first (first + 1) le_rfl
    (Nat.lt_succ_self _)
    (fun j hj1 hj2 => by
      have : j = first := by omega
      rw [this])
    (fun j hj1 hj2 => by omega)
  rw [show first + 1 + (last - first - 1) = last by omega] at this
  exact this

theorem max_element_loopD_num (d : Nat → α) :
    ∀ k largest first,
      max_element_loopD (fun j => Dbl.num (d j)) largest first k =
        max_element_loop d largest first k := by
  intro k
  induction k with
  | zero => intro largest first; rfl
  | succ k ih =>
    intro largest first
    simp only [max_element_loopD, max_element_loop, Dbl.lt, decide_eq_true_eq]
    exact ih _ _

/-- On doubles that are all numbers the pivot search is the search of the field
model. -/
theorem max_elementD_num (d : Nat → α) (first last : Nat) :
    max_elementD (fun j => Dbl.num (d j)) first last = max_element d first last := by
  unfold max_elementD max_element
  split_ifs
  · rfl
  · exact max_element_loopD_num d _ _ _

/-- Claim C2 (amended): at an iteration `i` with `1 ≤ i < m ≤ n`, whatever the residual
vector `diagG` of numbers (no entry is NaN; also when all residuals are `≤ 0`), the
pivot index `jast = max_element(diagG + i, diagG + n) - diagG` used by `train` lies in
`[i, n)`, its residual is at least every residual of `[i, n)`, every index of
`[i, jast)` has a strictly smaller residual (the first maximum wins ties), and it is
the index whose entry of `pVec` the iteration exchanges with entry `i`.  On a buffer of
doubles that holds these numbers the search returns the same index and the
comparisons of doubles are true. -/
theorem pivot_is_first_maximum (sqrt exp : α → α) (inp : TrainInput α) (s : CholState α)
    (i : Nat) (hi : 1 ≤ i) (him : i < inp.m) (hmn : inp.m ≤ inp.n) :
    i ≤ max_element s.diagG i inp.n ∧ max_element s.diagG i inp.n < inp.n ∧
    (∀ j, i ≤ j → j < inp.n → s.diagG j ≤ s.diagG (max_element s.diagG i inp.n)) ∧
    (∀ j, i ≤ j → j < max_element s.diagG i inp.n →
      s.diagG j < s.diagG (max_element s.diagG i inp.n)) ∧
    (cholStep sqrt exp inp i s).pVec i = s.pVec (max_element s.diagG i inp.n) ∧
    (cholStep sqrt exp inp i s).pVec (max_element s.diagG i inp.n) = s.pVec i ∧
    (∀ d : Nat → Dbl α, (∀ j, d j = Dbl.num (s.diagG j)) →
      max_elementD d i inp.n = max_element s.diagG i inp.n ∧
      (∀ j, i ≤ j → j < inp.n → Dbl.le (d j) (d (max_elementD d i inp.n)) = true) ∧
      (∀ j, i ≤ j → j < max_elementD d i inp.n →
        Dbl.lt (d j) (d (max_elementD d i inp.n)) = true)) := by
  obtain ⟨h1, h2, h3, h4⟩ := max_element_spec s.diagG i inp.n (lt_of_lt_of_le him hmn)
  refine ⟨h1, h2, h3, h4, ?_, ?_, ?_⟩
  · simp [cholStep, nextIter, Nat.ne_of_gt hi]
  · simp only [cholStep, nextIter, if_neg (Nat.ne_of_gt hi)]
    split_ifs with h
    · rw [h]
    · rfl
  · intro d hd
    have hdf : d = fun j => Dbl.num (s.diagG j) := funext hd
    have hj : max_elementD d i inp.n = max_element s.diagG i inp.n := by
      rw [hdf]
      exact max_elementD_num _ _ _
    rw [hj]
    refine ⟨rfl, fun j hj1 hj2 => ?_, fun j hj1 hj2 => ?_⟩
    · rw [hd j, hd (max_element s.diagG i inp.n)]
      exact decide_eq_true (h3 j hj1 hj2)
    · rw [hd j, hd (max_element s.diagG i inp.n)]
      exact decide_eq_true (h4 j hj1 hj2)

theorem pivot_is_first_maximum_witness :
    (1 ≤ 1 ∧ 1 < (scenarioInput ℚ).m ∧ (scenarioInput ℚ).m ≤ (scenarioInput ℚ).n) ∧
    max_element (fun j => if j = 2 then (-1 : ℚ) else -2) 1 (scenarioInput ℚ).n = 2 ∧
    (cholStep id id (scenarioInput ℚ) 1
      { G := fun _ _ => 0, Q := fun _ _ => 0, RR := fun _ _ => 0, yPvec := fun _ _ => 0,
        diagG := fun j => if j = 2 then (-1 : ℚ) else -2, pVec := fun j => j }).pVec 1 = 2 := by
  have h := pivot_is_first_maximum id id (scenarioInput ℚ)
    { G := fun _ _ => 0, Q := fun _ _ => 0, RR := fun _ _ => 0, yPvec := fun _ _ => 0,
      diagG := fun j => if j = 2 then (-1 : ℚ) else -2, pVec := fun j => j } 1
    (by decide) (by decide) (by decide)
  have hj : max_element (fun j => if j = 2 then (-1 : ℚ) else -2) 1 (scenarioInput ℚ).n = 2 := by
    simp [max_element, max_element_loop, scenarioInput]
  refine ⟨by decide, hj, ?_⟩
  have h5 := h.2.2.2.2.1
  simp only [hj] at h5
  exact h5

end Pivot


/-! ## The checkpoint set -/

theorem mem_setInsert (x y : Nat) (l : List Nat) : y ∈ setInsert x l ↔ y = x ∨ y ∈ l := by
  induction l with
  | nil => simp [setInsert]
  | cons z zs ih =>
    simp only [setInsert]
    split_ifs with h1 h2
    · simp
    · subst h2
      simp
    · simp only [List.mem_cons, ih]
      tauto

theorem setInsert_pairwise (x : Nat) (l : List Nat) (h : l.Pairwise (· < ·)) :
    (setInsert x l).Pairwise (· < ·) := by
  induction l with
  | nil => simp [setInsert]
  | cons z zs ih =>
    simp only [setInsert]
    rw [List.pairwise_cons] at h
    split_ifs with h1 h2
    · rw [List.pairwise_cons]
      refine ⟨fun a ha => ?_, List.pairwise_cons.mpr h⟩
      rcases List.mem_cons.mp ha with rfl | ha
      · exact h1
      · exact lt_trans h1 (h.1 a ha)
    · exact List.pairwise_cons.mpr h
    · rw [List.pairwise_cons]
      refine ⟨fun a ha => ?_, ih h.2⟩
      rcases (mem_setInsert x a zs).mp ha with rfl | ha
      · omega
      · exact h.1 a ha

theorem ireg_fold_spec (f : Nat → Nat) (l : List Nat) :
    ∀ s : List Nat, s.Pairwise (· < ·) →
      ((l.foldl (fun s i => setInsert (f i) s) s).Pairwise (· < ·)) ∧
      ∀ c, c ∈ l.foldl (fun s i => setInsert (f i) s) s ↔ c ∈ s ∨ ∃ i ∈ l, c = f i := by
  induction l with
  | nil => intro s hs; simp [hs]
  | cons a l ih =>
    intro s hs
    simp only [List.foldl_cons]
    obtain ⟨h1, h2⟩ := ih (setInsert (f a) s) (setInsert_pairwise _ _ hs)
    refine ⟨h1, fun c => ?_⟩
    rw [h2, mem_setInsert]
    simp only [List.mem_cons, exists_eq_or_imp]
    tauto

theorem ireg_pairwise (m n_rank : Nat) : (ireg m n_rank).Pairwise (· < ·) :=
  (ireg_fold_spec _ _ [] List.Pairwise.nil).1

theorem mem_ireg (m n_rank c : Nat) :
    c ∈ ireg m n_rank ↔
      ∃ i, i < n_rank ∧ c = ulongPred (roundPow m (i + 1) n_rank) := by
  unfold ireg
  rw [(ireg_fold_spec _ _ [] List.Pairwise.nil).2]
  simp

theorem ulongPred_le (x : Nat) (h : 1 ≤ x) : ulongPred x ≤ x - 1 := by
  unfold ulongPred
  rw [Nat.sub_add_comm h, Nat.add_mod_right]
  exact Nat.mod_le _ _

theorem ulongPred_eq (x : Nat) (h : 1 ≤ x) (hx : x ≤ 2 ^ 64) : ulongPred x = x - 1 := by
  unfold ulongPred
  rw [Nat.sub_add_comm h, Nat.add_mod_right]
  exact Nat.mod_eq_of_lt (lt_of_lt_of_le (Nat.sub_lt h Nat.one_pos) hx)

theorem roundPow_le (m k r : Nat) : roundPow m k r ≤ m :=
  Nat.findGreatest_le m

theorem roundPow_pos (m k r : Nat) (hm : 1 ≤ m) : 1 ≤ roundPow m k r := by
  unfold roundPow
  apply Nat.le_findGreatest hm
  have h1 : 1 ≤ 2 ^ r := Nat.one_le_two_pow
  have h2 : 1 ≤ m ^ k := Nat.one_le_pow _ _ hm
  calc (2 * 1 - 1) ^ r = 1 := by simp
    _ = 1 * 1 := rfl
    _ ≤ 2 ^ r * m ^ k := Nat.mul_le_mul h1 h2

theorem roundPow_self (m r : Nat) : roundPow m r r = m := by
  unfold roundPow
  apply le_antisymm (Nat.findGreatest_le m)
  apply Nat.le_findGreatest le_rfl
  rw [← Nat.mul_pow]
  exact Nat.pow_le_pow_left (by omega) r

theorem ireg_lt (m n_rank : Nat) (hm : 1 ≤ m) : ∀ c ∈ ireg m n_rank, c < m := by
  intro c hc
  obtain ⟨i, _, hci⟩ := (mem_ireg m n_rank c).mp hc
  rw [hci]
  have h1 := roundPow_pos m (i + 1) n_rank hm
  have h2 := roundPow_le m (i + 1) n_rank
  have h3 := ulongPred_le _ h1
  omega

theorem roundPow_iff_real (m k r q : Nat) (hr : 1 ≤ r) (hq : 1 ≤ q) :
    (2 * q - 1) ^ r ≤ 2 ^ r * m ^ k ↔ (q : ℝ) ≤ (m : ℝ) ^ ((k : ℝ) / (r : ℝ)) + 1 / 2 := by
  have hm0 : (0 : ℝ) ≤ (m : ℝ) := Nat.cast_nonneg m
  have hx0 : (0 : ℝ) ≤ (m : ℝ) ^ ((k : ℝ) / (r : ℝ)) := Real.rpow_nonneg hm0 _
  have hr0 : (r : ℝ) ≠ 0 := by
    have : (0 : ℝ) < r := by exact_mod_cast hr
    exact ne_of_gt this
  have hxr : ((m : ℝ) ^ ((k : ℝ) / (r : ℝ))) ^ r = (m : ℝ) ^ k := by
    rw [← Real.rpow_natCast, ← Real.rpow_mul hm0, div_mul_cancel₀ _ hr0, Real.rpow_natCast]
  have hcast : (((2 * q - 1 : ℕ) : ℝ)) = 2 * (q : ℝ) - 1 := by
    rw [Nat.cast_sub (by omega)]
    push_cast
    ring
  have h1 : (2 * q - 1) ^ r ≤ 2 ^ r * m ^ k ↔
      (2 * (q : ℝ) - 1) ^ r ≤ (2 * (m : ℝ) ^ ((k : ℝ) / (r : ℝ))) ^ r := by
    rw [mul_pow, hxr, ← hcast]
    exact_mod_cast Iff.rfl
  have hq1 : (1 : ℝ) ≤ q := by exact_mod_cast hq
  rw [h1, pow_le_pow_iff_left₀ (by linarith) (by linarith) (by omega)]
  constructor <;> intro h <;> linarith

/-- The integer search of `roundPow` computes the real formula of the source:
the nearest integer `floor(x + 1/2)` to `x = m^(k/r)`. -/
theorem roundPow_eq_floor (m k r : Nat) (hm : 1 ≤ m) (hk : k ≤ r) (hr : 1 ≤ r) :
    roundPow m k r = ⌊(m : ℝ) ^ ((k : ℝ) / (r : ℝ)) + 1 / 2⌋₊ := by
  have hm1 : (1 : ℝ) ≤ (m : ℝ) := by exact_mod_cast hm
  have hrpos : (0 : ℝ) < r := by exact_mod_cast hr
  have hkr : (k : ℝ) / (r : ℝ) ≤ 1 := by
    rw [div_le_one hrpos]
    exact_mod_cast hk
  have hx1 : (1 : ℝ) ≤ (m : ℝ) ^ ((k : ℝ) / (r : ℝ)) :=
    Real.one_le_rpow hm1 (div_nonneg (Nat.cast_nonneg k) hrpos.le)
  have hxm : (m : ℝ) ^ ((k : ℝ) / (r : ℝ)) ≤ m := by
    calc (m : ℝ) ^ ((k : ℝ) / (r : ℝ)) ≤ (m : ℝ) ^ (1 : ℝ) :=
          Real.rpow_le_rpow_of_exponent_le hm1 hkr
      _ = m := Real.rpow_one _
  have hnn : (0 : ℝ) ≤ (m : ℝ) ^ ((k : ℝ) / (r : ℝ)) + 1 / 2 := by linarith
  have hq1 : 1 ≤ ⌊(m : ℝ) ^ ((k : ℝ) / (r : ℝ)) + 1 / 2⌋₊ := by
    apply Nat.le_floor
    push_cast
    linarith
  have hqm : ⌊(m : ℝ) ^ ((k : ℝ) / (r : ℝ)) + 1 / 2⌋₊ ≤ m := by
    have : ⌊(m : ℝ) ^ ((k : ℝ) / (r : ℝ)) + 1 / 2⌋₊ < m + 1 := by
      rw [Nat.floor_lt hnn]
      push_cast
      linarith
    omega
  have hP : (2 * ⌊(m : ℝ) ^ ((k : ℝ) / (r : ℝ)) + 1 / 2⌋₊ - 1) ^ r ≤ 2 ^ r * m ^ k :=
    (roundPow_iff_real m k r _ hr hq1).mpr (Nat.floor_le hnn)
  apply le_antisymm
  · have hg1 : 1 ≤ roundPow m k r := le_trans hq1 (Nat.le_findGreatest hqm hP)
    have hPg : (2 * roundPow m k r - 1) ^ r ≤ 2 ^ r * m ^ k :=
      Nat.findGreatest_spec (P := fun q => (2 * q - 1) ^ r ≤ 2 ^ r * m ^ k) hqm hP
    exact Nat.le_floor ((roundPow_iff_real m k r _ hr hg1).mp hPg)
  · exact Nat.le_findGreatest hqm hP

/-- Claim C7: for a rank budget `m ≥ 1` and a checkpoint count `n_rank ≥ 1`, the
checkpoint set built by `train` is the set of the values `round(m^(k/n_rank)) - 1`,
`k = 1..n_rank` (`round` the nearest integer); it is not empty, each of its elements
`c` satisfies `0 ≤ c < m`, and its ascending enumeration is strictly increasing (no
value repeated). -/
theorem ireg_within_budget_strictly_increasing (m n_rank : Nat) (hm : 1 ≤ m)
    (hr : 1 ≤ n_rank) :
    (∀ c, c ∈ ireg m n_rank ↔
      ∃ k, 1 ≤ k ∧ k ≤ n_rank ∧
        c = ulongPred ⌊(m : ℝ) ^ ((k : ℝ) / (n_rank : ℝ)) + 1 / 2⌋₊) ∧
    (∀ c ∈ ireg m n_rank, 0 ≤ c ∧ c < m) ∧
    (ireg m n_rank).Pairwise (· < ·) ∧
    ireg m n_rank ≠ [] := by
  refine ⟨fun c => ?_, fun c hc => ⟨Nat.zero_le c, ireg_lt m n_rank hm c hc⟩,
    ireg_pairwise m n_rank, ?_⟩
  · rw [mem_ireg]
    constructor
    · rintro ⟨i, hi, hci⟩
      refine ⟨i + 1, by omega, by omega, ?_⟩
      rw [← roundPow_eq_floor m (i + 1) n_rank hm (by omega) hr]
      exact hci
    · rintro ⟨k, hk1, hk2, hck⟩
      refine ⟨k - 1, by omega, ?_⟩
      rw [Nat.sub_add_cancel hk1, roundPow_eq_floor m k n_rank hm hk2 hr]
      exact hck
  · intro h
    have : ulongPred (roundPow m (0 + 1) n_rank) ∈ ireg m n_rank :=
      (mem_ireg m n_rank _).mpr ⟨0, hr, rfl⟩
    rw [h] at this
    simp at this

theorem ireg_within_budget_strictly_increasing_witness :
    (1 ≤ 10 ∧ 1 ≤ 3) ∧ ireg 10 3 = [1, 4, 9] ∧
    (∀ c ∈ ireg 10 3, 0 ≤ c ∧ c < 10) ∧
    (ireg 10 3).Pairwise (· < ·) ∧
    ireg 10 3 ≠ [] :=
  ⟨by decide, by decide,
    (ireg_within_budget_strictly_increasing 10 3 (by decide) (by decide)).2⟩

section Loop

variable {α : Type} [LinearOrderedField α]

theorem trainIter_fst (sqrt exp : α → α) (inp : TrainInput α) (i : Nat)
    (st : CholState α × SelState α) :
    (trainIter sqrt exp inp i st).1 = cholStep sqrt exp inp i st.1 := by
  unfold trainIter
  simp only
  split_ifs <;> rfl

theorem trainLoop_succ_fst (sqrt exp : α → α) (inp : TrainInput α) (k : Nat) :
    (trainLoop sqrt exp inp (k + 1)).1 = cholStep sqrt exp inp k (trainLoop sqrt exp inp k).1 := by
  rw [trainLoop, trainIter_fst]

theorem trainLoop_succ_snd (sqrt exp : α → α) (inp : TrainInput α) (k : Nat) :
    (trainLoop sqrt exp inp (k + 1)).2 =
      if k ∈ ireg inp.m inp.n_rank then
        checkpoint inp k (trainLoop sqrt exp inp (k + 1)).1 (trainLoop sqrt exp inp k).2
      else (trainLoop sqrt exp inp k).2 := by
  rw [trainLoop_succ_fst]
  rw [trainLoop]
  unfold trainIter
  simp only
  split_ifs <;> rfl

theorem cholStep_zero_pVec (sqrt exp : α → α) (inp : TrainInput α) (s : CholState α) (j : Nat) :
    (cholStep sqrt exp inp 0 s).pVec j = j := by
  simp [cholStep, firstIter]

theorem cholStep_succ_pVec (sqrt exp : α → α) (inp : TrainInput α) (s : CholState α)
    (i : Nat) (hi : i ≠ 0) (j : Nat) :
    (cholStep sqrt exp inp i s).pVec j =
      if j = i then s.pVec (max_element s.diagG i inp.n)
      else if j = max_element s.diagG i inp.n then s.pVec i else s.pVec j := by
  simp [cholStep, hi, nextIter]

theorem PermOn.swap {n : Nat} {p : Nat → Nat} (hp : PermOn n p) {a b : Nat} (ha : a < n)
    (hb : b < n) : PermOn n (fun j => if j = a then p b else if j = b then p a else p j) := by
  refine ⟨fun j hj => ?_, fun x y hx hy hxy => ?_⟩
  · simp only
    split_ifs
    · exact hp.1 b hb
    · exact hp.1 a ha
    · exact hp.1 j hj
  · simp only at hxy
    split_ifs at hxy with h1 h2 h3 h4 h5 h6
    all_goals first
      | omega
      | (have h9 := hp.2 _ _ (by assumption) (by assumption) hxy; omega)

theorem PermOn.mem_map {n : Nat} {p : Nat → Nat} (hp : PermOn n p) (x : Nat) (hx : x < n) :
    ∃ j, j < n ∧ p j = x := by
  have hsub : (Finset.range n).image p ⊆ Finset.range n := by
    intro y hy
    obtain ⟨j, hj, rfl⟩ := Finset.mem_image.mp hy
    exact Finset.mem_range.mpr (hp.1 j (Finset.mem_range.mp hj))
  have hcard : ((Finset.range n).image p).card = (Finset.range n).card :=
    Finset.card_image_of_injOn (fun a ha b hb hab =>
      hp.2 a b (Finset.mem_range.mp ha) (Finset.mem_range.mp hb) hab)
  have heq : (Finset.range n).image p = Finset.range n := Finset.eq_of_subset_of_card_le hsub hcard.ge
  have : x ∈ (Finset.range n).image p := by rw [heq]; exact Finset.mem_range.mpr hx
  obtain ⟨j, hj, hjx⟩ := Finset.mem_image.mp this
  exact ⟨j, Finset.mem_range.mp hj, hjx⟩

theorem PermOn.list_perm {n : Nat} {p : Nat → Nat} (hp : PermOn n p) :
    ((List.range n).map p).Perm (List.range n) := by
  have hnd : ((List.range n).map p).Nodup :=
    List.Nodup.map_on (fun a ha b hb hab =>
      hp.2 a b (List.mem_range.mp ha) (List.mem_range.mp hb) hab) (List.nodup_range n)
  refine (List.perm_ext_iff_of_nodup hnd (List.nodup_range n)).mpr (fun x => ?_)
  simp only [List.mem_map, List.mem_range]
  constructor
  · rintro ⟨j, hj, rfl⟩
    exact hp.1 j hj
  · intro hx
    exact hp.mem_map x hx

theorem trainLoop_pVec_permOn (sqrt exp : α → α) (inp : TrainInput α) :
    ∀ k, 1 ≤ k → k ≤ inp.n → PermOn inp.n (trainLoop sqrt exp inp k).1.pVec := by
  intro k
  induction k with
  | zero => intro h; omega
  | succ k ih =>
    intro _ hk
    rw [trainLoop_succ_fst]
    rcases Nat.eq_zero_or_pos k with h0 | hpos
    · subst h0
      refine ⟨fun j hj => ?_, fun a b _ _ hab => ?_⟩
      · rw [cholStep_zero_pVec]; exact hj
      · rwa [cholStep_zero_pVec, cholStep_zero_pVec] at hab
    · have hperm := ih hpos (by omega)
      have hsp := max_element_spec (trainLoop sqrt exp inp k).1.diagG k inp.n (by omega)
      have := PermOn.swap hperm (show k < inp.n by omega) hsp.2.1
      refine ⟨fun j hj => ?_, fun a b ha hb hab => ?_⟩
      · rw [cholStep_succ_pVec _ _ _ _ _ (by omega)]
        exact this.1 j hj
      · rw [cholStep_succ_pVec _ _ _ _ _ (by omega), cholStep_succ_pVec _ _ _ _ _ (by omega)] at hab
        exact this.2 a b ha hb hab

/-- Claim C1: for `n ≥ 1` and a rank budget `1 ≤ m ≤ n`, the pivot order `pVec` is
the identity after the first iteration of the main loop, every later iteration
only exchanges two of its entries, and after every iteration it is a permutation
of `0, ..., n-1` (a bijection of `[0, n)`). -/
theorem pVec_permutation_after_every_iteration (sqrt exp : α → α) (inp : TrainInput α)
    (hmn : inp.m ≤ inp.n) :
    (∀ j, (trainLoop sqrt exp inp 1).1.pVec j = j) ∧
    (∀ k, 1 ≤ k → k < inp.m → ∃ a b, a < inp.n ∧ b < inp.n ∧
      ∀ j, (trainLoop sqrt exp inp (k + 1)).1.pVec j =
        if j = a then (trainLoop sqrt exp inp k).1.pVec b
        else if j = b then (trainLoop sqrt exp inp k).1.pVec a
        else (trainLoop sqrt exp inp k).1.pVec j) ∧
    (∀ k, 1 ≤ k → k ≤ inp.m →
      ((List.range inp.n).map (trainLoop sqrt exp inp k).1.pVec).Perm (List.range inp.n) ∧
      Set.BijOn (trainLoop sqrt exp inp k).1.pVec (Set.Iio inp.n) (Set.Iio inp.n)) := by
  refine ⟨fun j => ?_, fun k hk1 hk2 => ?_, fun k hk1 hk2 => ?_⟩
  · rw [trainLoop_succ_fst, cholStep_zero_pVec]
  · have hsp := max_element_spec (trainLoop sqrt exp inp k).1.diagG k inp.n (by omega)
    refine ⟨k, max_element (trainLoop sqrt exp inp k).1.diagG k inp.n, by omega, hsp.2.1,
      fun j => ?_⟩
    rw [trainLoop_succ_fst, cholStep_succ_pVec _ _ _ _ _ (by omega)]
  · have hp := trainLoop_pVec_permOn sqrt exp inp k hk1 (by omega)
    refine ⟨hp.list_perm, fun j hj => hp.1 j hj, fun a ha b hb hab => hp.2 a b ha hb hab,
      fun x hx => ?_⟩
    obtain ⟨j, hj, hjx⟩ := hp.mem_map x hx
    exact ⟨j, hj, hjx⟩

theorem pVec_permutation_after_every_iteration_witness :
    (scenarioInput ℝ).m ≤ (scenarioInput ℝ).n ∧
    ((List.range (scenarioInput ℝ).n).map
      (trainLoop Real.sqrt Real.exp (scenarioInput ℝ) 3).1.pVec).Perm
      (List.range (scenarioInput ℝ).n) :=
  ⟨by decide,
    ((pVec_permutation_after_every_iteration Real.sqrt Real.exp (scenarioInput ℝ)
      (by decide)).2.2 3 (by decide) (by decide)).1⟩

end Loop


section Selection

variable {α : Type} [LinearOrderedField α]

theorem filter_lt_succ_of_pairwise (l : List Nat) (h : l.Pairwise (· < ·)) (k : Nat) :
    l.filter (fun i => decide (i < k + 1)) =
      l.filter (fun i => decide (i < k)) ++ (if k ∈ l then [k] else []) := by
  induction l with
  | nil => simp
  | cons a l ih =>
    rw [List.pairwise_cons] at h
    have ih := ih h.2
    have hgt : ∀ c, c ≤ a + 1 → l.filter (fun i => decide (i < c)) = [] := by
      intro c hc
      rw [List.filter_eq_nil_iff]
      intro x hx
      have := h.1 x hx
      simp only [decide_eq_true_eq]
      omega
    simp only [List.filter_cons, decide_eq_true_eq, List.mem_cons]
    rcases lt_trichotomy a k with hak | hak | hak
    · have h3 : (k = a ∨ k ∈ l) ↔ k ∈ l :=
        ⟨fun h => h.elim (fun h => by omega) id, Or.inr⟩
      rw [if_pos (by omega), if_pos hak, ih]
      simp only [h3, List.cons_append]
    · subst hak
      rw [if_pos (by omega), if_neg (by omega), hgt (a + 1) le_rfl, hgt a (by omega)]
      simp
    · have h3 : ¬ (k = a ∨ k ∈ l) := by
        rintro (hk | hk)
        · omega
        · have := h.1 k hk
          omega
      rw [if_neg (by omega), if_neg (by omega), hgt (k + 1) (by omega), hgt k (by omega),
        if_neg h3]
      simp

/-- The selection record after the first `k` iterations is the result of running
the checkpoint block over the checkpoints below `k`, in ascending order. -/
theorem trainLoop_snd_eq_foldl (sqrt exp : α → α) (inp : TrainInput α) (k : Nat) :
    (trainLoop sqrt exp inp k).2 =
      ((ireg inp.m inp.n_rank).filter (fun i => decide (i < k))).foldl
        (fun sel i => checkpoint inp i (trainLoop sqrt exp inp (i + 1)).1 sel) (initSel inp) := by
  induction k with
  | zero => simp [trainLoop]
  | succ k ih =>
    rw [trainLoop_succ_snd, filter_lt_succ_of_pairwise _ (ireg_pairwise _ _), List.foldl_append,
      ← ih]
    split_ifs <;> simp

theorem trainLoop_snd_final (sqrt exp : α → α) (inp : TrainInput α) (hm : 1 ≤ inp.m) :
    (trainLoop sqrt exp inp inp.m).2 =
      (ireg inp.m inp.n_rank).foldl
        (fun sel i => checkpoint inp i (trainLoop sqrt exp inp (i + 1)).1 sel) (initSel inp) := by
  rw [trainLoop_snd_eq_foldl]
  congr 1
  rw [List.filter_eq_self]
  intro i hi
  simpa using ireg_lt _ _ hm i hi

theorem checkpoint_perfs (inp : TrainInput α) (i : Nat) (s : CholState α) (sel : SelState α) :
    (checkpoint inp i s sel).perfs = sel.perfs + 1 ∧
    (checkpoint inp i s sel).perfs_mat sel.perfs = perf_i inp i s ∧
    (∀ k, k ≠ sel.perfs → (checkpoint inp i s sel).perfs_mat k = sel.perfs_mat k) := by
  unfold checkpoint
  simp only
  split_ifs
  · refine ⟨rfl, by simp, fun k hk => by simp [hk]⟩
  · refine ⟨rfl, by simp, fun k hk => by simp [hk]⟩

theorem foldl_checkpoint_perfs (inp : TrainInput α) (S : Nat → CholState α) (l : List Nat) :
    ∀ sel : SelState α,
      (l.foldl (fun sel i => checkpoint inp i (S i) sel) sel).perfs = sel.perfs + l.length ∧
      (∀ k, k < sel.perfs →
        (l.foldl (fun sel i => checkpoint inp i (S i) sel) sel).perfs_mat k = sel.perfs_mat k) ∧
      (∀ k, k < l.length →
        (l.foldl (fun sel i => checkpoint inp i (S i) sel) sel).perfs_mat (sel.perfs + k) =
          perf_i inp (l.getD k 0) (S (l.getD k 0))) := by
  induction l with
  | nil => intro sel; simp
  | cons a l ih =>
    intro sel
    obtain ⟨h1, h2, h3⟩ := ih (checkpoint inp a (S a) sel)
    obtain ⟨c1, c2, c3⟩ := checkpoint_perfs inp a (S a) sel
    simp only [List.foldl_cons, List.length_cons]
    refine ⟨by rw [h1, c1]; omega, fun k hk => ?_, fun k hk => ?_⟩
    · rw [h2 k (by omega), c3 k (by omega)]
    · cases k with
      | zero =>
        rw [Nat.add_zero, h2 _ (by omega), c2]
        simp
      | succ k =>
        have := h3 k (by omega)
        rw [c1] at this
        rw [show sel.perfs + (k + 1) = sel.perfs + 1 + k by omega, this]
        simp

theorem foldl_checkpoint_best (inp : TrainInput α) (S : Nat → CholState α) (l : List Nat) :
    ∀ sel : SelState α,
      ((l.foldl (fun sel i => checkpoint inp i (S i) sel) sel).maxPerf = sel.maxPerf ∧
       (l.foldl (fun sel i => checkpoint inp i (S i) sel) sel).maxRank = sel.maxRank ∧
       (l.foldl (fun sel i => checkpoint inp i (S i) sel) sel).alpha = sel.alpha ∧
       ∀ i ∈ l, perf_i inp i (S i) ≤ sel.maxPerf) ∨
      (∃ k0, k0 < l.length ∧
        (l.foldl (fun sel i => checkpoint inp i (S i) sel) sel).maxRank = l.getD k0 0 ∧
        (l.foldl (fun sel i => checkpoint inp i (S i) sel) sel).maxPerf =
          perf_i inp (l.getD k0 0) (S (l.getD k0 0)) ∧
        (l.foldl (fun sel i => checkpoint inp i (S i) sel) sel).alpha =
          { rows := inp.n, cols := inp.t, data := alphaMat inp (l.getD k0 0) (S (l.getD k0 0)) } ∧
        sel.maxPerf < (l.foldl (fun sel i => checkpoint inp i (S i) sel) sel).maxPerf ∧
        (∀ i ∈ l, perf_i inp i (S i) ≤
          (l.foldl (fun sel i => checkpoint inp i (S i) sel) sel).maxPerf) ∧
        (∀ k, k < k0 → perf_i inp (l.getD k 0) (S (l.getD k 0)) <
          (l.foldl (fun sel i => checkpoint inp i (S i) sel) sel).maxPerf)) := by
  induction l with
  | nil => intro sel; left; simp
  | cons a l ih =>
    intro sel
    simp only [List.foldl_cons, List.length_cons]
    by_cases hlt : sel.maxPerf < perf_i inp a (S a)
    · have e1 : (checkpoint inp a (S a) sel).maxPerf = perf_i inp a (S a) := by
        simp [checkpoint, hlt]
      have e2 : (checkpoint inp a (S a) sel).maxRank = a := by
        simp [checkpoint, hlt]
      have e3 : (checkpoint inp a (S a) sel).alpha =
          { rows := inp.n, cols := inp.t, data := alphaMat inp a (S a) } := by
        simp [checkpoint, hlt]
      right
      rcases ih (checkpoint inp a (S a) sel) with ⟨h1, h2, h3, h4⟩ | ⟨k0, hk0, h1, h2, h3, h4, h5, h6⟩
      · refine ⟨0, by omega, by simp [h2, e2], by simp [h1, e1], by simp [h3, e3],
          by rw [h1, e1]; exact hlt, fun i hi => ?_, fun k hk => by omega⟩
        rcases List.mem_cons.mp hi with rfl | hi
        · rw [h1, e1]
        · rw [h1]; exact h4 i hi
      · refine ⟨k0 + 1, by omega, by simpa using h1, by simpa using h2, by simpa using h3,
          ?_, fun i hi => ?_, fun k hk => ?_⟩
        · rw [e1] at h4
          exact lt_trans hlt h4
        · rcases List.mem_cons.mp hi with rfl | hi
          · rw [e1] at h4
            exact h4.le
          · exact h5 i hi
        · cases k with
          | zero =>
            rw [e1] at h4
            simpa using h4
          | succ k => simpa using h6 k (by omega)
    · have e1 : (checkpoint inp a (S a) sel).maxPerf = sel.maxPerf := by
        simp [checkpoint, hlt]
      have e2 : (checkpoint inp a (S a) sel).maxRank = sel.maxRank := by
        simp [checkpoint, hlt]
      have e3 : (checkpoint inp a (S a) sel).alpha = sel.alpha := by
        simp [checkpoint, hlt]
      rcases ih (checkpoint inp a (S a) sel) with ⟨h1, h2, h3, h4⟩ | ⟨k0, hk0, h1, h2, h3, h4, h5, h6⟩
      · left
        refine ⟨by rw [h1, e1], by rw [h2, e2], by rw [h3, e3], fun i hi => ?_⟩
        rcases List.mem_cons.mp hi with rfl | hi
        · exact not_lt.mp hlt
        · rw [← e1]; exact h4 i hi
      · right
        rw [e1] at h4
        refine ⟨k0 + 1, by omega, by simpa using h1, by simpa using h2, by simpa using h3,
          h4, fun i hi => ?_, fun k hk => ?_⟩
        · rcases List.mem_cons.mp hi with rfl | hi
          · exact le_trans (not_lt.mp hlt) h4.le
          · exact h5 i hi
        · cases k with
          | zero => simpa using lt_of_le_of_lt (not_lt.mp hlt) h4
          | succ k => simpa using h6 k (by omega)

end Selection


section SelectionClaims

variable {α : Type} [LinearOrderedField α]

theorem getD_mem_of_lt (l : List Nat) (k : Nat) (hk : k < l.length) : l.getD k 0 ∈ l := by
  rw [List.getD_eq_getElem l 0 hk]
  exact List.getElem_mem hk

theorem train_acc_data (sqrt exp : α → α) (inp : TrainInput α) (hm : 1 ≤ inp.m) (k : Nat)
    (hk : k < (ireg inp.m inp.n_rank).length) :
    (train sqrt exp inp).acc.data 0 k =
      perf_i inp ((ireg inp.m inp.n_rank).getD k 0)
        (trainLoop sqrt exp inp ((ireg inp.m inp.n_rank).getD k 0 + 1)).1 := by
  have h := (foldl_checkpoint_perfs inp (fun i => (trainLoop sqrt exp inp (i + 1)).1)
    (ireg inp.m inp.n_rank) (initSel inp)).2.2 k hk
  simp only [train]
  rw [trainLoop_snd_final sqrt exp inp hm]
  simpa [initSel] using h

/-- Claim C6: for a rank budget `m ≥ 1`, the performance vector `paramsel.acc`
published by `train` is a row with one entry per element of the checkpoint set,
all of them written, and its `k`-th entry is the score of the `k`-th checkpoint of
the ascending (strictly increasing) enumeration of the set. -/
theorem acc_one_entry_per_checkpoint_ascending (sqrt exp : α → α) (inp : TrainInput α)
    (hm : 1 ≤ inp.m) :
    (train sqrt exp inp).acc.rows = 1 ∧
    (train sqrt exp inp).acc.cols = (ireg inp.m inp.n_rank).length ∧
    (trainLoop sqrt exp inp inp.m).2.perfs = (ireg inp.m inp.n_rank).length ∧
    (∀ k, k < (ireg inp.m inp.n_rank).length →
      (train sqrt exp inp).acc.data 0 k =
        perf_i inp ((ireg inp.m inp.n_rank).getD k 0)
          (trainLoop sqrt exp inp ((ireg inp.m inp.n_rank).getD k 0 + 1)).1) ∧
    (ireg inp.m inp.n_rank).Pairwise (· < ·) := by
  refine ⟨rfl, rfl, ?_, fun k hk => train_acc_data sqrt exp inp hm k hk, ireg_pairwise _ _⟩
  rw [trainLoop_snd_final sqrt exp inp hm]
  have h := (foldl_checkpoint_perfs inp (fun i => (trainLoop sqrt exp inp (i + 1)).1)
    (ireg inp.m inp.n_rank) (initSel inp)).1
  simpa [initSel] using h

theorem acc_one_entry_per_checkpoint_ascending_witness :
    1 ≤ (scenarioInput ℝ).m ∧
    (train Real.sqrt Real.exp (scenarioInput ℝ)).acc.cols = 2 ∧
    (train Real.sqrt Real.exp (scenarioInput ℝ)).acc.data 0 0 = 1 ∧
    (train Real.sqrt Real.exp (scenarioInput ℝ)).acc.data 0 1 = 1 := by
  have h := acc_one_entry_per_checkpoint_ascending Real.sqrt Real.exp (scenarioInput ℝ)
    (by decide)
  have hI : ireg (scenarioInput ℝ).m (scenarioInput ℝ).n_rank = [1, 2] := by decide
  refine ⟨by decide, ?_, ?_, ?_⟩
  · rw [h.2.1, hI]
    rfl
  · rw [h.2.2.2.1 0 (by rw [hI]; decide)]
    simp [perf_i, scenarioInput]
  · rw [h.2.2.2.1 1 (by rw [hI]; decide)]
    simp [perf_i, scenarioInput]

theorem checkpoint_record (inp : TrainInput α) (i : Nat) (s : CholState α) (sel : SelState α) :
    (checkpoint inp i s sel).maxPerf =
      (if sel.maxPerf < perf_i inp i s then perf_i inp i s else sel.maxPerf) ∧
    (checkpoint inp i s sel).maxRank = (if sel.maxPerf < perf_i inp i s then i else sel.maxRank) ∧
    (checkpoint inp i s sel).alpha =
      (if sel.maxPerf < perf_i inp i s then
        { rows := inp.n, cols := inp.t, data := alphaMat inp i s } else sel.alpha) := by
  unfold checkpoint
  simp only
  split_ifs <;> exact ⟨rfl, rfl, rfl⟩

/-- Claim C4: when the checkpoint set is not empty (`m ≥ 1`, `n_rank ≥ 1`) and every
recorded score exceeds the initial sentinel `-max(T)`, the published `maxPerf` is the
maximum of the recorded performance vector, and the published record (`maxRank`, the
iteration index of the chosen checkpoint, and `alpha`) is that of the first checkpoint
in ascending order whose score attains the maximum; the checkpoint block replaces the
record exactly when the new score strictly exceeds the current best. -/
theorem best_record_is_first_argmax (sqrt exp : α → α) (inp : TrainInput α)
    (hm : 1 ≤ inp.m) (hr : 1 ≤ inp.n_rank)
    (hs : ∀ i ∈ ireg inp.m inp.n_rank,
      -inp.Tmax < perf_i inp i (trainLoop sqrt exp inp (i + 1)).1) :
    (∃ k0, k0 < (ireg inp.m inp.n_rank).length ∧
      (train sqrt exp inp).maxPerf = (train sqrt exp inp).acc.data 0 k0 ∧
      (∀ k, k < (ireg inp.m inp.n_rank).length →
        (train sqrt exp inp).acc.data 0 k ≤ (train sqrt exp inp).maxPerf) ∧
      (∀ k, k < k0 → (train sqrt exp inp).acc.data 0 k < (train sqrt exp inp).maxPerf) ∧
      (train sqrt exp inp).maxRank = (ireg inp.m inp.n_rank).getD k0 0 ∧
      (train sqrt exp inp).alpha =
        { rows := inp.n, cols := inp.t,
          data := alphaMat inp ((ireg inp.m inp.n_rank).getD k0 0)
            (trainLoop sqrt exp inp ((ireg inp.m inp.n_rank).getD k0 0 + 1)).1 }) ∧
    (∀ (i : Nat) (s : CholState α) (sel : SelState α),
      (checkpoint inp i s sel).maxPerf =
        (if sel.maxPerf < perf_i inp i s then perf_i inp i s else sel.maxPerf) ∧
      (checkpoint inp i s sel).maxRank =
        (if sel.maxPerf < perf_i inp i s then i else sel.maxRank) ∧
      (checkpoint inp i s sel).alpha =
        (if sel.maxPerf < perf_i inp i s then
          { rows := inp.n, cols := inp.t, data := alphaMat inp i s } else sel.alpha)) := by
  refine ⟨?_, fun i s sel => checkpoint_record inp i s sel⟩
  have hne : ireg inp.m inp.n_rank ≠ [] := by
    intro h
    have : ulongPred (roundPow inp.m (0 + 1) inp.n_rank) ∈ ireg inp.m inp.n_rank :=
      (mem_ireg _ _ _).mpr ⟨0, hr, rfl⟩
    rw [h] at this
    simp at this
  have hfin := trainLoop_snd_final sqrt exp inp hm
  have hmp : (train sqrt exp inp).maxPerf = (trainLoop sqrt exp inp inp.m).2.maxPerf := rfl
  have hmr : (train sqrt exp inp).maxRank = (trainLoop sqrt exp inp inp.m).2.maxRank := rfl
  have hal : (train sqrt exp inp).alpha = (trainLoop sqrt exp inp inp.m).2.alpha := rfl
  rcases foldl_checkpoint_best inp (fun i => (trainLoop sqrt exp inp (i + 1)).1)
    (ireg inp.m inp.n_rank) (initSel inp) with ⟨_, _, _, h4⟩ | ⟨k0, hk0, h1, h2, h3, _, h5, h6⟩
  · exfalso
    obtain ⟨i, hi⟩ := List.exists_mem_of_ne_nil _ hne
    have := h4 i hi
    have := hs i hi
    simp only [initSel] at *
    exact absurd (lt_of_lt_of_le ‹-inp.Tmax < _› ‹_ ≤ -inp.Tmax›) (lt_irrefl _)
  · rw [← hfin] at h1 h2 h3 h5 h6
    refine ⟨k0, hk0, ?_, fun k hk => ?_, fun k hk => ?_, ?_, ?_⟩
    · rw [train_acc_data sqrt exp inp hm k0 hk0, hmp, h2]
    · rw [train_acc_data sqrt exp inp hm k hk, hmp]
      exact h5 _ (getD_mem_of_lt _ k hk)
    · rw [train_acc_data sqrt exp inp hm k (by omega), hmp]
      exact h6 k hk
    · rw [hmr, h1]
    · rw [hal, h3]

theorem best_record_is_first_argmax_witness :
    (1 ≤ (scenarioInput ℝ).m ∧ 1 ≤ (scenarioInput ℝ).n_rank ∧
      ∀ i ∈ ireg (scenarioInput ℝ).m (scenarioInput ℝ).n_rank,
        -(scenarioInput ℝ).Tmax <
          perf_i (scenarioInput ℝ) i (trainLoop Real.sqrt Real.exp (scenarioInput ℝ) (i + 1)).1) ∧
    (train Real.sqrt Real.exp (scenarioInput ℝ)).maxPerf = 1 := by
  have hs : ∀ i ∈ ireg (scenarioInput ℝ).m (scenarioInput ℝ).n_rank,
      -(scenarioInput ℝ).Tmax <
        perf_i (scenarioInput ℝ) i (trainLoop Real.sqrt Real.exp (scenarioInput ℝ) (i + 1)).1 := by
    intro i _
    simp only [perf_i, scenarioInput]
    norm_num
  obtain ⟨k0, hk0, h1, -⟩ :=
    (best_record_is_first_argmax Real.sqrt Real.exp (scenarioInput ℝ) (by decide) (by decide)
      hs).1
  refine ⟨⟨by decide, by decide, hs⟩, ?_⟩
  rw [h1, train_acc_data Real.sqrt Real.exp (scenarioInput ℝ) (by decide) k0 hk0]
  simp [perf_i, scenarioInput]

theorem ireg_three_two : ireg 3 2 = [1, 2] := by decide

/-- Claim C5 (what the code does): in the scenario `n = 4`, `d = 2`, `rank_max = 3`,
`n_rank = 2` the checkpoints are the iterations 1 and 2 (ranks 2 and 3), two scores
are recorded, and when the rank-2 score exceeds the sentinel the published
`maxRank` is the iteration index of the chosen checkpoint: 2 if the rank-3 score
is strictly larger, 1 otherwise; it is never the rank 3, and it is not 2 on a tie. -/
theorem scenario_publishes_iteration_index (sqrt exp : α → α) (inp : TrainInput α)
    (_hn : inp.n = 4) (_hd : inp.d = 2) (hm : inp.m = 3) (hr : inp.n_rank = 2)
    (hs : -inp.Tmax < perf_i inp 1 (trainLoop sqrt exp inp 2).1) :
    ireg inp.m inp.n_rank = [1, 2] ∧
    (train sqrt exp inp).acc.cols = 2 ∧
    (train sqrt exp inp).maxRank =
      (if perf_i inp 1 (trainLoop sqrt exp inp 2).1 < perf_i inp 2 (trainLoop sqrt exp inp 3).1
        then 2 else 1) ∧
    (train sqrt exp inp).maxRank ≠ 3 ∧
    (perf_i inp 1 (trainLoop sqrt exp inp 2).1 = perf_i inp 2 (trainLoop sqrt exp inp 3).1 →
      (train sqrt exp inp).maxRank = 1) := by
  have hI : ireg inp.m inp.n_rank = [1, 2] := by rw [hm, hr]; exact ireg_three_two
  have hfin := trainLoop_snd_final sqrt exp inp (by omega)
  have hmr : (train sqrt exp inp).maxRank = (trainLoop sqrt exp inp inp.m).2.maxRank := rfl
  have key : (train sqrt exp inp).maxRank =
      (if perf_i inp 1 (trainLoop sqrt exp inp 2).1 < perf_i inp 2 (trainLoop sqrt exp inp 3).1
        then 2 else 1) := by
    rw [hmr, hfin, hI]
    simp only [List.foldl_cons, List.foldl_nil]
    rw [(checkpoint_record inp 2 _ _).2.1, (checkpoint_record inp 1 _ _).2.1,
      (checkpoint_record inp 1 _ _).1]
    simp only [initSel]
    rw [if_pos hs, if_pos hs]
  refine ⟨hI, ?_, key, ?_, ?_⟩
  · simp only [train]
    rw [hI]
    rfl
  · rw [key]
    split_ifs <;> omega
  · intro heq
    rw [key, heq, if_neg (lt_irrefl _)]

theorem scenario_publishes_iteration_index_witness :
    ((scenarioInput ℝ).n = 4 ∧ (scenarioInput ℝ).d = 2 ∧ (scenarioInput ℝ).m = 3 ∧
      (scenarioInput ℝ).n_rank = 2) ∧
    (train Real.sqrt Real.exp (scenarioInput ℝ)).maxRank = 1 := by
  have hs : -(scenarioInput ℝ).Tmax <
      perf_i (scenarioInput ℝ) 1 (trainLoop Real.sqrt Real.exp (scenarioInput ℝ) 2).1 := by
    simp only [perf_i, scenarioInput]
    norm_num
  have h := scenario_publishes_iteration_index Real.sqrt Real.exp (scenarioInput ℝ) rfl rfl rfl rfl hs
  refine ⟨⟨rfl, rfl, rfl, rfl⟩, h.2.2.2.2 ?_⟩
  simp only [perf_i, scenarioInput]

end SelectionClaims


/-! ## Error handling: `eval`, `getValue`, `dynacast` -/

/-- Claim C8: whatever the input matrix, `eval` on a wrapper for which
`trainedModel()` is false raises the error "Error, Train Model First"; the result
does not depend on the prediction task (no prediction is attempted) and is no
matrix. -/
theorem eval_untrained_raises {α W : Type} (trainedModel : W → Bool)
    (predTask : gMat2D α → W → Except gException (gMat2D α)) (self : W) (X : gMat2D α)
    (h : trainedModel self = false) :
    eval trainedModel predTask self X =
      Except.error (gException.message "Error, Train Model First") ∧
    (∀ predTask2 : gMat2D α → W → Except gException (gMat2D α),
      eval trainedModel predTask2 self X = eval trainedModel predTask self X) ∧
    (∀ M : gMat2D α, eval trainedModel predTask self X ≠ Except.ok M) := by
  have key : ∀ p : gMat2D α → W → Except gException (gMat2D α),
      eval trainedModel p self X =
        Except.error (gException.message "Error, Train Model First") := by
    intro p
    simp [eval, h]
  refine ⟨key predTask, fun p => by rw [key p, key predTask], fun M hM => ?_⟩
  rw [key predTask] at hM
  cases hM

theorem eval_untrained_raises_witness :
    (fun _ : Unit => false) () = false ∧
    eval (fun _ : Unit => false)
      (fun (X : gMat2D ℚ) _ => Except.ok { rows := X.rows, cols := 1, data := fun _ _ => 0 })
      () { rows := 2, cols := 2, data := fun _ _ => 1 } =
      Except.error (gException.message "Error, Train Model First") :=
  ⟨rfl, (eval_untrained_raises (fun _ : Unit => false)
      (fun (X : gMat2D ℚ) _ => Except.ok { rows := X.rows, cols := 1, data := fun _ _ => 0 })
      () { rows := 2, cols := 2, data := fun _ _ => 1 } rfl).1⟩

/-- Claim C9: `OptFunction::getValue` returns the mean, min, max or median of the
array when the name is exactly "mean", "min", "max" or "median", and raises
`Exception_Unknown_Function` (returning no value) if and only if the name is none
of the four. -/
theorem getValue_dispatch_or_unknown_function {α : Type}
    (mean min max median : (Nat → α) → Int → α) (array : Nat → α) (n : Int) :
    OptFunction.getValue mean min max median "mean" array n = Except.ok (mean array n) ∧
    OptFunction.getValue mean min max median "min" array n = Except.ok (min array n) ∧
    OptFunction.getValue mean min max median "max" array n = Except.ok (max array n) ∧
    OptFunction.getValue mean min max median "median" array n = Except.ok (median array n) ∧
    (∀ s : String,
      (OptFunction.getValue mean min max median s array n =
          Except.error gException.Exception_Unknown_Function ↔
        (s ≠ "mean" ∧ s ≠ "min" ∧ s ≠ "max" ∧ s ≠ "median")) ∧
      ((∃ v, OptFunction.getValue mean min max median s array n = Except.ok v) ↔
        (s = "mean" ∨ s = "min" ∨ s = "max" ∨ s = "median"))) := by
  refine ⟨by simp [OptFunction.getValue], by simp [OptFunction.getValue],
    by simp [OptFunction.getValue], by simp [OptFunction.getValue], fun s => ?_⟩
  unfold OptFunction.getValue
  by_cases h1 : s = "mean"
  · simp [h1]
  by_cases h2 : s = "min"
  · simp [h2]
  by_cases h3 : s = "max"
  · simp [h3]
  by_cases h4 : s = "median"
  · simp [h4]
  simp [h1, h2, h3, h4]

/-- Claim C10: for each of the seven option classes `V` with a `dynacast` and every
option object `o`, `V::dynacast(o)` returns `o` itself when the class of `o` is `V`
and raises `Exception_Illegal_Dynamic_Cast` when it is any other class. -/
theorem dynacast_returns_object_or_illegal_cast {α : Type} (o : GurlsOption α) :
    OptString.dynacast o =
      (if o.classOf = OptClass.OptString then Except.ok o
        else Except.error gException.Exception_Illegal_Dynamic_Cast) ∧
    OptStringList.dynacast o =
      (if o.classOf = OptClass.OptStringList then Except.ok o
        else Except.error gException.Exception_Illegal_Dynamic_Cast) ∧
    OptNumber.dynacast o =
      (if o.classOf = OptClass.OptNumber then Except.ok o
        else Except.error gException.Exception_Illegal_Dynamic_Cast) ∧
    OptNumberList.dynacast o =
      (if o.classOf = OptClass.OptNumberList then Except.ok o
        else Except.error gException.Exception_Illegal_Dynamic_Cast) ∧
    OptFunction.dynacast o =
      (if o.classOf = OptClass.OptFunction then Except.ok o
        else Except.error gException.Exception_Illegal_Dynamic_Cast) ∧
    OptMatrix.dynacast o =
      (if o.classOf = OptClass.OptMatrix then Except.ok o
        else Except.error gException.Exception_Illegal_Dynamic_Cast) ∧
    OptTaskSequence.dynacast o =
      (if o.classOf = OptClass.OptTaskSequence then Except.ok o
        else Except.error gException.Exception_Illegal_Dynamic_Cast) := by
  cases o <;>
    simp [OptString.dynacast, OptStringList.dynacast, OptNumber.dynacast,
      OptNumberList.dynacast, OptFunction.dynacast, OptMatrix.dynacast,
      OptTaskSequence.dynacast, GurlsOption.isA, GurlsOption.classOf]


/-- The cast of `OptMatrix` accepts a matrix option of any element type: the member
`matType` is not consulted. -/
theorem OptMatrix_dynacast_any_matType {α : Type} (matType : MatrixType) (value : gMat2D α) :
    OptMatrix.dynacast (GurlsOption.OptMatrix matType value) =
      Except.ok (GurlsOption.OptMatrix matType value) := by
  simp [OptMatrix.dynacast, GurlsOption.isA]

/-! ## The pivoted Cholesky factor -/

section Cholesky

variable {α : Type} [LinearOrderedField α]

theorem kernel_symm (exp : α → α) (X : Nat → Nat → α) (d : Nat) (sigma : α) (a b : Nat) :
    kernel exp X d sigma a b = kernel exp X d sigma b a := by
  unfold kernel
  congr 2
  apply Finset.sum_congr rfl
  intro c _
  ring

theorem kernel_self (exp : α → α) (hexp : exp 0 = 1) (X : Nat → Nat → α) (d : Nat) (sigma : α)
    (a : Nat) : kernel exp X d sigma a a = 1 := by
  unfold kernel
  simp [hexp]

theorem computeNewKcol_getD (exp : α → α) (X : Nat → Nat → α) (xr xc : Nat) (sigma : α)
    (pVec : Nat → Nat) (start n k : Nat) (hk : k < n - start) :
    (computeNewKcol exp X xr xc sigma pVec start n).getD k 0 =
      kernel exp X xc sigma (pVec (start + k)) (pVec (start - 1)) := by
  unfold computeNewKcol
  simp only
  rw [List.getD_eq_getElem _ _ (by simpa using hk)]
  simp [kernel, distance, transpose, subMatrixFromRows, getRow]

theorem computeNewKcol_length (exp : α → α) (X : Nat → Nat → α) (xr xc : Nat) (sigma : α)
    (pVec : Nat → Nat) (start n : Nat) :
    (computeNewKcol exp X xr xc sigma pVec start n).length = n - start := by
  simp [computeNewKcol]

theorem firstIter_G (sqrt exp : α → α) (inp : TrainInput α) (s : CholState α) (j c : Nat) :
    (firstIter sqrt exp inp s).G j c =
      if c = 0 ∧ 1 ≤ j ∧ j < inp.n then kernel exp inp.X inp.d inp.sigma j 0
      else if j = 0 ∧ c = 0 then 1 else s.G j c := by
  simp only [firstIter]
  split_ifs with h
  · rw [computeNewKcol_getD _ _ _ _ _ _ _ _ _ (by omega)]
    congr 1
    omega
  · rfl
  · rfl

theorem firstIter_diagG (sqrt exp : α → α) (inp : TrainInput α) (s : CholState α) (j : Nat)
    (h1 : 1 ≤ j) (h2 : j < inp.n) :
    (firstIter sqrt exp inp s).diagG j =
      1 - kernel exp inp.X inp.d inp.sigma j 0 * kernel exp inp.X inp.d inp.sigma j 0 := by
  simp only [firstIter]
  rw [if_pos ⟨h1, h2⟩, computeNewKcol_getD _ _ _ _ _ _ _ _ _ (by omega)]
  rw [show 1 + (j - 1) = j by omega]
  simp only [Nat.sub_self]
  ring

end Cholesky


section CholeskyStep

variable {α : Type} [LinearOrderedField α]

theorem nextIter_pVec (sqrt exp : α → α) (inp : TrainInput α) (i : Nat) (s : CholState α)
    (j : Nat) :
    (nextIter sqrt exp inp i s).pVec j =
      if j = i then s.pVec (max_element s.diagG i inp.n)
      else if j = max_element s.diagG i inp.n then s.pVec i else s.pVec j := rfl

theorem sum_ite_ne_mul (f g : Nat → α) (v w : α) (P Q : Prop) [Decidable P] [Decidable Q]
    (i : Nat) :
    ∑ x ∈ range i, (if P ∧ x = i then v else f x) * (if Q ∧ x = i then w else g x) =
      ∑ x ∈ range i, f x * g x := by
  apply Finset.sum_congr rfl
  intro x hx
  have hx := Finset.mem_range.mp hx
  rw [if_neg (fun h => by omega), if_neg (fun h => by omega)]

theorem nextIter_G (sqrt exp : α → α) (inp : TrainInput α) (i : Nat) (s : CholState α)
    (j c : Nat) :
    (nextIter sqrt exp inp i s).G j c =
      if c = i ∧ i + 1 ≤ j ∧ j < inp.n then
        (1 / sqrt (s.diagG (max_element s.diagG i inp.n))) *
          (kernel exp inp.X inp.d inp.sigma ((nextIter sqrt exp inp i s).pVec j)
              ((nextIter sqrt exp inp i s).pVec i) -
            ∑ k ∈ range i,
              swapRows s.G i (max_element s.diagG i inp.n) (i + 1) j k *
                swapRows s.G i (max_element s.diagG i inp.n) (i + 1) i k)
      else if j = i ∧ c = i then sqrt (s.diagG (max_element s.diagG i inp.n))
      else swapRows s.G i (max_element s.diagG i inp.n) (i + 1) j c := by
  by_cases h : c = i ∧ i + 1 ≤ j ∧ j < inp.n
  · rw [if_pos h]
    simp only [nextIter, gemvNoTrans]
    rw [if_pos h, computeNewKcol_getD _ _ _ _ _ _ _ _ _ (by omega)]
    rw [show i + 1 + (j - (i + 1)) = j by omega, show i + 1 - 1 = i by omega]
    rw [sum_ite_ne_mul]
    ring_nf
  · rw [if_neg h]
    simp only [nextIter]
    rw [if_neg h]
theorem nextIter_diagG (sqrt exp : α → α) (inp : TrainInput α) (i : Nat) (s : CholState α)
    (j : Nat) (h1 : i + 1 ≤ j) (h2 : j < inp.n) :
    (nextIter sqrt exp inp i s).diagG j =
      1 - ∑ k ∈ range (i + 1),
        (nextIter sqrt exp inp i s).G j k * (nextIter sqrt exp inp i s).G j k := by
  simp only [nextIter]
  rw [if_pos ⟨h1, h2⟩, sub_eq_add_neg, neg_one_mul]
  refine congrArg (fun z => 1 + -z) (Finset.sum_congr rfl ?_)
  intro k _
  rw [show i + 1 + (j - (i + 1)) = j by omega]
  by_cases hki : k = i
  · rw [if_pos hki, if_pos ⟨hki, h1, h2⟩]
  · rw [if_neg hki, if_neg (fun h => hki h.2), if_neg (fun h => hki h.1)]

end CholeskyStep


section CholeskyInvariant

variable {α : Type} [LinearOrderedField α]

theorem swapRows_eq {α : Type} (A : Nat → Nat → α) (a b cols j c : Nat) (hc : c < cols) :
    swapRows A a b cols j c = A (if j = a then b else if j = b then a else j) c := by
  unfold swapRows
  rw [if_pos hc]
  split_ifs <;> rfl

theorem swapRows_ge {α : Type} (A : Nat → Nat → α) (a b cols j c : Nat) (hc : cols ≤ c) :
    swapRows A a b cols j c = A j c := by
  unfold swapRows
  rw [if_neg (by omega)]

theorem cholInv_first (sqrt exp : α → α) (hexp : exp 0 = 1) (inp : TrainInput α) :
    CholInv (kernel exp inp.X inp.d inp.sigma) inp.n 1
      (firstIter sqrt exp inp (initChol inp)) := by
  have hG : ∀ j c, (firstIter sqrt exp inp (initChol inp)).G j c =
      if c = 0 ∧ 1 ≤ j ∧ j < inp.n then kernel exp inp.X inp.d inp.sigma j 0
      else if j = 0 ∧ c = 0 then 1 else 0 := by
    intro j c
    rw [firstIter_G]
    rfl
  have hp : ∀ j, (firstIter sqrt exp inp (initChol inp)).pVec j = j := fun j => rfl
  refine ⟨⟨fun j hj => by rw [hp]; exact hj, fun a b _ _ hab => by rwa [hp, hp] at hab⟩,
    fun j c hjc => ?_, fun j c hc => ?_, fun j c hj hc => ?_, fun j h1 h2 => ?_, fun c hc => ?_⟩
  · rw [hG, if_neg (by omega), if_neg (by omega)]
  · rw [hG, if_neg (by omega), if_neg (by omega)]
  · have hc0 : c = 0 := by omega
    subst hc0
    have h00 : (firstIter sqrt exp inp (initChol inp)).G 0 0 = 1 := by
      rw [hG, if_neg (by omega), if_pos ⟨rfl, rfl⟩]
    rw [Finset.sum_range_one, h00, mul_one, hp, hp]
    by_cases hj0 : j = 0
    · subst hj0
      rw [h00, kernel_self exp hexp]
    · rw [hG, if_pos ⟨rfl, by omega, hj⟩]
  · rw [firstIter_diagG _ _ _ _ _ h1 h2, Finset.sum_range_one, hG, if_pos ⟨rfl, h1, h2⟩]
  · have hc0 : c = 0 := by omega
    subst hc0
    rw [hG, if_neg (by omega), if_pos ⟨rfl, rfl⟩]
    exact one_pos

theorem cholInv_next (sqrt exp : α → α) (hexp : exp 0 = 1) (inp : TrainInput α) (i : Nat)
    (s : CholState α) (hi : 1 ≤ i) (hin : i < inp.n)
    (H : CholInv (kernel exp inp.X inp.d inp.sigma) inp.n i s)
    (hpos : 0 < sqrt (s.diagG (max_element s.diagG i inp.n)))
    (hsq : sqrt (s.diagG (max_element s.diagG i inp.n)) *
      sqrt (s.diagG (max_element s.diagG i inp.n)) = s.diagG (max_element s.diagG i inp.n)) :
    CholInv (kernel exp inp.X inp.d inp.sigma) inp.n (i + 1) (nextIter sqrt exp inp i s) := by
  obtain ⟨hj1, hj2, -, -⟩ := max_element_spec s.diagG i inp.n hin
  generalize hjast : max_element s.diagG i inp.n = jast at hj1 hj2 hpos hsq
  generalize hd : sqrt (s.diagG jast) = r at hpos hsq
  have hr : r ≠ 0 := ne_of_gt hpos
  -- the pivot order after the exchange
  have hp : ∀ j, (nextIter sqrt exp inp i s).pVec j =
      s.pVec (if j = i then jast else if j = jast then i else j) := by
    intro j
    rw [nextIter_pVec, hjast]
    split_ifs <;> rfl
  -- the entries of the new factor
  have F1 : ∀ j c, c < i → (nextIter sqrt exp inp i s).G j c =
      s.G (if j = i then jast else if j = jast then i else j) c := by
    intro j c hc
    rw [nextIter_G, if_neg (by omega), if_neg (by omega), hjast, swapRows_eq _ _ _ _ _ _ (by omega)]
  have F2 : ∀ j, j < i → (nextIter sqrt exp inp i s).G j i = 0 := by
    intro j hj
    rw [nextIter_G, if_neg (by omega), if_neg (by omega), hjast,
      swapRows_eq _ _ _ _ _ _ (by omega)]
    exact H.zerocol _ _ le_rfl
  have F3 : (nextIter sqrt exp inp i s).G i i = r := by
    rw [nextIter_G, if_neg (by omega), if_pos ⟨rfl, rfl⟩, hjast, hd]
  have F4 : ∀ j, i < j → j < inp.n → (nextIter sqrt exp inp i s).G j i =
      (1 / r) * (kernel exp inp.X inp.d inp.sigma ((nextIter sqrt exp inp i s).pVec j)
          ((nextIter sqrt exp inp i s).pVec i) -
        ∑ k ∈ range i, s.G (if j = i then jast else if j = jast then i else j) k *
          s.G jast k) := by
    intro j hj1 hj2
    rw [nextIter_G, if_pos ⟨rfl, by omega, hj2⟩, hjast, hd]
    congr 2
    apply Finset.sum_congr rfl
    intro k hk
    have hk := Finset.mem_range.mp hk
    rw [swapRows_eq _ _ _ _ _ _ (by omega), swapRows_eq _ _ _ _ _ _ (by omega), if_pos rfl]
  have F5 : ∀ j c, i < c → (nextIter sqrt exp inp i s).G j c = 0 := by
    intro j c hc
    rw [nextIter_G, if_neg (by omega), if_neg (by omega), hjast, swapRows_ge _ _ _ _ _ _ (by omega)]
    exact H.zerocol _ _ hc.le
  have hσn : ∀ j, j < inp.n → (if j = i then jast else if j = jast then i else j) < inp.n := by
    intro j hj
    split_ifs <;> omega
  -- the Gram identity of the exchanged rows against an old column
  have hgram : ∀ j c, j < inp.n → c < i →
      ∑ k ∈ range i, s.G (if j = i then jast else if j = jast then i else j) k * s.G c k =
        kernel exp inp.X inp.d inp.sigma ((nextIter sqrt exp inp i s).pVec j) (s.pVec c) := by
    intro j c hj hc
    rw [hp]
    exact H.gram _ c (hσn j hj) hc
  have hdiag : s.diagG jast = 1 - ∑ k ∈ range i, s.G jast k * s.G jast k :=
    H.diag jast hj1 hj2
  refine ⟨?_, fun j c hjc => ?_, fun j c hc => F5 j c (by omega), fun j c hj hc => ?_,
    fun j h1 h2 => nextIter_diagG sqrt exp inp i s j h1 h2, fun c hc => ?_⟩
  · have := PermOn.swap H.perm hin hj2
    refine ⟨fun j hj => ?_, fun a b ha hb hab => ?_⟩
    · rw [nextIter_pVec, hjast]
      exact this.1 j hj
    · rw [nextIter_pVec, nextIter_pVec, hjast] at hab
      exact this.2 a b ha hb hab
  · rcases lt_trichotomy c i with hc | hc | hc
    · rw [F1 j c hc, if_neg (by omega), if_neg (by omega)]
      exact H.upper j c hjc
    · subst hc
      exact F2 j hjc
    · exact F5 j c hc
  · rw [Finset.sum_range_succ]
    have hsum : ∑ k ∈ range i, (nextIter sqrt exp inp i s).G j k * (nextIter sqrt exp inp i s).G c k
        = ∑ k ∈ range i, s.G (if j = i then jast else if j = jast then i else j) k *
            s.G (if c = i then jast else if c = jast then i else c) k := by
      apply Finset.sum_congr rfl
      intro k hk
      have hk := Finset.mem_range.mp hk
      rw [F1 j k hk, F1 c k hk]
    rw [hsum]
    rcases Nat.lt_succ_iff_lt_or_eq.mp hc with hci | hci
    · rw [F2 c hci, mul_zero, add_zero, if_neg (show ¬ c = i by omega),
        if_neg (show ¬ c = jast by omega), hgram j c hj hci, hp c,
        if_neg (show ¬ c = i by omega), if_neg (show ¬ c = jast by omega)]
    · subst hci
      rw [if_pos rfl, F3]
      rcases lt_trichotomy j c with hjc | hjc | hjc
      · rw [F2 j hjc, zero_mul, add_zero, if_neg (show ¬ j = c by omega),
          if_neg (show ¬ j = jast by omega)]
        have h1 := H.gram jast j hj2 hjc
        have h2 : ∑ k ∈ range c, s.G j k * s.G jast k = ∑ k ∈ range c, s.G jast k * s.G j k :=
          Finset.sum_congr rfl (fun k _ => mul_comm _ _)
        rw [h2, h1, hp j, hp c, if_neg (show ¬ j = c by omega),
          if_neg (show ¬ j = jast by omega), if_pos rfl]
        exact kernel_symm _ _ _ _ _ _
      · subst hjc
        rw [if_pos rfl, F3, hsq, hdiag, kernel_self exp hexp]
        ring
      · rw [F4 j hjc hj, if_neg (show ¬ j = c by omega)]
        have h1 := hgram j
        rw [hp c, if_pos rfl]
        field_simp
  · rcases Nat.lt_succ_iff_lt_or_eq.mp hc with hci | hci
    · rw [F1 c c hci, if_neg (by omega), if_neg (by omega)]
      exact H.pos c hci
    · subst hci
      rw [F3]
      exact hpos

end CholeskyInvariant


section PositiveDefinite

variable {α : Type} [LinearOrderedField α]

/-- A lower triangular system with non-zero diagonal can be solved from the left. -/
theorem lower_triangular_solve (G : Nat → Nat → α) (hupper : ∀ a c, a < c → G a c = 0) :
    ∀ (i : Nat) (g : Nat → α), (∀ c, c < i → G c c ≠ 0) →
      ∃ w : Nat → α, ∀ k, k < i → ∑ a ∈ range i, w a * G a k = g k := by
  intro i
  induction i with
  | zero => intro g _; exact ⟨fun _ => 0, fun k hk => by omega⟩
  | succ i ih =>
    intro g hdiag
    obtain ⟨w0, hw0⟩ := ih (fun k => g k - g i / G i i * G i k) (fun c hc => hdiag c (by omega))
    refine ⟨fun a => if a = i then g i / G i i else w0 a, fun k hk => ?_⟩
    simp only
    rw [Finset.sum_range_succ, if_pos rfl]
    have hsum : ∑ a ∈ range i, (if a = i then g i / G i i else w0 a) * G a k =
        ∑ a ∈ range i, w0 a * G a k := by
      apply Finset.sum_congr rfl
      intro a ha
      rw [if_neg (by have := Finset.mem_range.mp ha; omega)]
    rw [hsum]
    rcases Nat.lt_succ_iff_lt_or_eq.mp hk with hki | hki
    · rw [hw0 k hki]
      ring
    · subst hki
      have hz : ∑ a ∈ range k, w0 a * G a k = 0 := by
        apply Finset.sum_eq_zero
        intro a ha
        rw [hupper a k (Finset.mem_range.mp ha), mul_zero]
      rw [hz, zero_add, div_mul_cancel₀ _ (hdiag k (by omega))]

theorem PermOn.image_eq {n : Nat} {p : Nat → Nat} (hp : PermOn n p) :
    (range n).image p = range n := by
  ext x
  simp only [Finset.mem_image, Finset.mem_range]
  constructor
  · rintro ⟨j, hj, rfl⟩
    exact hp.1 j hj
  · intro hx
    exact hp.mem_map x hx

theorem PermOn.sum_comp {n : Nat} {p : Nat → Nat} (hp : PermOn n p) (f : Nat → α) :
    ∑ a ∈ range n, f (p a) = ∑ s ∈ range n, f s := by
  conv_rhs => rw [← hp.image_eq]
  rw [Finset.sum_image]
  intro a ha b hb hab
  exact hp.2 a b (Finset.mem_range.mp ha) (Finset.mem_range.mp hb) hab

/-- A positive definite matrix stays positive definite when its rows and columns
are reordered by a permutation. -/
theorem PosDefOn.comp_perm {n : Nat} {K : Nat → Nat → α} (hK : PosDefOn n K) {p : Nat → Nat}
    (hp : PermOn n p) (u : Nat → α) (hu : ∃ a, a < n ∧ u a ≠ 0) :
    0 < ∑ a ∈ range n, ∑ b ∈ range n, u a * K (p a) (p b) * u b := by
  have hv : ∀ a, a < n → (∑ x ∈ range n, if p x = p a then u x else 0) = u a := by
    intro a ha
    rw [Finset.sum_eq_single a]
    · rw [if_pos rfl]
    · intro b hb hba
      rw [if_neg]
      intro h
      exact hba (hp.2 b a (Finset.mem_range.mp hb) ha h)
    · intro h
      exact absurd (Finset.mem_range.mpr ha) h
  have h := hK (fun s => ∑ x ∈ range n, if p x = s then u x else 0) (by
    obtain ⟨a, ha, hua⟩ := hu
    exact ⟨p a, hp.1 a ha, by simp only; rw [hv a ha]; exact hua⟩)
  rw [← hp.sum_comp] at h
  have heq : ∀ a ∈ range n,
      (∑ b ∈ range n, (fun s => ∑ x ∈ range n, if p x = s then u x else 0) (p a) * K (p a) b *
        (fun s => ∑ x ∈ range n, if p x = s then u x else 0) b) =
      ∑ b ∈ range n, u a * K (p a) (p b) * u b := by
    intro a ha
    rw [← hp.sum_comp]
    apply Finset.sum_congr rfl
    intro b hb
    simp only
    rw [hv a (Finset.mem_range.mp ha), hv b (Finset.mem_range.mp hb)]
  rw [Finset.sum_congr rfl heq] at h
  exact h

theorem sum_support (n i j : Nat) (hij : i ≤ j) (hjn : j < n) (w f : Nat → α) :
    ∑ a ∈ range n, (if a < i then -w a else if a = j then 1 else 0) * f a =
      ∑ a ∈ range i, (-w a) * f a + f j := by
  have h1 : ∀ a ∈ range n, (if a < i then -w a else if a = j then 1 else 0) * f a =
      (if a < i then (-w a) * f a else 0) + (if a = j then f a else 0) := by
    intro a _
    by_cases ha : a < i
    · rw [if_pos ha, if_pos ha, if_neg (by omega), add_zero]
    · rw [if_neg ha, if_neg ha, zero_add]
      by_cases haj : a = j
      · rw [if_pos haj, if_pos haj, one_mul]
      · rw [if_neg haj, if_neg haj, zero_mul]
  rw [Finset.sum_congr rfl h1, Finset.sum_add_distrib]
  congr 1
  · have hsub : range i ⊆ range n := Finset.range_subset.mpr (by omega)
    rw [← Finset.sum_subset hsub]
    · apply Finset.sum_congr rfl
      intro a ha
      rw [if_pos (Finset.mem_range.mp ha)]
    · intro a _ ha
      rw [if_neg (by simpa using ha)]
  · rw [Finset.sum_ite_eq' (range n) j f, if_pos (Finset.mem_range.mpr hjn)]

theorem solve_apply (i : Nat) (G : Nat → Nat → α) (w g : Nat → α)
    (hw : ∀ k, k < i → ∑ a ∈ range i, w a * G a k = g k) (A : Nat → α) :
    ∑ b ∈ range i, (-w b) * ∑ k ∈ range i, A k * G b k = -∑ k ∈ range i, A k * g k := by
  have h1 : ∀ b ∈ range i, (-w b) * ∑ k ∈ range i, A k * G b k =
      ∑ k ∈ range i, -(A k * (w b * G b k)) := by
    intro b _
    rw [Finset.mul_sum]
    apply Finset.sum_congr rfl
    intro k _
    ring
  rw [Finset.sum_congr rfl h1, Finset.sum_comm, ← Finset.sum_neg_distrib]
  apply Finset.sum_congr rfl
  intro k hk
  rw [Finset.sum_neg_distrib, ← Finset.mul_sum, hw k (Finset.mem_range.mp hk)]

/-- Under the invariant, positive definiteness of the kernel matrix makes every
remaining residual positive. -/
theorem cholInv_residual_pos (K : Nat → Nat → α) (hsymm : ∀ a b, K a b = K b a)
    (hself : ∀ a, K a a = 1) (n i : Nat) (s : CholState α) (H : CholInv K n i s)
    (hK : PosDefOn n K) (j : Nat) (hij : i ≤ j) (hjn : j < n) : 0 < s.diagG j := by
  obtain ⟨w, hw⟩ := lower_triangular_solve s.G H.upper i (fun k => s.G j k)
    (fun c hc => ne_of_gt (H.pos c hc))
  have hq := hK.comp_perm H.perm (fun a => if a < i then -w a else if a = j then 1 else 0)
    ⟨j, hjn, by simp only [if_neg (not_lt.mpr hij), if_true]; exact one_ne_zero⟩
  -- the inner sums
  have hF : ∀ a, a < n →
      ∑ b ∈ range n, K (s.pVec a) (s.pVec b) *
        (if b < i then -w b else if b = j then 1 else 0) =
      -(∑ k ∈ range i, s.G a k * s.G j k) + K (s.pVec a) (s.pVec j) := by
    intro a ha
    have h1 : ∀ b ∈ range n, K (s.pVec a) (s.pVec b) *
        (if b < i then -w b else if b = j then 1 else 0) =
        (if b < i then -w b else if b = j then 1 else 0) * K (s.pVec a) (s.pVec b) :=
      fun b _ => mul_comm _ _
    rw [Finset.sum_congr rfl h1, sum_support n i j hij hjn w (fun b => K (s.pVec a) (s.pVec b))]
    congr 1
    have h2 : ∀ b ∈ range i, (-w b) * K (s.pVec a) (s.pVec b) =
        (-w b) * ∑ k ∈ range i, s.G a k * s.G b k := by
      intro b hb
      rw [H.gram a b ha (Finset.mem_range.mp hb)]
    rw [Finset.sum_congr rfl h2, solve_apply i s.G w (fun k => s.G j k) hw]
  have hFa : ∀ a, a < i →
      ∑ b ∈ range n, K (s.pVec a) (s.pVec b) *
        (if b < i then -w b else if b = j then 1 else 0) = 0 := by
    intro a ha
    rw [hF a (by omega), hsymm, ← H.gram j a hjn ha]
    have : ∑ k ∈ range i, s.G a k * s.G j k = ∑ k ∈ range i, s.G j k * s.G a k :=
      Finset.sum_congr rfl (fun k _ => mul_comm _ _)
    rw [this]
    ring
  have hFj : ∑ b ∈ range n, K (s.pVec j) (s.pVec b) *
        (if b < i then -w b else if b = j then 1 else 0) = s.diagG j := by
    rw [hF j hjn, hself, H.diag j hij hjn]
    ring
  have hsum : ∑ a ∈ range n, ∑ b ∈ range n,
      (if a < i then -w a else if a = j then 1 else 0) * K (s.pVec a) (s.pVec b) *
        (if b < i then -w b else if b = j then 1 else 0) = s.diagG j := by
    have h1 : ∀ a ∈ range n, ∑ b ∈ range n,
        (if a < i then -w a else if a = j then 1 else 0) * K (s.pVec a) (s.pVec b) *
          (if b < i then -w b else if b = j then 1 else 0) =
        (if a < i then -w a else if a = j then 1 else 0) *
          ∑ b ∈ range n, K (s.pVec a) (s.pVec b) *
            (if b < i then -w b else if b = j then 1 else 0) := by
      intro a _
      rw [Finset.mul_sum]
      apply Finset.sum_congr rfl
      intro b _
      ring
    rw [Finset.sum_congr rfl h1, sum_support n i j hij hjn w, hFj]
    have h2 : ∑ a ∈ range i, (-w a) * ∑ b ∈ range n, K (s.pVec a) (s.pVec b) *
        (if b < i then -w b else if b = j then 1 else 0) = 0 := by
      apply Finset.sum_eq_zero
      intro a ha
      rw [hFa a (Finset.mem_range.mp ha), mul_zero]
    rw [h2, zero_add]
  rw [← hsum]
  exact hq

end PositiveDefinite


section FullRank

variable {α : Type} [LinearOrderedField α]

/-- With a positive definite kernel matrix and exact `sqrt` and `exp`, the
decomposition invariant holds after every iteration of the main loop. -/
theorem trainLoop_cholInv (sqrt exp : α → α) (hexp : exp 0 = 1)
    (hsqrt : ∀ x, 0 < x → 0 < sqrt x ∧ sqrt x * sqrt x = x) (inp : TrainInput α)
    (hK : PosDefOn inp.n (kernel exp inp.X inp.d inp.sigma)) :
    ∀ k, 1 ≤ k → k ≤ inp.n →
      CholInv (kernel exp inp.X inp.d inp.sigma) inp.n k (trainLoop sqrt exp inp k).1 := by
  intro k
  induction k with
  | zero => intro h; omega
  | succ k ih =>
    intro _ hk
    rw [trainLoop_succ_fst]
    rcases Nat.eq_zero_or_pos k with h0 | hpos
    · subst h0
      have : (trainLoop sqrt exp inp 0).1 = initChol inp := rfl
      rw [this, cholStep, if_pos rfl]
      exact cholInv_first sqrt exp hexp inp
    · have H := ih hpos (by omega)
      rw [cholStep, if_neg (by omega)]
      obtain ⟨hj1, hj2, -, -⟩ :=
        max_element_spec (trainLoop sqrt exp inp k).1.diagG k inp.n (by omega)
      have hd := cholInv_residual_pos _ (kernel_symm exp inp.X inp.d inp.sigma)
        (kernel_self exp hexp inp.X inp.d inp.sigma) inp.n k _ H hK _ hj1 hj2
      exact cholInv_next sqrt exp hexp inp k _ hpos (by omega) H (hsqrt _ hd).1 (hsqrt _ hd).2

theorem real_sqrt_exact (x : ℝ) (hx : 0 < x) :
    0 < Real.sqrt x ∧ Real.sqrt x * Real.sqrt x = x :=
  ⟨Real.sqrt_pos.mpr hx, Real.mul_self_sqrt hx.le⟩

theorem kernel_real (X : Nat → Nat → ℝ) (d : Nat) (sigma : ℝ) (a b : Nat) :
    kernel Real.exp X d sigma a b =
      Real.exp (-(∑ c ∈ range d, (X a c - X b c) ^ 2) / sigma ^ 2) := by
  unfold kernel
  congr 1
  have : ∑ c ∈ range d, (X a c - X b c) * (X a c - X b c) = ∑ c ∈ range d, (X a c - X b c) ^ 2 :=
    Finset.sum_congr rfl (fun c _ => by ring)
  rw [this]
  ring

/-- Claim C3: in exact real arithmetic, when the RBF kernel matrix
`K[a][b] = exp(-||x_a - x_b||^2 / sigma^2)` of the `n ≥ 1` training points is positive
definite, `train` with rank budget `m = n` ends with a factor `G` and a pivot order
`pVec` such that `sum_k G[j][k] * G[c][k] = K[pVec[j]][pVec[c]]` for all `j, c < n`. -/
theorem full_rank_factor_reconstructs_kernel (inp : TrainInput ℝ) (hn : 1 ≤ inp.n)
    (hm : inp.m = inp.n)
    (hK : PosDefOn inp.n
      (fun a b => Real.exp (-(∑ c ∈ range inp.d, (inp.X a c - inp.X b c) ^ 2) / inp.sigma ^ 2)))
    (j c : Nat) (hj : j < inp.n) (hc : c < inp.n) :
    ∑ k ∈ range inp.m,
      (trainLoop Real.sqrt Real.exp inp inp.m).1.G j k *
        (trainLoop Real.sqrt Real.exp inp inp.m).1.G c k =
      Real.exp (-(∑ x ∈ range inp.d,
        (inp.X ((trainLoop Real.sqrt Real.exp inp inp.m).1.pVec j) x -
          inp.X ((trainLoop Real.sqrt Real.exp inp inp.m).1.pVec c) x) ^ 2) / inp.sigma ^ 2) := by
  have hK2 : PosDefOn inp.n (kernel Real.exp inp.X inp.d inp.sigma) := by
    have : kernel Real.exp inp.X inp.d inp.sigma =
        fun a b => Real.exp (-(∑ c ∈ range inp.d, (inp.X a c - inp.X b c) ^ 2) / inp.sigma ^ 2) := by
      funext a b
      exact kernel_real _ _ _ _ _
    rw [this]
    exact hK
  have H := trainLoop_cholInv Real.sqrt Real.exp Real.exp_zero real_sqrt_exact inp hK2 inp.n hn
    le_rfl
  rw [hm, H.gram j c hj hc, kernel_real]

theorem full_rank_factor_reconstructs_kernel_witness :
    (1 ≤ (twoPointInput ℝ).n ∧ (twoPointInput ℝ).m = (twoPointInput ℝ).n ∧
      PosDefOn (twoPointInput ℝ).n
        (fun a b => Real.exp (-(∑ c ∈ range (twoPointInput ℝ).d,
          ((twoPointInput ℝ).X a c - (twoPointInput ℝ).X b c) ^ 2) / (twoPointInput ℝ).sigma ^ 2)) ∧
      1 < (twoPointInput ℝ).n ∧ 0 < (twoPointInput ℝ).n) ∧
    ∑ k ∈ range (twoPointInput ℝ).m,
      (trainLoop Real.sqrt Real.exp (twoPointInput ℝ) (twoPointInput ℝ).m).1.G 1 k *
        (trainLoop Real.sqrt Real.exp (twoPointInput ℝ) (twoPointInput ℝ).m).1.G 0 k =
      Real.exp (-(∑ x ∈ range (twoPointInput ℝ).d,
        ((twoPointInput ℝ).X
            ((trainLoop Real.sqrt Real.exp (twoPointInput ℝ) (twoPointInput ℝ).m).1.pVec 1) x -
          (twoPointInput ℝ).X
            ((trainLoop Real.sqrt Real.exp (twoPointInput ℝ) (twoPointInput ℝ).m).1.pVec 0) x) ^ 2)
        / (twoPointInput ℝ).sigma ^ 2) := by
  have hK : PosDefOn (twoPointInput ℝ).n
      (fun a b => Real.exp (-(∑ c ∈ range (twoPointInput ℝ).d,
        ((twoPointInput ℝ).X a c - (twoPointInput ℝ).X b c) ^ 2) / (twoPointInput ℝ).sigma ^ 2)) := by
    intro v hv
    have he1 : Real.exp (-1) < 1 := by
      rw [Real.exp_lt_one_iff]
      norm_num
    have he0 : 0 < Real.exp (-1) := Real.exp_pos _
    have hv2 : 0 < v 0 ^ 2 + v 1 ^ 2 := by
      obtain ⟨a, ha, hva⟩ := hv
      have ha2 : a < 2 := ha
      interval_cases a
      · have := pow_pos (abs_pos.mpr hva) 2
        rw [sq_abs] at this
        nlinarith [sq_nonneg (v 1)]
      · have := pow_pos (abs_pos.mpr hva) 2
        rw [sq_abs] at this
        nlinarith [sq_nonneg (v 0)]
    simp only [twoPointInput, Finset.sum_range_succ, Finset.sum_range_zero]
    norm_num
    nlinarith [sq_nonneg (v 0 + v 1), mul_pos he0 hv2, mul_pos (sub_pos.mpr he1) hv2]
  exact ⟨⟨by decide, rfl, hK, by decide, by decide⟩,
    full_rank_factor_reconstructs_kernel (twoPointInput ℝ) (by decide) rfl hK 1 0
      (by decide) (by decide)⟩

end FullRank

/-! ## Shape of the factor and of the permuted targets -/

section Shape

variable {α : Type} [LinearOrderedField α]

theorem firstIter_init_G (sqrt exp : α → α) (inp : TrainInput α) (j c : Nat) :
    (firstIter sqrt exp inp (initChol inp)).G j c =
      if c = 0 ∧ 1 ≤ j ∧ j < inp.n then kernel exp inp.X inp.d inp.sigma j 0
      else if j = 0 ∧ c = 0 then 1 else 0 := by
  rw [firstIter_G]
  rfl

theorem trainLoop_one_fst (sqrt exp : α → α) (inp : TrainInput α) :
    (trainLoop sqrt exp inp 1).1 = firstIter sqrt exp inp (initChol inp) := by
  rw [trainLoop_succ_fst, cholStep, if_pos rfl]
  rfl

theorem trainLoop_next_fst (sqrt exp : α → α) (inp : TrainInput α) (k : Nat) (hk : 1 ≤ k) :
    (trainLoop sqrt exp inp (k + 1)).1 = nextIter sqrt exp inp k (trainLoop sqrt exp inp k).1 := by
  rw [trainLoop_succ_fst, cholStep, if_neg (by omega)]

/-- One step keeps `G` zero above the diagonal and in the columns not yet written,
and so does the exchange of rows that starts it. -/
theorem nextIter_trapezoid (sqrt exp : α → α) (inp : TrainInput α) (i : Nat) (s : CholState α)
    (hin : i < inp.n) (hup : ∀ j c, j < c → s.G j c = 0) (hz : ∀ j c, i ≤ c → s.G j c = 0) :
    (∀ j c, j < c → swapRows s.G i (max_element s.diagG i inp.n) (i + 1) j c = 0) ∧
    (∀ j c, j < c → (nextIter sqrt exp inp i s).G j c = 0) ∧
    (∀ j c, i + 1 ≤ c → (nextIter sqrt exp inp i s).G j c = 0) := by
  obtain ⟨hj1, hj2, -, -⟩ := max_element_spec s.diagG i inp.n hin
  have hsw : ∀ j c, j < c → swapRows s.G i (max_element s.diagG i inp.n) (i + 1) j c = 0 := by
    intro j c hjc
    by_cases hc : c < i + 1
    · rw [swapRows_eq _ _ _ _ _ _ hc, if_neg (by omega), if_neg (by omega)]
      exact hup j c hjc
    · rw [swapRows_ge _ _ _ _ _ _ (by omega)]
      exact hup j c hjc
  refine ⟨hsw, fun j c hjc => ?_, fun j c hc => ?_⟩
  · rw [nextIter_G, if_neg (by omega), if_neg (by omega)]
    exact hsw j c hjc
  · rw [nextIter_G, if_neg (by omega), if_neg (by omega), swapRows_ge _ _ _ _ _ _ (by omega)]
    exact hz j c (by omega)

theorem trainLoop_trapezoid (sqrt exp : α → α) (inp : TrainInput α) :
    ∀ k, 1 ≤ k → k ≤ inp.n →
      (∀ j c, j < c → (trainLoop sqrt exp inp k).1.G j c = 0) ∧
      (∀ j c, k ≤ c → (trainLoop sqrt exp inp k).1.G j c = 0) := by
  intro k
  induction k with
  | zero => intro h; omega
  | succ k ih =>
    intro _ hk
    rcases Nat.eq_zero_or_pos k with h0 | hpos
    · subst h0
      rw [trainLoop_one_fst]
      refine ⟨fun j c hjc => ?_, fun j c hc => ?_⟩
      · rw [firstIter_init_G, if_neg (by omega), if_neg (by omega)]
      · rw [firstIter_init_G, if_neg (by omega), if_neg (by omega)]
    · obtain ⟨h1, h2⟩ := ih hpos (by omega)
      rw [trainLoop_next_fst _ _ _ _ hpos]
      exact (nextIter_trapezoid sqrt exp inp k _ (by omega) h1 h2).2

/-- Claim C16: after every iteration `i` of `train` (`0 ≤ i < m ≤ n`), `G` is lower
trapezoidal in the current pivot order: in a column `c ≤ i` every row `j < c` is
zero, every column `c > i` is entirely zero, and the exchange of rows that starts
a later iteration leaves every entry above the diagonal zero. -/
theorem G_lower_trapezoidal (sqrt exp : α → α) (inp : TrainInput α) (i : Nat)
    (hi : i < inp.m) (hmn : inp.m ≤ inp.n) :
    (∀ c j, c ≤ i → j < c → (trainLoop sqrt exp inp (i + 1)).1.G j c = 0) ∧
    (∀ c j, i < c → (trainLoop sqrt exp inp (i + 1)).1.G j c = 0) ∧
    (∀ l, i < l → l < inp.m → ∀ j c, j < c →
      swapRows (trainLoop sqrt exp inp l).1.G l
        (max_element (trainLoop sqrt exp inp l).1.diagG l inp.n) (l + 1) j c = 0) := by
  obtain ⟨h1, h2⟩ := trainLoop_trapezoid sqrt exp inp (i + 1) (by omega) (by omega)
  refine ⟨fun c j _ hjc => h1 j c hjc, fun c j hc => h2 j c (by omega), fun l hl hlm j c hjc => ?_⟩
  obtain ⟨g1, g2⟩ := trainLoop_trapezoid sqrt exp inp l (by omega) (by omega)
  exact (nextIter_trapezoid sqrt exp inp l _ (by omega) g1 g2).1 j c hjc

theorem G_lower_trapezoidal_witness :
    (2 < (scenarioInput ℝ).m ∧ (scenarioInput ℝ).m ≤ (scenarioInput ℝ).n) ∧
    (trainLoop Real.sqrt Real.exp (scenarioInput ℝ) 3).1.G 1 2 = 0 ∧
    (trainLoop Real.sqrt Real.exp (scenarioInput ℝ) 3).1.G 3 3 = 0 :=
  ⟨by decide,
    (G_lower_trapezoidal Real.sqrt Real.exp (scenarioInput ℝ) 2 (by decide) (by decide)).1 2 1
      (by decide) (by decide),
    (G_lower_trapezoidal Real.sqrt Real.exp (scenarioInput ℝ) 2 (by decide) (by decide)).2.1 3 3
      (by decide)⟩

theorem nextIter_yPvec (sqrt exp : α → α) (inp : TrainInput α) (i : Nat) (s : CholState α) :
    (nextIter sqrt exp inp i s).yPvec =
      swapRows s.yPvec i (max_element s.diagG i inp.n) inp.t := rfl

theorem trainLoop_yPvec (sqrt exp : α → α) (inp : TrainInput α) :
    ∀ k, 1 ≤ k → ∀ j c, c < inp.t →
      (trainLoop sqrt exp inp k).1.yPvec j c = inp.y ((trainLoop sqrt exp inp k).1.pVec j) c := by
  intro k
  induction k with
  | zero => intro h; omega
  | succ k ih =>
    intro _ j c hc
    rcases Nat.eq_zero_or_pos k with h0 | hpos
    · subst h0
      rw [trainLoop_one_fst]
      rfl
    · rw [trainLoop_next_fst _ _ _ _ hpos, nextIter_yPvec, nextIter_pVec,
        swapRows_eq _ _ _ _ _ _ hc]
      split_ifs
      · exact ih hpos _ c hc
      · exact ih hpos _ c hc
      · exact ih hpos _ c hc

/-- Claim C17: after every iteration of `train`, the permuted targets are the
original targets in the current pivot order: `yPvec[j][c] = y[pVec[j]][c]` for every
position `j` and every target column `c < t`. -/
theorem yPvec_follows_pivot_order (sqrt exp : α → α) (inp : TrainInput α) (i j c : Nat)
    (hc : c < inp.t) :
    (trainLoop sqrt exp inp (i + 1)).1.yPvec j c =
      inp.y ((trainLoop sqrt exp inp (i + 1)).1.pVec j) c :=
  trainLoop_yPvec sqrt exp inp (i + 1) (by omega) j c hc

theorem yPvec_follows_pivot_order_witness :
    0 < (scenarioInput ℝ).t ∧
    (trainLoop Real.sqrt Real.exp (scenarioInput ℝ) 3).1.yPvec 3 0 =
      (scenarioInput ℝ).y ((trainLoop Real.sqrt Real.exp (scenarioInput ℝ) 3).1.pVec 3) 0 :=
  ⟨by decide, yPvec_follows_pivot_order Real.sqrt Real.exp (scenarioInput ℝ) 2 3 0 (by decide)⟩

end Shape

/-! ## The new column of the factor -/

section NewColumn

variable {α : Type} [LinearOrderedField α]

theorem nextIter_G_of_ne (sqrt exp : α → α) (inp : TrainInput α) (i : Nat) (s : CholState α)
    (j c : Nat) (hc : c ≠ i) :
    (nextIter sqrt exp inp i s).G j c =
      swapRows s.G i (max_element s.diagG i inp.n) (i + 1) j c := by
  rw [nextIter_G, if_neg (fun h => hc h.1), if_neg (fun h => hc h.2)]

end NewColumn

/-! ## Checkpoints: coefficients, frame, and the rank budget one -/

section Checkpoints

variable {α : Type} [LinearOrderedField α]

theorem roundPow_one (k r : Nat) : roundPow 1 k r = 1 :=
  le_antisymm (roundPow_le 1 k r) (roundPow_pos 1 k r le_rfl)

theorem ireg_one (n_rank : Nat) (hr : 1 ≤ n_rank) : ireg 1 n_rank = [0] := by
  have hall : ∀ c ∈ ireg 1 n_rank, c = 0 := by
    intro c hc
    have := ireg_lt 1 n_rank le_rfl c hc
    omega
  have hmem : 0 ∈ ireg 1 n_rank := by
    rw [mem_ireg]
    refine ⟨0, hr, ?_⟩
    rw [roundPow_one, ulongPred_eq 1 le_rfl Nat.one_le_two_pow]
  have hpw := ireg_pairwise 1 n_rank
  generalize ireg 1 n_rank = l at hall hmem hpw
  cases l with
  | nil => simp at hmem
  | cons a l =>
    have ha : a = 0 := hall a (List.mem_cons_self a l)
    cases l with
    | nil => rw [ha]
    | cons b l =>
      have hb : b = 0 := hall b (by simp)
      rw [List.pairwise_cons] at hpw
      have := hpw.1 b (by simp)
      omega

/-- Claim C19: with rank budget `rank_max = 1` and a checkpoint count `n_rank ≥ 1`
the checkpoint set is `{0}`; the loop runs its single iteration through the base
case (no pivot search, no exchange: the pivot order stays the identity) and
evaluates exactly one checkpoint, so the performance vector has length one. -/
theorem rank_budget_one (sqrt exp : α → α) (inp : TrainInput α) (hm : inp.m = 1)
    (hr : 1 ≤ inp.n_rank) :
    ireg inp.m inp.n_rank = [0] ∧
    (trainLoop sqrt exp inp inp.m).1 = firstIter sqrt exp inp (initChol inp) ∧
    (∀ j, (trainLoop sqrt exp inp inp.m).1.pVec j = j) ∧
    (trainLoop sqrt exp inp inp.m).2 =
      checkpoint inp 0 (firstIter sqrt exp inp (initChol inp)) (initSel inp) ∧
    (trainLoop sqrt exp inp inp.m).2.perfs = 1 ∧
    (train sqrt exp inp).acc.cols = 1 ∧
    (train sqrt exp inp).acc.data 0 0 = perf_i inp 0 (firstIter sqrt exp inp (initChol inp)) := by
  have hI : ireg inp.m inp.n_rank = [0] := by rw [hm]; exact ireg_one _ hr
  have h1 : (trainLoop sqrt exp inp inp.m).1 = firstIter sqrt exp inp (initChol inp) := by
    rw [hm]; exact trainLoop_one_fst sqrt exp inp
  have h2 : (trainLoop sqrt exp inp inp.m).2 =
      checkpoint inp 0 (firstIter sqrt exp inp (initChol inp)) (initSel inp) := by
    rw [hm, trainLoop_succ_snd, hI, if_pos (by simp), trainLoop_one_fst]
    rfl
  refine ⟨hI, h1, fun j => by rw [h1]; rfl, h2, ?_, ?_, ?_⟩
  · rw [h2, (checkpoint_perfs inp 0 _ _).1]
    rfl
  · simp only [train]
    rw [hI]
    rfl
  · simp only [train]
    rw [h2]
    exact (checkpoint_perfs inp 0 _ _).2.1

theorem rank_budget_one_witness :
    ({ scenarioInput ℝ with m := 1, n_rank := 5 }.m = 1 ∧
      1 ≤ { scenarioInput ℝ with m := 1, n_rank := 5 }.n_rank) ∧
    ireg 1 5 = [0] ∧
    (train Real.sqrt Real.exp { scenarioInput ℝ with m := 1, n_rank := 5 }).acc.cols = 1 :=
  ⟨⟨rfl, by decide⟩,
    (rank_budget_one Real.sqrt Real.exp { scenarioInput ℝ with m := 1, n_rank := 5 } rfl
      (by decide)).1,
    (rank_budget_one Real.sqrt Real.exp { scenarioInput ℝ with m := 1, n_rank := 5 } rfl
      (by decide)).2.2.2.2.2.1⟩

theorem cholStep_congr (sqrt exp : α → α) (inp inp2 : TrainInput α) (hX : inp2.X = inp.X)
    (hn : inp2.n = inp.n) (hd : inp2.d = inp.d) (ht : inp2.t = inp.t)
    (hs : inp2.sigma = inp.sigma) (i : Nat) (s : CholState α) :
    cholStep sqrt exp inp2 i s = cholStep sqrt exp inp i s := by
  simp only [cholStep, firstIter, nextIter, hX, hn, hd, ht, hs]

theorem trainLoop_fst_congr (sqrt exp : α → α) (inp inp2 : TrainInput α) (hX : inp2.X = inp.X)
    (hy : inp2.y = inp.y) (hn : inp2.n = inp.n) (hd : inp2.d = inp.d) (ht : inp2.t = inp.t)
    (hs : inp2.sigma = inp.sigma) (k : Nat) :
    (trainLoop sqrt exp inp2 k).1 = (trainLoop sqrt exp inp k).1 := by
  induction k with
  | zero => simp only [trainLoop, initChol, hy]
  | succ k ih =>
    rw [trainLoop_succ_fst, trainLoop_succ_fst, ih, cholStep_congr sqrt exp inp inp2 hX hn hd ht hs]

/-- Claim C15: the checkpoint block leaves the decomposition state as the
decomposition step produced it (`G`, `Q`, `RR`, `diagG`, `pVec`, `yPvec` are the same
whether or not the iteration is a checkpoint), so the buffers after any number of
iterations, the final ones included, do not depend on the checkpoint count or on
the validation data and performance task. -/
theorem checkpoint_preserves_decomposition (sqrt exp : α → α) (inp : TrainInput α) :
    (∀ (i : Nat) (st : CholState α × SelState α),
      (trainIter sqrt exp inp i st).1 = cholStep sqrt exp inp i st.1 ∧
      (i ∈ ireg inp.m inp.n_rank →
        trainIter sqrt exp inp i st =
          (cholStep sqrt exp inp i st.1,
            checkpoint inp i (cholStep sqrt exp inp i st.1) st.2))) ∧
    (∀ (n_rank2 Xva_rows2 : Nat) (predKernel_K2 : Nat → Nat → α)
      (perfTask2 : (Nat → Nat → α) → List α) (k : Nat),
      (trainLoop sqrt exp
        { inp with n_rank := n_rank2, Xva_rows := Xva_rows2, predKernel_K := predKernel_K2,
                   perfTask := perfTask2 } k).1 = (trainLoop sqrt exp inp k).1) := by
  refine ⟨fun i st => ⟨trainIter_fst sqrt exp inp i st, fun hi => ?_⟩,
    fun n_rank2 Xva_rows2 predKernel_K2 perfTask2 k =>
      trainLoop_fst_congr sqrt exp inp
        { inp with n_rank := n_rank2, Xva_rows := Xva_rows2, predKernel_K := predKernel_K2,
                   perfTask := perfTask2 } rfl rfl rfl rfl rfl rfl k⟩
  unfold trainIter
  simp only
  rw [if_pos hi]

theorem foldl_range_scatter (p : Nat → Nat) (t : Nat) (A U : Nat → Nat → α) (N : Nat)
    (hinj : ∀ a b, a < N → b < N → p a = p b → a = b) :
    ∀ n, n ≤ N → ∀ j c, j < n → c < t →
      (List.range n).foldl
        (fun M j => fun r c => if r = p j ∧ c < t then A j c else M r c) U (p j) c = A j c := by
  intro n
  induction n with
  | zero => intro _ j c hj; omega
  | succ n ih =>
    intro hn j c hj hc
    rw [List.range_succ, List.foldl_append]
    simp only [List.foldl_cons, List.foldl_nil]
    by_cases hjn : j = n
    · subst hjn
      rw [if_pos ⟨rfl, hc⟩]
    · have hne : p j ≠ p n := fun h => hjn (hinj j n (by omega) (by omega) h)
      rw [if_neg (fun h => hne h.1)]
      exact ih (by omega) j c (by omega) hc

/-- Claim C14: at a checkpoint (`i < m ≤ n`) the coefficient matrix handed to the
prediction is the permuted coefficients sent back through the pivot order:
`alphaMat[pVec[j]][c] = alpha_i[j][c]` for every position `j < n` and target column
`c < t`; every row `r < n` is written from exactly one position, so it holds the
coefficient of the original sample `r`. -/
theorem alphaMat_unpermutes_alpha_i (sqrt exp : α → α) (inp : TrainInput α) (i : Nat)
    (hi : i < inp.m) (hmn : inp.m ≤ inp.n) :
    (∀ j c, j < inp.n → c < inp.t →
      alphaMat inp i (trainLoop sqrt exp inp (i + 1)).1
          ((trainLoop sqrt exp inp (i + 1)).1.pVec j) c =
        alpha_i inp i (trainLoop sqrt exp inp (i + 1)).1 j c) ∧
    (∀ r c, r < inp.n → c < inp.t →
      ∃ j, j < inp.n ∧ (trainLoop sqrt exp inp (i + 1)).1.pVec j = r ∧
        (∀ l, l < inp.n → (trainLoop sqrt exp inp (i + 1)).1.pVec l = r → l = j) ∧
        alphaMat inp i (trainLoop sqrt exp inp (i + 1)).1 r c =
          alpha_i inp i (trainLoop sqrt exp inp (i + 1)).1 j c) := by
  have hp := trainLoop_pVec_permOn sqrt exp inp (i + 1) (by omega) (by omega)
  have key : ∀ j c, j < inp.n → c < inp.t →
      alphaMat inp i (trainLoop sqrt exp inp (i + 1)).1
          ((trainLoop sqrt exp inp (i + 1)).1.pVec j) c =
        alpha_i inp i (trainLoop sqrt exp inp (i + 1)).1 j c := by
    intro j c hj hc
    unfold alphaMat
    exact foldl_range_scatter _ inp.t _ inp.uninit inp.n hp.2 inp.n le_rfl j c hj hc
  refine ⟨key, fun r c hr hc => ?_⟩
  obtain ⟨j, hj, hjr⟩ := hp.mem_map r hr
  refine ⟨j, hj, hjr, fun l hl hlr => hp.2 l j hl hj (by rw [hlr, hjr]), ?_⟩
  rw [← hjr]
  exact key j c hj hc

theorem alphaMat_unpermutes_alpha_i_witness :
    (2 < (scenarioInput ℝ).m ∧ (scenarioInput ℝ).m ≤ (scenarioInput ℝ).n) ∧
    alphaMat (scenarioInput ℝ) 2 (trainLoop Real.sqrt Real.exp (scenarioInput ℝ) 3).1
        ((trainLoop Real.sqrt Real.exp (scenarioInput ℝ) 3).1.pVec 1) 0 =
      alpha_i (scenarioInput ℝ) 2 (trainLoop Real.sqrt Real.exp (scenarioInput ℝ) 3).1 1 0 :=
  ⟨by decide,
    (alphaMat_unpermutes_alpha_i Real.sqrt Real.exp (scenarioInput ℝ) 2 (by decide)
      (by decide)).1 1 0 (by decide) (by decide)⟩

/-- Claim C13: the coefficients computed at a checkpoint of rank `r = i + 1`, before
they are sent back through the pivot order, are the matrix product
`Q_r * RR_r * (Q_r' * yPvec)` of the first `r` columns of `Q`, the leading `r × r`
block of `RR` and the permuted targets. -/
theorem alpha_i_closed_form (inp : TrainInput α) (i : Nat) (s : CholState α) :
    (Matrix.of fun (j : Fin inp.n) (c : Fin inp.t) => alpha_i inp i s j c) =
      (Matrix.of fun (j : Fin inp.n) (a : Fin (i + 1)) => s.Q j a) *
        (Matrix.of fun (a b : Fin (i + 1)) => s.RR a b) *
        ((Matrix.of fun (j : Fin inp.n) (a : Fin (i + 1)) => s.Q j a).transpose *
          (Matrix.of fun (j : Fin inp.n) (c : Fin inp.t) => s.yPvec j c)) := by
  rw [Matrix.mul_assoc]
  ext j c
  simp only [Matrix.of_apply, Matrix.mul_apply, Matrix.transpose_apply, alpha_i, dotNN, dotTN]
  rw [← Fin.sum_univ_eq_sum_range (fun k => s.Q j k *
    ∑ k_1 ∈ range (i + 1), s.RR k k_1 * ∑ k ∈ range inp.n, s.Q k k_1 * s.yPvec k c) (i + 1)]
  apply Finset.sum_congr rfl
  intro a _
  congr 1
  rw [← Fin.sum_univ_eq_sum_range (fun k_1 => s.RR a k_1 *
    ∑ k ∈ range inp.n, s.Q k k_1 * s.yPvec k c) (i + 1)]
  apply Finset.sum_congr rfl
  intro b _
  congr 1
  rw [← Fin.sum_univ_eq_sum_range (fun k => s.Q k b * s.yPvec k c) inp.n]

end Checkpoints

/-! ## Orthogonalisation: the factors `Q` and `RR` -/

section Orthogonalisation

variable {α : Type} [LinearOrderedField α]

/-- The Gram-Schmidt residual of `v` is orthogonal to the orthonormal columns it was
reduced by. -/
theorem gs_orthogonal (n i : Nat) (Q : Nat → Nat → α) (v : Nat → α)
    (horth : ∀ a b, a < i → b < i →
      ∑ j ∈ range n, Q j a * Q j b = if a = b then 1 else 0)
    (a : Nat) (ha : a < i) :
    ∑ j ∈ range n,
      (v j - ∑ c ∈ range i, Q j c * ∑ l ∈ range n, Q l c * v l) * Q j a = 0 := by
  have h1 : ∀ j ∈ range n,
      (v j - ∑ c ∈ range i, Q j c * ∑ l ∈ range n, Q l c * v l) * Q j a =
      Q j a * v j - ∑ c ∈ range i, (∑ l ∈ range n, Q l c * v l) * (Q j c * Q j a) := by
    intro j _
    rw [sub_mul, Finset.sum_mul]
    congr 1
    · ring
    · apply Finset.sum_congr rfl
      intro c _
      ring
  rw [Finset.sum_congr rfl h1, Finset.sum_sub_distrib, Finset.sum_comm]
  have h2 : ∀ c ∈ range i,
      ∑ j ∈ range n, (∑ l ∈ range n, Q l c * v l) * (Q j c * Q j a) =
      (∑ l ∈ range n, Q l c * v l) * (if c = a then 1 else 0) := by
    intro c hc
    rw [← Finset.mul_sum, horth c a (Finset.mem_range.mp hc) ha]
  rw [Finset.sum_congr rfl h2]
  simp only [mul_ite, mul_one, mul_zero]
  rw [Finset.sum_ite_eq' (range i) a, if_pos (Finset.mem_range.mpr ha)]
  ring

/-- The Gram-Schmidt residual `q` of `v` satisfies `q . v = q . q`. -/
theorem gs_self (n i : Nat) (Q : Nat → Nat → α) (v : Nat → α)
    (horth : ∀ a b, a < i → b < i →
      ∑ j ∈ range n, Q j a * Q j b = if a = b then 1 else 0) :
    ∑ j ∈ range n,
      (v j - ∑ c ∈ range i, Q j c * ∑ l ∈ range n, Q l c * v l) * v j =
    ∑ j ∈ range n,
      (v j - ∑ c ∈ range i, Q j c * ∑ l ∈ range n, Q l c * v l) *
        (v j - ∑ c ∈ range i, Q j c * ∑ l ∈ range n, Q l c * v l) := by
  have h1 : ∀ j ∈ range n,
      (v j - ∑ c ∈ range i, Q j c * ∑ l ∈ range n, Q l c * v l) * v j =
      (v j - ∑ c ∈ range i, Q j c * ∑ l ∈ range n, Q l c * v l) *
        (v j - ∑ c ∈ range i, Q j c * ∑ l ∈ range n, Q l c * v l) +
      ∑ c ∈ range i, (∑ l ∈ range n, Q l c * v l) *
        ((v j - ∑ c ∈ range i, Q j c * ∑ l ∈ range n, Q l c * v l) * Q j c) := by
    intro j _
    have : ∑ c ∈ range i, (∑ l ∈ range n, Q l c * v l) *
        ((v j - ∑ c ∈ range i, Q j c * ∑ l ∈ range n, Q l c * v l) * Q j c) =
        (v j - ∑ c ∈ range i, Q j c * ∑ l ∈ range n, Q l c * v l) *
          ∑ c ∈ range i, Q j c * ∑ l ∈ range n, Q l c * v l := by
      rw [Finset.mul_sum]
      apply Finset.sum_congr rfl
      intro c _
      ring
    rw [this]
    ring
  rw [Finset.sum_congr rfl h1, Finset.sum_add_distrib, Finset.sum_comm]
  have h2 : ∀ c ∈ range i,
      ∑ j ∈ range n, (∑ l ∈ range n, Q l c * v l) *
        ((v j - ∑ c ∈ range i, Q j c * ∑ l ∈ range n, Q l c * v l) * Q j c) = 0 := by
    intro c hc
    rw [← Finset.mul_sum, gs_orthogonal n i Q v horth c (Finset.mem_range.mp hc), mul_zero]
  rw [Finset.sum_eq_zero h2, add_zero]

/-- The bordering formula: from a symmetric left inverse `A` of `B` to a left inverse
of the bordered matrix. -/
theorem border_inverse (i : Nat) (A B A2 B2 : Nat → Nat → α) (r u : Nat → α) (ρ : α)
    (hρ : ρ ≠ 0)
    (hsym : ∀ a b, a < i → b < i → A a b = A b a)
    (hinv : ∀ a b, a < i → b < i →
      ∑ c ∈ range i, A a c * B c b = if a = b then 1 else 0)
    (hu : ∀ a, a < i → u a = ∑ b ∈ range i, A a b * r b)
    (hA1 : ∀ a b, a < i → b < i → A2 a b = A a b)
    (hA2 : ∀ a, a < i → A2 a i = (-1 / ρ) * u a)
    (hA3 : ∀ b, b < i → A2 i b = (-1 / ρ) * u b)
    (hA4 : A2 i i = ((∑ c ∈ range i, r c * u c) + 1) / (ρ * ρ))
    (hB1 : ∀ c b, c < i → b < i → B2 c b = B c b + r c * r b)
    (hB2 : ∀ c, c < i → B2 c i = r c * ρ)
    (hB3 : ∀ b, b < i → B2 i b = ρ * r b)
    (hB4 : B2 i i = ρ * ρ) :
    ∀ a b, a < i + 1 → b < i + 1 →
      ∑ c ∈ range (i + 1), A2 a c * B2 c b = if a = b then 1 else 0 := by
  -- `(A r)' B = r'`
  have huB : ∀ b, b < i → ∑ c ∈ range i, u c * B c b = r b := by
    intro b hb
    have h1 : ∀ c ∈ range i, u c * B c b = ∑ a ∈ range i, r a * (A a c * B c b) := by
      intro c hc
      rw [hu c (Finset.mem_range.mp hc), Finset.sum_mul]
      apply Finset.sum_congr rfl
      intro a ha
      rw [hsym c a (Finset.mem_range.mp hc) (Finset.mem_range.mp ha)]
      ring
    rw [Finset.sum_congr rfl h1, Finset.sum_comm]
    have h2 : ∀ a ∈ range i, ∑ c ∈ range i, r a * (A a c * B c b) =
        r a * (if a = b then 1 else 0) := by
      intro a ha
      rw [← Finset.mul_sum, hinv a b (Finset.mem_range.mp ha) hb]
    rw [Finset.sum_congr rfl h2]
    simp only [mul_ite, mul_one, mul_zero]
    rw [Finset.sum_ite_eq' (range i) b, if_pos (Finset.mem_range.mpr hb)]
  intro a b ha hb
  rw [Finset.sum_range_succ]
  rcases Nat.lt_succ_iff_lt_or_eq.mp ha with hai | hai
  · rcases Nat.lt_succ_iff_lt_or_eq.mp hb with hbi | hbi
    · have h1 : ∑ c ∈ range i, A2 a c * B2 c b =
          (∑ c ∈ range i, A a c * B c b) + (∑ c ∈ range i, A a c * r c) * r b := by
        rw [Finset.sum_mul, ← Finset.sum_add_distrib]
        apply Finset.sum_congr rfl
        intro c hc
        rw [hA1 a c hai (Finset.mem_range.mp hc), hB1 c b (Finset.mem_range.mp hc) hbi]
        ring
      have h2 : (-1 / ρ) * u a * (ρ * r b) = -(u a * r b) := by
        field_simp
        ring
      rw [h1, hinv a b hai hbi, ← hu a hai, hA2 a hai, hB3 b hbi, h2]
      ring
    · rw [hbi]
      have h1 : ∑ c ∈ range i, A2 a c * B2 c i = (∑ c ∈ range i, A a c * r c) * ρ := by
        rw [Finset.sum_mul]
        apply Finset.sum_congr rfl
        intro c hc
        rw [hA1 a c hai (Finset.mem_range.mp hc), hB2 c (Finset.mem_range.mp hc)]
        ring
      have h2 : (-1 / ρ) * u a * (ρ * ρ) = -(u a * ρ) := by
        field_simp
        ring
      rw [h1, ← hu a hai, hA2 a hai, hB4, if_neg (by omega), h2]
      ring
  · rw [hai]
    rcases Nat.lt_succ_iff_lt_or_eq.mp hb with hbi | hbi
    · have h1 : ∑ c ∈ range i, A2 i c * B2 c b =
          (-1 / ρ) * ((∑ c ∈ range i, u c * B c b) + (∑ c ∈ range i, r c * u c) * r b) := by
        rw [Finset.sum_mul, ← Finset.sum_add_distrib, Finset.mul_sum]
        apply Finset.sum_congr rfl
        intro c hc
        rw [hA3 c (Finset.mem_range.mp hc), hB1 c b (Finset.mem_range.mp hc) hbi]
        ring
      rw [h1, huB b hbi, hA4, hB3 b hbi, if_neg (by omega)]
      field_simp
      ring
    · rw [hbi]
      have h1 : ∑ c ∈ range i, A2 i c * B2 c i = -(∑ c ∈ range i, r c * u c) := by
        rw [← Finset.sum_neg_distrib]
        apply Finset.sum_congr rfl
        intro c hc
        rw [hA3 c (Finset.mem_range.mp hc), hB2 c (Finset.mem_range.mp hc)]
        field_simp
        ring
      rw [h1, hA4, hB4, if_pos rfl]
      field_simp

end Orthogonalisation

section OrthogonalisationStep

variable {α : Type} [LinearOrderedField α]

theorem nextIter_Q (sqrt exp : α → α) (inp : TrainInput α) (i : Nat) (s : CholState α)
    (j c : Nat) :
    (nextIter sqrt exp inp i s).Q j c =
      if c = i ∧ j < inp.n then
        (1 / normG_next sqrt exp inp i s) * Qi_next sqrt exp inp i s j
      else swapRows s.Q i (max_element s.diagG i inp.n) i j c := rfl

theorem nextIter_RR (sqrt exp : α → α) (inp : TrainInput α) (i : Nat) (s : CholState α)
    (a b : Nat) :
    (nextIter sqrt exp inp i s).RR a b =
      if a = i ∧ b = i then
        ((∑ c ∈ range i, Rcol_next sqrt exp inp i s c *
            gemvNoTrans i 1 s.RR (Rcol_next sqrt exp inp i s) 0 (fun _ => 0) c) + 1) /
          (normG_next sqrt exp inp i s * normG_next sqrt exp inp i s)
      else if a = i ∧ b < i then
        (if i = i ∧ b < i then
          (-1 / normG_next sqrt exp inp i s) *
            gemvNoTrans i 1 s.RR (Rcol_next sqrt exp inp i s) 0 (fun _ => 0) b
         else s.RR b i)
      else if b = i ∧ a < i then
        (-1 / normG_next sqrt exp inp i s) *
          gemvNoTrans i 1 s.RR (Rcol_next sqrt exp inp i s) 0 (fun _ => 0) a
      else s.RR a b := rfl

theorem Rcol_next_eq (sqrt exp : α → α) (inp : TrainInput α) (i : Nat) (s : CholState α)
    (c : Nat) :
    Rcol_next sqrt exp inp i s c =
      ∑ j ∈ range inp.n, swapRows s.Q i (max_element s.diagG i inp.n) i j c *
        (nextIter sqrt exp inp i s).G j i := by
  simp only [Rcol_next, gemvTrans, one_mul, zero_mul, add_zero]

theorem Qi_next_eq (sqrt exp : α → α) (inp : TrainInput α) (i : Nat) (s : CholState α)
    (j : Nat) :
    Qi_next sqrt exp inp i s j =
      (nextIter sqrt exp inp i s).G j i -
        ∑ c ∈ range i, swapRows s.Q i (max_element s.diagG i inp.n) i j c *
          ∑ l ∈ range inp.n, swapRows s.Q i (max_element s.diagG i inp.n) i l c *
            (nextIter sqrt exp inp i s).G l i := by
  simp only [Qi_next, gemvNoTrans, one_mul]
  rw [Finset.sum_congr rfl (fun c _ => by rw [Rcol_next_eq])]
  ring

theorem RR_Rcol_eq (i : Nat) (RR : Nat → Nat → α) (r : Nat → α) (a : Nat) :
    gemvNoTrans i 1 RR r 0 (fun _ => 0) a = ∑ b ∈ range i, RR a b * r b := by
  simp only [gemvNoTrans, one_mul, zero_mul, add_zero]

end OrthogonalisationStep

section OrthogonalisationInvariant

variable {α : Type} [LinearOrderedField α]

theorem permOn_id (n : Nat) : PermOn n (fun j => j) :=
  ⟨fun _ hj => hj, fun _ _ _ _ h => h⟩

/-- A sum over the rows is not changed by the exchange of two rows. -/
theorem sum_swap_rows (n a b : Nat) (ha : a < n) (hb : b < n) (f : Nat → α) :
    ∑ j ∈ range n, f (if j = a then b else if j = b then a else j) = ∑ j ∈ range n, f j :=
  PermOn.sum_comp (PermOn.swap (permOn_id n) ha hb) f

theorem qrInv_next (sqrt exp : α → α) (inp : TrainInput α) (i : Nat) (s : CholState α)
    (hin : i < inp.n) (H : QRInv inp.n i s)
    (hρ : normG_next sqrt exp inp i s ≠ 0)
    (hρ2 : normG_next sqrt exp inp i s * normG_next sqrt exp inp i s =
      ∑ j ∈ range inp.n, Qi_next sqrt exp inp i s j * Qi_next sqrt exp inp i s j) :
    QRInv inp.n (i + 1) (nextIter sqrt exp inp i s) := by
  obtain ⟨hj1, hj2, -, -⟩ := max_element_spec s.diagG i inp.n hin
  -- names for the quantities of the step
  have hQeq := Qi_next_eq sqrt exp inp i s
  have hReq := Rcol_next_eq sqrt exp inp i s
  have hQ := nextIter_Q sqrt exp inp i s
  have hRR := nextIter_RR sqrt exp inp i s
  have hGne := nextIter_G_of_ne sqrt exp inp i s
  generalize hρdef : normG_next sqrt exp inp i s = ρ at hρ hρ2 hQ hRR
  generalize hqdef : Qi_next sqrt exp inp i s = q at hρ2 hQ hQeq
  generalize hrdef : Rcol_next sqrt exp inp i s = r at hRR hReq
  generalize hjast : max_element s.diagG i inp.n = jast at hj1 hj2 hQ hQeq hReq hGne
  generalize hS : nextIter sqrt exp inp i s = S at hQ hRR hGne hQeq hReq
  -- the exchanged rows
  have S1 : ∀ j a, a < i → swapRows s.Q i jast i j a =
      s.Q (if j = i then jast else if j = jast then i else j) a :=
    fun j a ha => swapRows_eq _ _ _ _ _ _ ha
  have S2 : ∀ j c, c < i → swapRows s.G i jast (i + 1) j c =
      s.G (if j = i then jast else if j = jast then i else j) c :=
    fun j c hc => swapRows_eq _ _ _ _ _ _ (by omega)
  have hσn : ∀ j, j < inp.n → (if j = i then jast else if j = jast then i else j) < inp.n := by
    intro j hj
    split_ifs <;> omega
  have S3 : ∀ j c, c < i → S.G j c = swapRows s.G i jast (i + 1) j c :=
    fun j c hc => hGne j c (by omega)
  have S4 : ∀ j a, a < i → S.Q j a = swapRows s.Q i jast i j a := by
    intro j a ha
    rw [hQ, if_neg (fun h => by omega)]
  have S5 : ∀ j, j < inp.n → S.Q j i = (1 / ρ) * q j := by
    intro j hj
    rw [hQ, if_pos ⟨rfl, hj⟩]
  have orth1 : ∀ a b, a < i → b < i →
      ∑ j ∈ range inp.n, swapRows s.Q i jast i j a * swapRows s.Q i jast i j b =
        if a = b then 1 else 0 := by
    intro a b ha hb
    rw [Finset.sum_congr rfl (fun j _ => by rw [S1 j a ha, S1 j b hb])]
    rw [sum_swap_rows inp.n i jast hin hj2 (fun j => s.Q j a * s.Q j b)]
    exact H.orth a b ha hb
  have R1 : ∀ a c, a < i → c < i →
      ∑ j ∈ range inp.n, swapRows s.Q i jast i j a * swapRows s.G i jast (i + 1) j c =
        Rfactor inp.n s a c := by
    intro a c ha hc
    rw [Finset.sum_congr rfl (fun j _ => by rw [S1 j a ha, S2 j c hc])]
    exact sum_swap_rows inp.n i jast hin hj2 (fun j => s.Q j a * s.G j c)
  have span1 : ∀ j c, j < inp.n → c < i →
      swapRows s.G i jast (i + 1) j c =
        ∑ a ∈ range (c + 1), swapRows s.Q i jast i j a * Rfactor inp.n s a c := by
    intro j c hj hc
    rw [S2 j c hc, H.span _ c (hσn j hj) hc]
    apply Finset.sum_congr rfl
    intro a ha
    rw [S1 j a (by have := Finset.mem_range.mp ha; omega)]
  -- Gram-Schmidt
  have hq : ∀ j, q j = S.G j i - ∑ c ∈ range i, swapRows s.Q i jast i j c *
      ∑ l ∈ range inp.n, swapRows s.Q i jast i l c * S.G l i := hQeq
  have gs1 : ∀ a, a < i → ∑ j ∈ range inp.n, q j * swapRows s.Q i jast i j a = 0 := by
    intro a ha
    rw [Finset.sum_congr rfl (fun j _ => by rw [hq j])]
    exact gs_orthogonal inp.n i _ _ orth1 a ha
  have gs2 : ∑ j ∈ range inp.n, q j * S.G j i = ρ * ρ := by
    have e1 : ∑ j ∈ range inp.n, q j * S.G j i = ∑ j ∈ range inp.n,
        (S.G j i - ∑ c ∈ range i, swapRows s.Q i jast i j c *
          ∑ l ∈ range inp.n, swapRows s.Q i jast i l c * S.G l i) * S.G j i :=
      Finset.sum_congr rfl (fun j _ => by rw [hq j])
    have e2 : ∑ j ∈ range inp.n, q j * q j = ∑ j ∈ range inp.n,
        (S.G j i - ∑ c ∈ range i, swapRows s.Q i jast i j c *
          ∑ l ∈ range inp.n, swapRows s.Q i jast i l c * S.G l i) *
        (S.G j i - ∑ c ∈ range i, swapRows s.Q i jast i j c *
          ∑ l ∈ range inp.n, swapRows s.Q i jast i l c * S.G l i) :=
      Finset.sum_congr rfl (fun j _ => by rw [hq j])
    rw [hρ2, e1, e2]
    exact gs_self inp.n i _ _ orth1
  -- the new factor R
  have Ra : ∀ a c, a < i → c < i → Rfactor inp.n S a c = Rfactor inp.n s a c := by
    intro a c ha hc
    rw [← R1 a c ha hc]
    unfold Rfactor
    exact Finset.sum_congr rfl (fun j _ => by rw [S4 j a ha, S3 j c hc])
  have Rb : ∀ a, a < i → Rfactor inp.n S a i = r a := by
    intro a ha
    rw [hReq a]
    unfold Rfactor
    exact Finset.sum_congr rfl (fun j _ => by rw [S4 j a ha])
  have Rc : ∀ c, c < i → Rfactor inp.n S i c = 0 := by
    intro c hc
    unfold Rfactor
    have h1 : ∀ j ∈ range inp.n, S.Q j i * S.G j c =
        ∑ a ∈ range (c + 1), (1 / ρ) * Rfactor inp.n s a c *
          (q j * swapRows s.Q i jast i j a) := by
      intro j hj
      rw [S5 j (Finset.mem_range.mp hj), S3 j c hc, span1 j c (Finset.mem_range.mp hj) hc,
        Finset.mul_sum]
      apply Finset.sum_congr rfl
      intro a _
      ring
    rw [Finset.sum_congr rfl h1, Finset.sum_comm]
    apply Finset.sum_eq_zero
    intro a ha
    rw [← Finset.mul_sum, gs1 a (by have := Finset.mem_range.mp ha; omega), mul_zero]
  have Rd : Rfactor inp.n S i i = ρ := by
    unfold Rfactor
    have h1 : ∀ j ∈ range inp.n, S.Q j i * S.G j i = (1 / ρ) * (q j * S.G j i) := by
      intro j hj
      rw [S5 j (Finset.mem_range.mp hj)]
      ring
    rw [Finset.sum_congr rfl h1, ← Finset.mul_sum, gs2]
    field_simp
  -- the new entries of RR
  have E1 : ∀ a b, a < i → b < i → S.RR a b = s.RR a b := by
    intro a b ha hb
    rw [hRR, if_neg (by omega), if_neg (by omega), if_neg (by omega)]
  have E2 : ∀ a, a < i → S.RR a i = (-1 / ρ) * gemvNoTrans i 1 s.RR r 0 (fun _ => 0) a := by
    intro a ha
    rw [hRR, if_neg (by omega), if_neg (by omega), if_pos ⟨rfl, ha⟩]
  have E3 : ∀ b, b < i → S.RR i b = (-1 / ρ) * gemvNoTrans i 1 s.RR r 0 (fun _ => 0) b := by
    intro b hb
    rw [hRR, if_neg (by omega), if_pos ⟨rfl, hb⟩, if_pos ⟨rfl, hb⟩]
  have E4 : S.RR i i = ((∑ c ∈ range i, r c * gemvNoTrans i 1 s.RR r 0 (fun _ => 0) c) + 1) /
      (ρ * ρ) := by
    rw [hRR, if_pos ⟨rfl, rfl⟩]
  refine ⟨fun a b ha hb => ?_, fun j c hj hc => ?_, fun a b ha hb => ?_, ?_⟩
  · -- orthonormal columns
    rcases Nat.lt_succ_iff_lt_or_eq.mp ha with hai | hai
    · rcases Nat.lt_succ_iff_lt_or_eq.mp hb with hbi | hbi
      · rw [Finset.sum_congr rfl (fun j _ => by rw [S4 j a hai, S4 j b hbi])]
        exact orth1 a b hai hbi
      · rw [hbi, if_neg (by omega)]
        have h1 : ∀ j ∈ range inp.n, S.Q j a * S.Q j i =
            (1 / ρ) * (q j * swapRows s.Q i jast i j a) := by
          intro j hj
          rw [S5 j (Finset.mem_range.mp hj), S4 j a hai]
          ring
        rw [Finset.sum_congr rfl h1, ← Finset.mul_sum, gs1 a hai, mul_zero]
    · rw [hai]
      rcases Nat.lt_succ_iff_lt_or_eq.mp hb with hbi | hbi
      · rw [if_neg (by omega)]
        have h1 : ∀ j ∈ range inp.n, S.Q j i * S.Q j b =
            (1 / ρ) * (q j * swapRows s.Q i jast i j b) := by
          intro j hj
          rw [S5 j (Finset.mem_range.mp hj), S4 j b hbi]
          ring
        rw [Finset.sum_congr rfl h1, ← Finset.mul_sum, gs1 b hbi, mul_zero]
      · rw [hbi, if_pos rfl]
        have h1 : ∀ j ∈ range inp.n, S.Q j i * S.Q j i = (1 / (ρ * ρ)) * (q j * q j) := by
          intro j hj
          rw [S5 j (Finset.mem_range.mp hj)]
          field_simp
        rw [Finset.sum_congr rfl h1, ← Finset.mul_sum, ← hρ2]
        field_simp
  · -- the columns of G in the basis Q
    rcases Nat.lt_succ_iff_lt_or_eq.mp hc with hci | hci
    · rw [S3 j c hci, span1 j c hj hci]
      apply Finset.sum_congr rfl
      intro a ha
      have ha := Finset.mem_range.mp ha
      rw [S4 j a (by omega), Ra a c (by omega) hci]
    · rw [hci, Finset.sum_range_succ, Rd, S5 j hj]
      have h1 : ∑ a ∈ range i, S.Q j a * Rfactor inp.n S a i =
          ∑ c ∈ range i, swapRows s.Q i jast i j c *
            ∑ l ∈ range inp.n, swapRows s.Q i jast i l c * S.G l i := by
        apply Finset.sum_congr rfl
        intro a ha
        have ha := Finset.mem_range.mp ha
        rw [S4 j a ha, Rb a ha, hReq a]
      rw [h1, hq j]
      field_simp
  · -- symmetry of RR
    rcases Nat.lt_succ_iff_lt_or_eq.mp ha with hai | hai
    · rcases Nat.lt_succ_iff_lt_or_eq.mp hb with hbi | hbi
      · rw [E1 a b hai hbi, E1 b a hbi hai]
        exact H.symm a b hai hbi
      · rw [hbi, E2 a hai, E3 a hai]
    · rcases Nat.lt_succ_iff_lt_or_eq.mp hb with hbi | hbi
      · rw [hai, E2 b hbi, E3 b hbi]
      · rw [hai, hbi]
  · -- the leading block of RR is a left inverse of R R'
    apply border_inverse i s.RR
      (fun c b => ∑ l ∈ range i, Rfactor inp.n s c l * Rfactor inp.n s b l) S.RR
      (fun c b => ∑ l ∈ range (i + 1), Rfactor inp.n S c l * Rfactor inp.n S b l) r
      (fun a => gemvNoTrans i 1 s.RR r 0 (fun _ => 0) a) ρ hρ H.symm H.inv
    · intro a _
      exact RR_Rcol_eq i s.RR r a
    · exact E1
    · exact E2
    · exact E3
    · exact E4
    · intro c b hc hb
      rw [Finset.sum_range_succ, Rb c hc, Rb b hb]
      congr 1
      exact Finset.sum_congr rfl (fun l hl => by
        have hl := Finset.mem_range.mp hl
        rw [Ra c l hc hl, Ra b l hb hl])
    · intro c hc
      rw [Finset.sum_range_succ, Rb c hc, Rd]
      have : ∑ l ∈ range i, Rfactor inp.n S c l * Rfactor inp.n S i l = 0 :=
        Finset.sum_eq_zero (fun l hl => by rw [Rc l (Finset.mem_range.mp hl), mul_zero])
      rw [this, zero_add]
    · intro b hb
      rw [Finset.sum_range_succ, Rb b hb, Rd]
      have : ∑ l ∈ range i, Rfactor inp.n S i l * Rfactor inp.n S b l = 0 :=
        Finset.sum_eq_zero (fun l hl => by rw [Rc l (Finset.mem_range.mp hl), zero_mul])
      rw [this, zero_add]
    · rw [Finset.sum_range_succ, Rd]
      have : ∑ l ∈ range i, Rfactor inp.n S i l * Rfactor inp.n S i l = 0 :=
        Finset.sum_eq_zero (fun l hl => by rw [Rc l (Finset.mem_range.mp hl), mul_zero])
      rw [this, zero_add]

end OrthogonalisationInvariant

section OrthogonalisationLoop

variable {α : Type} [LinearOrderedField α]

theorem firstIter_Q (sqrt exp : α → α) (inp : TrainInput α) (s : CholState α) (j c : Nat) :
    (firstIter sqrt exp inp s).Q j c =
      if c = 0 ∧ j < inp.n then
        (1 / normG_first sqrt exp inp s) * (firstIter sqrt exp inp s).G j 0
      else s.Q j c := rfl

theorem firstIter_RR (sqrt exp : α → α) (inp : TrainInput α) (s : CholState α) (a b : Nat) :
    (firstIter sqrt exp inp s).RR a b =
      if a = 0 ∧ b = 0 then
        1 / (normG_first sqrt exp inp s * normG_first sqrt exp inp s)
      else s.RR a b := rfl

/-- The first norm is the norm of the first column of `G`, and it is not zero. -/
theorem normG_first_sq (sqrt exp : α → α) (hsq : ∀ x, 0 ≤ x → sqrt x * sqrt x = x)
    (inp : TrainInput α) (hn : 1 ≤ inp.n) :
    normG_first sqrt exp inp (initChol inp) * normG_first sqrt exp inp (initChol inp) =
      ∑ j ∈ range inp.n, (firstIter sqrt exp inp (initChol inp)).G j 0 *
        (firstIter sqrt exp inp (initChol inp)).G j 0 ∧
    normG_first sqrt exp inp (initChol inp) ≠ 0 := by
  have h00 : (firstIter sqrt exp inp (initChol inp)).G 0 0 = 1 := by
    rw [firstIter_init_G, if_neg (by omega), if_pos ⟨rfl, rfl⟩]
  have hsum : ∑ j ∈ range inp.n, (firstIter sqrt exp inp (initChol inp)).G j 0 *
        (firstIter sqrt exp inp (initChol inp)).G j 0 =
      (∑ k ∈ range (inp.n - 1),
        (computeNewKcol exp inp.X inp.n inp.d inp.sigma (fun j => j) 1 inp.n).getD k 0 *
        (computeNewKcol exp inp.X inp.n inp.d inp.sigma (fun j => j) 1 inp.n).getD k 0) +
      (firstIter sqrt exp inp (initChol inp)).G 0 0 *
        (firstIter sqrt exp inp (initChol inp)).G 0 0 := by
    obtain ⟨n', hn'⟩ : ∃ n', inp.n = n' + 1 := ⟨inp.n - 1, by omega⟩
    rw [hn', Finset.sum_range_succ', Nat.add_sub_cancel]
    congr 1
    apply Finset.sum_congr rfl
    intro k hk
    have hk := Finset.mem_range.mp hk
    rw [firstIter_init_G, if_pos ⟨rfl, by omega, by omega⟩,
      computeNewKcol_getD _ _ _ _ _ _ _ _ _ (by omega)]
    simp only [Nat.sub_self, Nat.add_comm 1 k]
  have hnn : 0 ≤ ∑ j ∈ range inp.n, (firstIter sqrt exp inp (initChol inp)).G j 0 *
      (firstIter sqrt exp inp (initChol inp)).G j 0 :=
    Finset.sum_nonneg (fun j _ => mul_self_nonneg _)
  have hpos : 0 < ∑ j ∈ range inp.n, (firstIter sqrt exp inp (initChol inp)).G j 0 *
      (firstIter sqrt exp inp (initChol inp)).G j 0 := by
    have h1 : (firstIter sqrt exp inp (initChol inp)).G 0 0 *
        (firstIter sqrt exp inp (initChol inp)).G 0 0 ≤
        ∑ j ∈ range inp.n, (firstIter sqrt exp inp (initChol inp)).G j 0 *
          (firstIter sqrt exp inp (initChol inp)).G j 0 :=
      Finset.single_le_sum (f := fun j => (firstIter sqrt exp inp (initChol inp)).G j 0 *
        (firstIter sqrt exp inp (initChol inp)).G j 0) (fun j _ => mul_self_nonneg _)
        (Finset.mem_range.mpr hn)
    rw [h00, mul_one] at h1
    exact lt_of_lt_of_le one_pos h1
  have hsqr : normG_first sqrt exp inp (initChol inp) *
      normG_first sqrt exp inp (initChol inp) =
      ∑ j ∈ range inp.n, (firstIter sqrt exp inp (initChol inp)).G j 0 *
        (firstIter sqrt exp inp (initChol inp)).G j 0 := by
    rw [hsum]
    unfold normG_first
    simp only
    exact hsq _ (by rw [← hsum]; exact hnn)
  refine ⟨hsqr, fun h0 => ?_⟩
  rw [h0, mul_zero] at hsqr
  rw [← hsqr] at hpos
  exact lt_irrefl _ hpos

theorem qrInv_first (sqrt exp : α → α) (hsq : ∀ x, 0 ≤ x → sqrt x * sqrt x = x)
    (inp : TrainInput α) (hn : 1 ≤ inp.n) :
    QRInv inp.n 1 (firstIter sqrt exp inp (initChol inp)) := by
  obtain ⟨hρ2, hρ⟩ := normG_first_sq sqrt exp hsq inp hn
  have hQ := firstIter_Q sqrt exp inp (initChol inp)
  have hRR := firstIter_RR sqrt exp inp (initChol inp)
  generalize normG_first sqrt exp inp (initChol inp) = ρ at hρ2 hρ hQ hRR
  generalize firstIter sqrt exp inp (initChol inp) = S at hρ2 hQ hRR
  have hQ0 : ∀ j, j < inp.n → S.Q j 0 = (1 / ρ) * S.G j 0 := by
    intro j hj
    rw [hQ, if_pos ⟨rfl, hj⟩]
  have hR00 : Rfactor inp.n S 0 0 = ρ := by
    unfold Rfactor
    have h1 : ∀ j ∈ range inp.n, S.Q j 0 * S.G j 0 = (1 / ρ) * (S.G j 0 * S.G j 0) := by
      intro j hj
      rw [hQ0 j (Finset.mem_range.mp hj)]
      ring
    rw [Finset.sum_congr rfl h1, ← Finset.mul_sum, ← hρ2]
    field_simp
  refine ⟨fun a b ha hb => ?_, fun j c hj hc => ?_, fun a b ha hb => ?_, fun a b ha hb => ?_⟩
  · have ha0 : a = 0 := by omega
    have hb0 : b = 0 := by omega
    rw [ha0, hb0, if_pos rfl]
    have h1 : ∀ j ∈ range inp.n, S.Q j 0 * S.Q j 0 = (1 / (ρ * ρ)) * (S.G j 0 * S.G j 0) := by
      intro j hj
      rw [hQ0 j (Finset.mem_range.mp hj)]
      field_simp
    rw [Finset.sum_congr rfl h1, ← Finset.mul_sum, ← hρ2]
    field_simp
  · have hc0 : c = 0 := by omega
    rw [hc0, Finset.sum_range_one, hR00, hQ0 j hj]
    field_simp
  · have ha0 : a = 0 := by omega
    have hb0 : b = 0 := by omega
    rw [ha0, hb0]
  · have ha0 : a = 0 := by omega
    have hb0 : b = 0 := by omega
    rw [ha0, hb0, if_pos rfl, Finset.sum_range_one, Finset.sum_range_one, hR00, hRR,
      if_pos ⟨rfl, rfl⟩]
    field_simp

theorem normG_next_sq (sqrt exp : α → α) (hsq : ∀ x, 0 ≤ x → sqrt x * sqrt x = x)
    (inp : TrainInput α) (i : Nat) (s : CholState α) :
    normG_next sqrt exp inp i s * normG_next sqrt exp inp i s =
      ∑ j ∈ range inp.n, Qi_next sqrt exp inp i s j * Qi_next sqrt exp inp i s j := by
  unfold normG_next nrm2
  exact hsq _ (Finset.sum_nonneg (fun j _ => mul_self_nonneg _))

/-- With an exact square root, the orthogonalisation invariant holds after every
iteration whose norms were not zero. -/
theorem trainLoop_qrInv (sqrt exp : α → α) (hsq : ∀ x, 0 ≤ x → sqrt x * sqrt x = x)
    (inp : TrainInput α) :
    ∀ k, 1 ≤ k → k ≤ inp.n → (∀ c, 1 ≤ c → c < k → normG_at sqrt exp inp c ≠ 0) →
      QRInv inp.n k (trainLoop sqrt exp inp k).1 := by
  intro k
  induction k with
  | zero => intro h; omega
  | succ k ih =>
    intro _ hk hnorm
    rcases Nat.eq_zero_or_pos k with h0 | hpos
    · subst h0
      rw [trainLoop_one_fst]
      exact qrInv_first sqrt exp hsq inp hk
    · have H := ih hpos (by omega) (fun c h1 h2 => hnorm c h1 (by omega))
      rw [trainLoop_next_fst _ _ _ _ hpos]
      have hρ := hnorm k hpos (by omega)
      unfold normG_at at hρ
      rw [if_neg (by omega)] at hρ
      exact qrInv_next sqrt exp inp k _ (by omega) H hρ (normG_next_sq sqrt exp hsq inp k _)

end OrthogonalisationLoop

section OrthogonalFactor

variable {α : Type} [LinearOrderedField α]

/-- Under the orthogonalisation invariant the factor `R = Q' * G` is upper
triangular. -/
theorem QRInv.upper {n k : Nat} {s : CholState α} (H : QRInv n k s) (a c : Nat) (hca : c < a)
    (ha : a < k) : Rfactor n s a c = 0 := by
  have h1 : ∀ j ∈ range n, s.Q j a * s.G j c =
      ∑ b ∈ range (c + 1), Rfactor n s b c * (s.Q j a * s.Q j b) := by
    intro j hj
    rw [H.span j c (Finset.mem_range.mp hj) (by omega), Finset.mul_sum]
    apply Finset.sum_congr rfl
    intro b _
    ring
  show ∑ j ∈ range n, s.Q j a * s.G j c = 0
  rw [Finset.sum_congr rfl h1, Finset.sum_comm]
  apply Finset.sum_eq_zero
  intro b hb
  have hb := Finset.mem_range.mp hb
  rw [← Finset.mul_sum, H.orth a b ha (by omega), if_neg (by omega), mul_zero]

/-- Under the orthogonalisation invariant the leading block of `RR` is also a right
inverse of `R * R'`. -/
theorem QRInv.right_inv {n k : Nat} {s : CholState α} (H : QRInv n k s) (a b : Nat) (ha : a < k)
    (hb : b < k) :
    ∑ c ∈ range k, (∑ l ∈ range k, Rfactor n s a l * Rfactor n s c l) * s.RR c b =
      if a = b then 1 else 0 := by
  have h := H.inv b a hb ha
  have hite : (if a = b then (1 : α) else 0) = if b = a then 1 else 0 := by
    by_cases hab : a = b
    · rw [if_pos hab, if_pos hab.symm]
    · rw [if_neg hab, if_neg (fun h => hab h.symm)]
  rw [hite, ← h]
  apply Finset.sum_congr rfl
  intro c hc
  rw [H.symm c b (Finset.mem_range.mp hc) hb, mul_comm]
  congr 1
  apply Finset.sum_congr rfl
  intro l _
  exact mul_comm _ _

end OrthogonalFactor

section TwoPoints

theorem real_sqrt_sq (x : ℝ) (hx : 0 ≤ x) : Real.sqrt x * Real.sqrt x = x :=
  Real.mul_self_sqrt hx

theorem twoPoint_kernel (a b : Nat) :
    kernel Real.exp (twoPointInput ℝ).X (twoPointInput ℝ).d (twoPointInput ℝ).sigma a b =
      Real.exp (-(((a : ℝ) - (b : ℝ)) ^ 2)) := by
  rw [kernel_real]
  simp [twoPointInput]

theorem twoPoint_pivot (d : Nat → ℝ) : max_element d 1 (twoPointInput ℝ).n = 1 := by
  obtain ⟨h1, h2, -, -⟩ := max_element_spec d 1 (twoPointInput ℝ).n (by decide)
  have h3 : (twoPointInput ℝ).n = 2 := rfl
  omega

/-- The entries of `G` and of the first column of `Q` after both iterations on the
two points. -/
theorem twoPoint_entries :
    (trainLoop Real.sqrt Real.exp (twoPointInput ℝ) 2).1.G 0 0 = 1 ∧
    (trainLoop Real.sqrt Real.exp (twoPointInput ℝ) 2).1.G 1 0 = Real.exp (-1) ∧
    (trainLoop Real.sqrt Real.exp (twoPointInput ℝ) 2).1.G 0 1 = 0 ∧
    0 < (trainLoop Real.sqrt Real.exp (twoPointInput ℝ) 2).1.G 1 1 ∧
    (∀ j, j < 2 → (trainLoop Real.sqrt Real.exp (twoPointInput ℝ) 2).1.Q j 0 =
      (1 / normG_first Real.sqrt Real.exp (twoPointInput ℝ) (initChol (twoPointInput ℝ))) *
        (trainLoop Real.sqrt Real.exp (twoPointInput ℝ) 2).1.G j 0) ∧
    (∀ j, swapRows (trainLoop Real.sqrt Real.exp (twoPointInput ℝ) 1).1.Q 1
        (max_element (trainLoop Real.sqrt Real.exp (twoPointInput ℝ) 1).1.diagG 1
          (twoPointInput ℝ).n) 1 j 0 =
      (trainLoop Real.sqrt Real.exp (twoPointInput ℝ) 2).1.Q j 0) := by
  have hS2 := trainLoop_next_fst Real.sqrt Real.exp (twoPointInput ℝ) 1 le_rfl
  have hS1 := trainLoop_one_fst Real.sqrt Real.exp (twoPointInput ℝ)
  have hn : (twoPointInput ℝ).n = 2 := rfl
  have hk10 : kernel Real.exp (twoPointInput ℝ).X (twoPointInput ℝ).d (twoPointInput ℝ).sigma 1 0 =
      Real.exp (-1) := by
    rw [twoPoint_kernel]
    norm_num
  have he1 : Real.exp (-1) < 1 := by
    rw [Real.exp_lt_one_iff]
    norm_num
  have he0 : 0 < Real.exp (-1) := Real.exp_pos _
  have hG : ∀ j, (trainLoop Real.sqrt Real.exp (twoPointInput ℝ) 2).1.G j 0 =
      (trainLoop Real.sqrt Real.exp (twoPointInput ℝ) 1).1.G j 0 := by
    intro j
    rw [show (1 : Nat) + 1 = 2 from rfl] at hS2
    rw [hS2, nextIter_G_of_ne _ _ _ _ _ _ _ (by decide), swapRows_eq _ _ _ _ _ _ (by decide),
      twoPoint_pivot]
    congr 1
    split_ifs <;> omega
  have hQ : ∀ j, swapRows (trainLoop Real.sqrt Real.exp (twoPointInput ℝ) 1).1.Q 1
        (max_element (trainLoop Real.sqrt Real.exp (twoPointInput ℝ) 1).1.diagG 1
          (twoPointInput ℝ).n) 1 j 0 =
      (trainLoop Real.sqrt Real.exp (twoPointInput ℝ) 1).1.Q j 0 := by
    intro j
    rw [swapRows_eq _ _ _ _ _ _ (by decide), twoPoint_pivot]
    congr 1
    split_ifs <;> omega
  have hQ2 : ∀ j, (trainLoop Real.sqrt Real.exp (twoPointInput ℝ) 2).1.Q j 0 =
      (trainLoop Real.sqrt Real.exp (twoPointInput ℝ) 1).1.Q j 0 := by
    intro j
    rw [← hQ j]
    rw [show (1 : Nat) + 1 = 2 from rfl] at hS2
    rw [hS2, nextIter_Q, if_neg (by omega)]
  refine ⟨?_, ?_, ?_, ?_, ?_, ?_⟩
  · rw [hG, hS1, firstIter_init_G, if_neg (by omega), if_pos ⟨rfl, rfl⟩]
  · rw [hG, hS1, firstIter_init_G, if_pos ⟨rfl, le_rfl, by decide⟩, hk10]
  · exact (trainLoop_trapezoid Real.sqrt Real.exp (twoPointInput ℝ) 2 (by decide) (by decide)).1
      0 1 (by decide)
  · rw [show (1 : Nat) + 1 = 2 from rfl] at hS2
    rw [hS2, nextIter_G, if_neg (by omega), if_pos ⟨rfl, rfl⟩, twoPoint_pivot, hS1,
      firstIter_diagG _ _ _ _ _ le_rfl (by decide), hk10]
    apply Real.sqrt_pos.mpr
    nlinarith
  · intro j hj
    rw [hQ2, hG, hS1, firstIter_Q, if_pos ⟨rfl, hj⟩]
  · intro j
    rw [hQ, hQ2]

/-- On the two points the norm of the second iteration is not zero. -/
theorem twoPoint_norm_ne_zero : normG_at Real.sqrt Real.exp (twoPointInput ℝ) 1 ≠ 0 := by
  obtain ⟨h00, h10, h01, h11, hQ, hQs⟩ := twoPoint_entries
  obtain ⟨-, hρ⟩ := normG_first_sq Real.sqrt Real.exp real_sqrt_sq (twoPointInput ℝ) (by decide)
  have he0 : 0 < Real.exp (-1) := Real.exp_pos _
  have hn : (twoPointInput ℝ).n = 2 := rfl
  unfold normG_at
  rw [if_neg (by decide)]
  intro h0
  have hsq := normG_next_sq Real.sqrt Real.exp real_sqrt_sq (twoPointInput ℝ) 1
    (trainLoop Real.sqrt Real.exp (twoPointInput ℝ) 1).1
  rw [h0, mul_zero, hn, Finset.sum_range_succ, Finset.sum_range_one] at hsq
  have hq0 : Qi_next Real.sqrt Real.exp (twoPointInput ℝ) 1
      (trainLoop Real.sqrt Real.exp (twoPointInput ℝ) 1).1 0 = 0 := by
    nlinarith [mul_self_nonneg (Qi_next Real.sqrt Real.exp (twoPointInput ℝ) 1
      (trainLoop Real.sqrt Real.exp (twoPointInput ℝ) 1).1 0),
      mul_self_nonneg (Qi_next Real.sqrt Real.exp (twoPointInput ℝ) 1
      (trainLoop Real.sqrt Real.exp (twoPointInput ℝ) 1).1 1)]
  rw [hn] at hQs
  rw [Qi_next_eq, Finset.sum_range_one, hn, Finset.sum_range_succ, Finset.sum_range_one,
    ← trainLoop_next_fst _ _ _ _ le_rfl, show (1 : Nat) + 1 = 2 from rfl, hQs, hQs, h01,
    hQ 0 (by decide), hQ 1 (by decide), h00, h10] at hq0
  have hρi : 1 / normG_first Real.sqrt Real.exp (twoPointInput ℝ) (initChol (twoPointInput ℝ)) ≠ 0 :=
    one_div_ne_zero hρ
  generalize 1 / normG_first Real.sqrt Real.exp (twoPointInput ℝ) (initChol (twoPointInput ℝ)) = r
    at hq0 hρi
  generalize (trainLoop Real.sqrt Real.exp (twoPointInput ℝ) 2).1.G 1 1 = g at hq0 h11
  have h3 : r * 1 * (r * Real.exp (-1) * g) ≠ 0 :=
    mul_ne_zero (mul_ne_zero hρi one_ne_zero)
      (mul_ne_zero (mul_ne_zero hρi (ne_of_gt he0)) (ne_of_gt h11))
  apply h3
  linarith

end TwoPoints

section OrthonormalColumns

/-- Claim C12: in exact real arithmetic, after every iteration `i` of `train`
(`0 ≤ i < m ≤ n`) in which every normalising norm is non-zero, the first `i + 1`
columns of `Q` are orthonormal: for all `a, b ≤ i` the sum over the rows `j` of
`Q[j][a] * Q[j][b]` is `1` if `a = b` and `0` otherwise; and the exchange of the rows
`i + 1` and `jast` done for pivoting by the next iteration preserves this. (The norm
of iteration `0` is never zero, so only the later norms are assumed non-zero.) -/
theorem Q_columns_orthonormal (inp : TrainInput ℝ) (i : Nat) (hi : i < inp.m)
    (hmn : inp.m ≤ inp.n)
    (hnorm : ∀ c, 1 ≤ c → c ≤ i → normG_at Real.sqrt Real.exp inp c ≠ 0) :
    (∀ a b, a ≤ i → b ≤ i →
      ∑ j ∈ range inp.n, (trainLoop Real.sqrt Real.exp inp (i + 1)).1.Q j a *
        (trainLoop Real.sqrt Real.exp inp (i + 1)).1.Q j b = if a = b then 1 else 0) ∧
    (i + 1 < inp.n → ∀ a b, a ≤ i → b ≤ i →
      ∑ j ∈ range inp.n,
        swapRows (trainLoop Real.sqrt Real.exp inp (i + 1)).1.Q (i + 1)
          (max_element (trainLoop Real.sqrt Real.exp inp (i + 1)).1.diagG (i + 1) inp.n)
          (i + 1) j a *
        swapRows (trainLoop Real.sqrt Real.exp inp (i + 1)).1.Q (i + 1)
          (max_element (trainLoop Real.sqrt Real.exp inp (i + 1)).1.diagG (i + 1) inp.n)
          (i + 1) j b = if a = b then 1 else 0) := by
  have H := trainLoop_qrInv Real.sqrt Real.exp real_sqrt_sq inp (i + 1) (by omega) (by omega)
    (fun c h1 h2 => hnorm c h1 (by omega))
  refine ⟨fun a b ha hb => H.orth a b (by omega) (by omega), fun hin a b ha hb => ?_⟩
  obtain ⟨-, hj2, -, -⟩ :=
    max_element_spec (trainLoop Real.sqrt Real.exp inp (i + 1)).1.diagG (i + 1) inp.n hin
  have h1 : ∀ j ∈ range inp.n,
      swapRows (trainLoop Real.sqrt Real.exp inp (i + 1)).1.Q (i + 1)
          (max_element (trainLoop Real.sqrt Real.exp inp (i + 1)).1.diagG (i + 1) inp.n)
          (i + 1) j a *
        swapRows (trainLoop Real.sqrt Real.exp inp (i + 1)).1.Q (i + 1)
          (max_element (trainLoop Real.sqrt Real.exp inp (i + 1)).1.diagG (i + 1) inp.n)
          (i + 1) j b =
      (fun r => (trainLoop Real.sqrt Real.exp inp (i + 1)).1.Q r a *
        (trainLoop Real.sqrt Real.exp inp (i + 1)).1.Q r b)
        (if j = i + 1 then
          max_element (trainLoop Real.sqrt Real.exp inp (i + 1)).1.diagG (i + 1) inp.n
         else if j =
          max_element (trainLoop Real.sqrt Real.exp inp (i + 1)).1.diagG (i + 1) inp.n
         then i + 1 else j) := by
    intro j _
    rw [swapRows_eq _ _ _ _ _ _ (by omega), swapRows_eq _ _ _ _ _ _ (by omega)]
  rw [Finset.sum_congr rfl h1]
  exact (sum_swap_rows inp.n (i + 1) _ hin hj2
    (fun r => (trainLoop Real.sqrt Real.exp inp (i + 1)).1.Q r a *
      (trainLoop Real.sqrt Real.exp inp (i + 1)).1.Q r b)).trans
    (H.orth a b (by omega) (by omega))

theorem Q_columns_orthonormal_witness :
    (1 < (twoPointInput ℝ).m ∧ (twoPointInput ℝ).m ≤ (twoPointInput ℝ).n ∧
      ∀ c, 1 ≤ c → c ≤ 1 → normG_at Real.sqrt Real.exp (twoPointInput ℝ) c ≠ 0) ∧
    ∑ j ∈ range (twoPointInput ℝ).n,
      (trainLoop Real.sqrt Real.exp (twoPointInput ℝ) (1 + 1)).1.Q j 0 *
        (trainLoop Real.sqrt Real.exp (twoPointInput ℝ) (1 + 1)).1.Q j 1 =
      if 0 = 1 then 1 else 0 := by
  have hnorm : ∀ c, 1 ≤ c → c ≤ 1 → normG_at Real.sqrt Real.exp (twoPointInput ℝ) c ≠ 0 := by
    intro c h1 h2
    have hc : c = 1 := by omega
    rw [hc]
    exact twoPoint_norm_ne_zero
  exact ⟨⟨by decide, by decide, hnorm⟩,
    (Q_columns_orthonormal (twoPointInput ℝ) 1 (by decide) (by decide) hnorm).1 0 1
      (by decide) (by decide)⟩

end OrthonormalColumns

section InverseFactor

/-- Claim C11 (amended): in exact real arithmetic, after every iteration `i` of `train`
(`0 ≤ i < m ≤ n`, all column norms non-zero), the first `i + 1` columns of `G` are
`Q * R` with `R = Q' * G` upper triangular, and the leading `(i+1)x(i+1)` block of `RR`
is the inverse of `R * R'` (from the left and from the right), not of `R' * R`. -/
theorem RR_is_inverse_of_R_Rt (inp : TrainInput ℝ) (i : Nat) (hi : i < inp.m)
    (hmn : inp.m ≤ inp.n)
    (hnorm : ∀ c, 1 ≤ c → c ≤ i → normG_at Real.sqrt Real.exp inp c ≠ 0) :
    (∀ j c, j < inp.n → c ≤ i →
      (trainLoop Real.sqrt Real.exp inp (i + 1)).1.G j c =
        ∑ a ∈ range (c + 1), (trainLoop Real.sqrt Real.exp inp (i + 1)).1.Q j a *
          Rfactor inp.n (trainLoop Real.sqrt Real.exp inp (i + 1)).1 a c) ∧
    (∀ a c, c < a → a ≤ i →
      Rfactor inp.n (trainLoop Real.sqrt Real.exp inp (i + 1)).1 a c = 0) ∧
    (∀ a b, a ≤ i → b ≤ i →
      ∑ c ∈ range (i + 1), (trainLoop Real.sqrt Real.exp inp (i + 1)).1.RR a c *
        (∑ l ∈ range (i + 1),
          Rfactor inp.n (trainLoop Real.sqrt Real.exp inp (i + 1)).1 c l *
            Rfactor inp.n (trainLoop Real.sqrt Real.exp inp (i + 1)).1 b l) =
        if a = b then 1 else 0) ∧
    (∀ a b, a ≤ i → b ≤ i →
      ∑ c ∈ range (i + 1),
        (∑ l ∈ range (i + 1),
          Rfactor inp.n (trainLoop Real.sqrt Real.exp inp (i + 1)).1 a l *
            Rfactor inp.n (trainLoop Real.sqrt Real.exp inp (i + 1)).1 c l) *
          (trainLoop Real.sqrt Real.exp inp (i + 1)).1.RR c b =
        if a = b then 1 else 0) := by
  have H := trainLoop_qrInv Real.sqrt Real.exp real_sqrt_sq inp (i + 1) (by omega) (by omega)
    (fun c h1 h2 => hnorm c h1 (by omega))
  exact ⟨fun j c hj hc => H.span j c hj (by omega), fun a c hca ha => H.upper a c hca (by omega),
    fun a b ha hb => H.inv a b (by omega) (by omega),
    fun a b ha hb => H.right_inv a b (by omega) (by omega)⟩

theorem RR_is_inverse_of_R_Rt_witness :
    (1 < (twoPointInput ℝ).m ∧ (twoPointInput ℝ).m ≤ (twoPointInput ℝ).n ∧
      ∀ c, 1 ≤ c → c ≤ 1 → normG_at Real.sqrt Real.exp (twoPointInput ℝ) c ≠ 0) ∧
    ∑ c ∈ range (1 + 1), (trainLoop Real.sqrt Real.exp (twoPointInput ℝ) (1 + 1)).1.RR 1 c *
      (∑ l ∈ range (1 + 1),
        Rfactor (twoPointInput ℝ).n (trainLoop Real.sqrt Real.exp (twoPointInput ℝ) (1 + 1)).1 c l *
          Rfactor (twoPointInput ℝ).n
            (trainLoop Real.sqrt Real.exp (twoPointInput ℝ) (1 + 1)).1 0 l) =
      if 1 = 0 then 1 else 0 := by
  have hnorm : ∀ c, 1 ≤ c → c ≤ 1 → normG_at Real.sqrt Real.exp (twoPointInput ℝ) c ≠ 0 := by
    intro c h1 h2
    have hc : c = 1 := by omega
    rw [hc]
    exact twoPoint_norm_ne_zero
  exact ⟨⟨by decide, by decide, hnorm⟩,
    (RR_is_inverse_of_R_Rt (twoPointInput ℝ) 1 (by decide) (by decide) hnorm).2.2.1 1 0
      (by decide) (by decide)⟩

/-- Counterexample to claim C11 as stated: on the two points `0` and `1` (budget
`m = n = 2`, bandwidth `1`) every column norm is non-zero, and after iteration `1` the
leading `2x2` block of `RR` is not an inverse of `R' * R`, neither from the left nor
from the right. -/
theorem RR_not_inverse_of_Rt_R_two_points :
    (1 < (twoPointInput ℝ).m ∧ (twoPointInput ℝ).m ≤ (twoPointInput ℝ).n ∧
      ∀ c, c ≤ 1 → normG_at Real.sqrt Real.exp (twoPointInput ℝ) c ≠ 0) ∧
    ¬ (∀ a b, a ≤ 1 → b ≤ 1 →
      ∑ c ∈ range 2, (trainLoop Real.sqrt Real.exp (twoPointInput ℝ) 2).1.RR a c *
        (∑ l ∈ range 2,
          Rfactor (twoPointInput ℝ).n (trainLoop Real.sqrt Real.exp (twoPointInput ℝ) 2).1 l c *
            Rfactor (twoPointInput ℝ).n (trainLoop Real.sqrt Real.exp (twoPointInput ℝ) 2).1 l b) =
        if a = b then 1 else 0) ∧
    ¬ (∀ a b, a ≤ 1 → b ≤ 1 →
      ∑ c ∈ range 2,
        (∑ l ∈ range 2,
          Rfactor (twoPointInput ℝ).n (trainLoop Real.sqrt Real.exp (twoPointInput ℝ) 2).1 l a *
            Rfactor (twoPointInput ℝ).n (trainLoop Real.sqrt Real.exp (twoPointInput ℝ) 2).1 l c) *
          (trainLoop Real.sqrt Real.exp (twoPointInput ℝ) 2).1.RR c b =
        if a = b then 1 else 0) := by
  obtain ⟨h00, h10, h01, h11, hQ, -⟩ := twoPoint_entries
  obtain ⟨-, hρ⟩ := normG_first_sq Real.sqrt Real.exp real_sqrt_sq (twoPointInput ℝ) (by decide)
  have he0 : 0 < Real.exp (-1) := Real.exp_pos _
  have hnorm : ∀ c, c ≤ 1 → normG_at Real.sqrt Real.exp (twoPointInput ℝ) c ≠ 0 := by
    intro c hc
    rcases Nat.eq_zero_or_pos c with h0 | hpos
    · rw [h0]
      exact hρ
    · have hc1 : c = 1 := by omega
      rw [hc1]
      exact twoPoint_norm_ne_zero
  have H := trainLoop_qrInv Real.sqrt Real.exp real_sqrt_sq (twoPointInput ℝ) 2 (by decide)
    (by decide) (fun c _ h2 => hnorm c (by omega))
  have hR10 := H.upper 1 0 (by decide) (by decide)
  have hinv := H.inv 1 1 (by decide) (by decide)
  have hn : (twoPointInput ℝ).n = 2 := rfl
  have hρi : 1 / normG_first Real.sqrt Real.exp (twoPointInput ℝ) (initChol (twoPointInput ℝ)) ≠ 0 :=
    one_div_ne_zero hρ
  have hR00 : Rfactor (twoPointInput ℝ).n (trainLoop Real.sqrt Real.exp (twoPointInput ℝ) 2).1 0 0
      ≠ 0 := by
    unfold Rfactor
    rw [hn, Finset.sum_range_succ, Finset.sum_range_one, hQ 0 (by decide), hQ 1 (by decide),
      h00, h10]
    generalize 1 / normG_first Real.sqrt Real.exp (twoPointInput ℝ) (initChol (twoPointInput ℝ)) = r
      at hρi
    have h3 : r * (1 + Real.exp (-1) * Real.exp (-1)) ≠ 0 :=
      mul_ne_zero hρi (by positivity)
    intro h4
    apply h3
    linarith
  have hR01 : Rfactor (twoPointInput ℝ).n (trainLoop Real.sqrt Real.exp (twoPointInput ℝ) 2).1 0 1
      ≠ 0 := by
    unfold Rfactor
    rw [hn, Finset.sum_range_succ, Finset.sum_range_one, hQ 0 (by decide), hQ 1 (by decide),
      h00, h10, h01]
    generalize 1 / normG_first Real.sqrt Real.exp (twoPointInput ℝ) (initChol (twoPointInput ℝ)) = r
      at hρi
    have h3 : r * Real.exp (-1) * (trainLoop Real.sqrt Real.exp (twoPointInput ℝ) 2).1.G 1 1 ≠ 0 :=
      mul_ne_zero (mul_ne_zero hρi (ne_of_gt he0)) (ne_of_gt h11)
    intro h4
    apply h3
    linarith
  rw [Finset.sum_range_succ, Finset.sum_range_one, Finset.sum_range_succ, Finset.sum_range_one,
    Finset.sum_range_succ, Finset.sum_range_one, hR10] at hinv
  have key : ¬ (∀ a b, a ≤ 1 → b ≤ 1 →
      ∑ c ∈ range 2, (trainLoop Real.sqrt Real.exp (twoPointInput ℝ) 2).1.RR a c *
        (∑ l ∈ range 2,
          Rfactor (twoPointInput ℝ).n (trainLoop Real.sqrt Real.exp (twoPointInput ℝ) 2).1 l c *
            Rfactor (twoPointInput ℝ).n (trainLoop Real.sqrt Real.exp (twoPointInput ℝ) 2).1 l b) =
        if a = b then 1 else 0) := by
    intro h
    have e10 := h 1 0 le_rfl (by decide)
    have e11 := h 1 1 le_rfl le_rfl
    rw [Finset.sum_range_succ, Finset.sum_range_one, Finset.sum_range_succ, Finset.sum_range_one,
      Finset.sum_range_succ, Finset.sum_range_one, hR10, if_neg (by decide)] at e10
    rw [Finset.sum_range_succ, Finset.sum_range_one, Finset.sum_range_succ, Finset.sum_range_one,
      Finset.sum_range_succ, Finset.sum_range_one, hR10, if_pos rfl] at e11
    rw [if_pos rfl] at hinv
    generalize Rfactor (twoPointInput ℝ).n (trainLoop Real.sqrt Real.exp (twoPointInput ℝ) 2).1 0 0
      = r00 at e10 e11 hinv hR00
    generalize Rfactor (twoPointInput ℝ).n (trainLoop Real.sqrt Real.exp (twoPointInput ℝ) 2).1 0 1
      = r01 at e10 e11 hinv hR01
    generalize Rfactor (twoPointInput ℝ).n (trainLoop Real.sqrt Real.exp (twoPointInput ℝ) 2).1 1 1
      = r11 at e10 e11 hinv
    generalize (trainLoop Real.sqrt Real.exp (twoPointInput ℝ) 2).1.RR 1 0 = a10 at e10 e11 hinv
    generalize (trainLoop Real.sqrt Real.exp (twoPointInput ℝ) 2).1.RR 1 1 = a11 at e10 e11 hinv
    have e4 : a10 * r00 + a11 * r01 = 0 := by
      have : r00 * (a10 * r00 + a11 * r01) = 0 := by linarith
      rcases mul_eq_zero.mp this with h5 | h5
      · exact absurd h5 hR00
      · exact h5
    have e5 : a11 * (r11 * r11) = 1 := by
      have : r01 * (a10 * r00 + a11 * r01) = 0 := by rw [e4, mul_zero]
      linarith
    have e6 : a10 * r01 * r11 = 0 := by linarith
    have hr11 : r11 ≠ 0 := by
      intro h5
      rw [h5, mul_zero, mul_zero] at e5
      exact zero_ne_one e5
    have ha10 : a10 = 0 := by
      rcases mul_eq_zero.mp e6 with h5 | h5
      · rcases mul_eq_zero.mp h5 with h6 | h6
        · exact h6
        · exact absurd h6 hR01
      · exact absurd h5 hr11
    have ha11 : a11 = 0 := by
      rw [ha10, zero_mul, zero_add] at e4
      rcases mul_eq_zero.mp e4 with h5 | h5
      · exact h5
      · exact absurd h5 hR01
    rw [ha11, zero_mul] at e5
    exact zero_ne_one e5
  refine ⟨⟨by decide, by decide, hnorm⟩, key, fun h => key (fun a b ha hb => ?_)⟩
  have hite : (if b = a then (1 : ℝ) else 0) = if a = b then 1 else 0 := by
    by_cases hab : a = b
    · rw [if_pos hab, if_pos hab.symm]
    · rw [if_neg hab, if_neg (fun h => hab h.symm)]
  rw [← hite, ← h b a hb ha]
  have hs : ∀ c, c < 2 → (trainLoop Real.sqrt Real.exp (twoPointInput ℝ) 2).1.RR a c =
      (trainLoop Real.sqrt Real.exp (twoPointInput ℝ) 2).1.RR c a :=
    fun c hc => H.symm a c (by omega) hc
  apply Finset.sum_congr rfl
  intro c hc
  rw [hs c (Finset.mem_range.mp hc), mul_comm]
  congr 1
  apply Finset.sum_congr rfl
  intro l _
  exact mul_comm _ _

end InverseFactor

section PositiveSemidefinite

variable {α : Type} [LinearOrderedField α]

/-- A positive semi-definite matrix stays positive semi-definite when its rows and
columns are reordered by a permutation. -/
theorem PosSemidefOn.comp_perm_nonneg {n : Nat} {K : Nat → Nat → α} (hK : PosSemidefOn n K)
    {p : Nat → Nat} (hp : PermOn n p) (u : Nat → α) :
    0 ≤ ∑ a ∈ range n, ∑ b ∈ range n, u a * K (p a) (p b) * u b := by
  have hv : ∀ a, a < n → (∑ x ∈ range n, if p x = p a then u x else 0) = u a := by
    intro a ha
    rw [Finset.sum_eq_single a]
    · rw [if_pos rfl]
    · intro b hb hba
      rw [if_neg]
      intro h
      exact hba (hp.2 b a (Finset.mem_range.mp hb) ha h)
    · intro h
      exact absurd (Finset.mem_range.mpr ha) h
  have h := hK (fun s => ∑ x ∈ range n, if p x = s then u x else 0)
  rw [← hp.sum_comp] at h
  have heq : ∀ a ∈ range n,
      (∑ b ∈ range n, (fun s => ∑ x ∈ range n, if p x = s then u x else 0) (p a) * K (p a) b *
        (fun s => ∑ x ∈ range n, if p x = s then u x else 0) b) =
      ∑ b ∈ range n, u a * K (p a) (p b) * u b := by
    intro a ha
    rw [← hp.sum_comp]
    apply Finset.sum_congr rfl
    intro b hb
    simp only
    rw [hv a (Finset.mem_range.mp ha), hv b (Finset.mem_range.mp hb)]
  rw [Finset.sum_congr rfl heq] at h
  exact h

/-- Under the invariant, every remaining residual is a quadratic form of the
pivoted kernel matrix. -/
theorem cholInv_residual_form (K : Nat → Nat → α) (hsymm : ∀ a b, K a b = K b a)
    (hself : ∀ a, K a a = 1) (n i : Nat) (s : CholState α) (H : CholInv K n i s)
    (j : Nat) (hij : i ≤ j) (hjn : j < n) :
    ∃ u : Nat → α,
      ∑ a ∈ range n, ∑ b ∈ range n, u a * K (s.pVec a) (s.pVec b) * u b = s.diagG j := by
  obtain ⟨w, hw⟩ := lower_triangular_solve s.G H.upper i (fun k => s.G j k)
    (fun c hc => ne_of_gt (H.pos c hc))
  refine ⟨fun a => if a < i then -w a else if a = j then 1 else 0, ?_⟩
  have hF : ∀ a, a < n →
      ∑ b ∈ range n, K (s.pVec a) (s.pVec b) *
        (if b < i then -w b else if b = j then 1 else 0) =
      -(∑ k ∈ range i, s.G a k * s.G j k) + K (s.pVec a) (s.pVec j) := by
    intro a ha
    have h1 : ∀ b ∈ range n, K (s.pVec a) (s.pVec b) *
        (if b < i then -w b else if b = j then 1 else 0) =
        (if b < i then -w b else if b = j then 1 else 0) * K (s.pVec a) (s.pVec b) :=
      fun b _ => mul_comm _ _
    rw [Finset.sum_congr rfl h1, sum_support n i j hij hjn w (fun b => K (s.pVec a) (s.pVec b))]
    congr 1
    have h2 : ∀ b ∈ range i, (-w b) * K (s.pVec a) (s.pVec b) =
        (-w b) * ∑ k ∈ range i, s.G a k * s.G b k := by
      intro b hb
      rw [H.gram a b ha (Finset.mem_range.mp hb)]
    rw [Finset.sum_congr rfl h2, solve_apply i s.G w (fun k => s.G j k) hw]
  have hFa : ∀ a, a < i →
      ∑ b ∈ range n, K (s.pVec a) (s.pVec b) *
        (if b < i then -w b else if b = j then 1 else 0) = 0 := by
    intro a ha
    rw [hF a (by omega), hsymm, ← H.gram j a hjn ha]
    have h3 : ∑ k ∈ range i, s.G a k * s.G j k = ∑ k ∈ range i, s.G j k * s.G a k :=
      Finset.sum_congr rfl (fun k _ => mul_comm _ _)
    rw [h3]
    ring
  have hFj : ∑ b ∈ range n, K (s.pVec j) (s.pVec b) *
        (if b < i then -w b else if b = j then 1 else 0) = s.diagG j := by
    rw [hF j hjn, hself, H.diag j hij hjn]
    ring
  have h1 : ∀ a ∈ range n, ∑ b ∈ range n,
      (if a < i then -w a else if a = j then 1 else 0) * K (s.pVec a) (s.pVec b) *
        (if b < i then -w b else if b = j then 1 else 0) =
      (if a < i then -w a else if a = j then 1 else 0) *
        ∑ b ∈ range n, K (s.pVec a) (s.pVec b) *
          (if b < i then -w b else if b = j then 1 else 0) := by
    intro a _
    rw [Finset.mul_sum]
    apply Finset.sum_congr rfl
    intro b _
    ring
  rw [Finset.sum_congr rfl h1, sum_support n i j hij hjn w, hFj]
  have h2 : ∑ a ∈ range i, (-w a) * ∑ b ∈ range n, K (s.pVec a) (s.pVec b) *
      (if b < i then -w b else if b = j then 1 else 0) = 0 := by
    apply Finset.sum_eq_zero
    intro a ha
    rw [hFa a (Finset.mem_range.mp ha), mul_zero]
  rw [h2, zero_add]

/-- Under the invariant, positive semi-definiteness of the kernel matrix makes every
remaining residual non-negative. -/
theorem cholInv_residual_nonneg (K : Nat → Nat → α) (hsymm : ∀ a b, K a b = K b a)
    (hself : ∀ a, K a a = 1) (n i : Nat) (s : CholState α) (H : CholInv K n i s)
    (hK : PosSemidefOn n K) (j : Nat) (hij : i ≤ j) (hjn : j < n) : 0 ≤ s.diagG j := by
  obtain ⟨u, hu⟩ := cholInv_residual_form K hsymm hself n i s H j hij hjn
  rw [← hu]
  exact hK.comp_perm_nonneg H.perm u

/-- When `sqrt` is exact wherever it is not zero, the decomposition invariant holds
after every iteration as long as the pivots written so far are not zero. -/
theorem trainLoop_cholInv_of_pivots (sqrt exp : α → α) (hexp : exp 0 = 1)
    (hsqrt : ∀ x, sqrt x ≠ 0 → 0 < sqrt x ∧ sqrt x * sqrt x = x) (inp : TrainInput α) :
    ∀ k, 1 ≤ k → k ≤ inp.n →
      (∀ c, 1 ≤ c → c < k → (trainLoop sqrt exp inp (c + 1)).1.G c c ≠ 0) →
      CholInv (kernel exp inp.X inp.d inp.sigma) inp.n k (trainLoop sqrt exp inp k).1 := by
  intro k
  induction k with
  | zero => intro h; omega
  | succ k ih =>
    intro _ hk hpiv
    rcases Nat.eq_zero_or_pos k with h0 | hpos
    · subst h0
      rw [trainLoop_one_fst]
      exact cholInv_first sqrt exp hexp inp
    · have H := ih hpos (by omega) (fun c h1 h2 => hpiv c h1 (by omega))
      have hp := hpiv k hpos (by omega)
      rw [trainLoop_next_fst _ _ _ _ hpos] at hp ⊢
      rw [nextIter_G, if_neg (by omega), if_pos ⟨rfl, rfl⟩] at hp
      exact cholInv_next sqrt exp hexp inp k _ hpos (by omega) H (hsqrt _ hp).1 (hsqrt _ hp).2

end PositiveSemidefinite

section Residuals

theorem real_sqrt_of_ne_zero (x : ℝ) (hx : Real.sqrt x ≠ 0) :
    0 < Real.sqrt x ∧ Real.sqrt x * Real.sqrt x = x := by
  have h1 : 0 < Real.sqrt x := lt_of_le_of_ne (Real.sqrt_nonneg x) (Ne.symm hx)
  exact ⟨h1, Real.mul_self_sqrt (Real.sqrt_pos.mp h1).le⟩

/-- Claim C18: in exact real arithmetic, if the RBF kernel matrix
`K[a][b] = exp(-||x_a - x_b||^2 / sigma^2)` of the training points is positive
semi-definite and the pivots `G[c][c]` written by the iterations `1 ≤ c ≤ i` are
non-zero (the pivot of iteration `0` is `1`), then after iteration `i` of `train`
(`0 ≤ i < m ≤ n`) every remaining residual is non-negative: `diagG[j] ≥ 0` for every
`j` in `(i, n)`. -/
theorem remaining_residuals_nonnegative (inp : TrainInput ℝ) (i : Nat) (hi : i < inp.m)
    (hmn : inp.m ≤ inp.n)
    (hK : PosSemidefOn inp.n
      (fun a b => Real.exp (-(∑ c ∈ range inp.d, (inp.X a c - inp.X b c) ^ 2) / inp.sigma ^ 2)))
    (hpiv : ∀ c, 1 ≤ c → c ≤ i → (trainLoop Real.sqrt Real.exp inp (c + 1)).1.G c c ≠ 0)
    (j : Nat) (hij : i < j) (hjn : j < inp.n) :
    0 ≤ (trainLoop Real.sqrt Real.exp inp (i + 1)).1.diagG j := by
  have hK2 : PosSemidefOn inp.n (kernel Real.exp inp.X inp.d inp.sigma) := by
    have h1 : kernel Real.exp inp.X inp.d inp.sigma =
        fun a b => Real.exp (-(∑ c ∈ range inp.d, (inp.X a c - inp.X b c) ^ 2) / inp.sigma ^ 2) := by
      funext a b
      exact kernel_real _ _ _ _ _
    rw [h1]
    exact hK
  have H := trainLoop_cholInv_of_pivots Real.sqrt Real.exp Real.exp_zero real_sqrt_of_ne_zero inp
    (i + 1) (by omega) (by omega) (fun c h1 h2 => hpiv c h1 (by omega))
  exact cholInv_residual_nonneg _ (kernel_symm Real.exp inp.X inp.d inp.sigma)
    (kernel_self Real.exp Real.exp_zero inp.X inp.d inp.sigma) inp.n (i + 1) _ H hK2 j
    (by omega) hjn

end Residuals

section ScenarioKernel

/-- The kernel matrix of the four corners of the unit square is positive
semi-definite. -/
theorem scenario_kernel_psd :
    PosSemidefOn (scenarioInput ℝ).n
      (fun a b => Real.exp (-(∑ c ∈ range (scenarioInput ℝ).d,
        ((scenarioInput ℝ).X a c - (scenarioInput ℝ).X b c) ^ 2) / (scenarioInput ℝ).sigma ^ 2)) := by
  intro v
  have he1 : Real.exp (-1) < 1 := by
    rw [Real.exp_lt_one_iff]
    norm_num
  have he0 : 0 < Real.exp (-1) := Real.exp_pos _
  have he2 : Real.exp (-2) = Real.exp (-1) * Real.exp (-1) := by
    rw [← Real.exp_add]
    norm_num
  simp only [scenarioInput, Finset.sum_range_succ, Finset.sum_range_zero]
  norm_num
  rw [he2]
  generalize Real.exp (-1) = e at he0 he1
  have h1 : 0 ≤ 1 - e * e := by nlinarith
  nlinarith [sq_nonneg (v 0 + e * v 1 + e * v 2 + e * e * v 3),
    mul_nonneg h1 (sq_nonneg (v 1 + e * v 3)), mul_nonneg h1 (sq_nonneg (v 2 + e * v 3)),
    mul_nonneg (mul_nonneg h1 h1) (sq_nonneg (v 3))]

/-- In the scenario the pivot written by iteration `1` is not zero. -/
theorem scenario_pivot_ne_zero :
    (trainLoop Real.sqrt Real.exp (scenarioInput ℝ) (1 + 1)).1.G 1 1 ≠ 0 := by
  rw [trainLoop_next_fst _ _ _ _ le_rfl, nextIter_G, if_neg (by omega), if_pos ⟨rfl, rfl⟩,
    trainLoop_one_fst]
  obtain ⟨hj1, hj2, -, -⟩ := max_element_spec
    (firstIter Real.sqrt Real.exp (scenarioInput ℝ) (initChol (scenarioInput ℝ))).diagG 1
    (scenarioInput ℝ).n (by decide)
  rw [firstIter_diagG _ _ _ _ _ hj1 hj2, kernel_real]
  have hn : (scenarioInput ℝ).n = 4 := rfl
  rw [hn] at hj1 hj2 ⊢
  generalize max_element
    (firstIter Real.sqrt Real.exp (scenarioInput ℝ) (initChol (scenarioInput ℝ))).diagG 1 4 = jast
    at hj1 hj2 ⊢
  apply ne_of_gt
  apply Real.sqrt_pos.mpr
  have hlt : Real.exp (-(∑ c ∈ range (scenarioInput ℝ).d,
      ((scenarioInput ℝ).X jast c - (scenarioInput ℝ).X 0 c) ^ 2) / (scenarioInput ℝ).sigma ^ 2)
      < 1 := by
    rw [Real.exp_lt_one_iff]
    interval_cases jast <;>
      simp only [scenarioInput, Finset.sum_range_succ, Finset.sum_range_zero] <;> norm_num
  have hpos := Real.exp_pos (-(∑ c ∈ range (scenarioInput ℝ).d,
      ((scenarioInput ℝ).X jast c - (scenarioInput ℝ).X 0 c) ^ 2) / (scenarioInput ℝ).sigma ^ 2)
  nlinarith

end ScenarioKernel

section ResidualsScenario

theorem remaining_residuals_nonnegative_witness :
    (1 < (scenarioInput ℝ).m ∧ (scenarioInput ℝ).m ≤ (scenarioInput ℝ).n ∧
      PosSemidefOn (scenarioInput ℝ).n
        (fun a b => Real.exp (-(∑ c ∈ range (scenarioInput ℝ).d,
          ((scenarioInput ℝ).X a c - (scenarioInput ℝ).X b c) ^ 2) / (scenarioInput ℝ).sigma ^ 2)) ∧
      (∀ c, 1 ≤ c → c ≤ 1 →
        (trainLoop Real.sqrt Real.exp (scenarioInput ℝ) (c + 1)).1.G c c ≠ 0) ∧
      1 < 2 ∧ 2 < (scenarioInput ℝ).n) ∧
    0 ≤ (trainLoop Real.sqrt Real.exp (scenarioInput ℝ) (1 + 1)).1.diagG 2 := by
  have hpiv : ∀ c, 1 ≤ c → c ≤ 1 →
      (trainLoop Real.sqrt Real.exp (scenarioInput ℝ) (c + 1)).1.G c c ≠ 0 := by
    intro c h1 h2
    have hc : c = 1 := by omega
    rw [hc]
    exact scenario_pivot_ne_zero
  exact ⟨⟨by decide, by decide, scenario_kernel_psd, hpiv, by decide, by decide⟩,
    remaining_residuals_nonnegative (scenarioInput ℝ) 1 (by decide) (by decide)
      scenario_kernel_psd hpiv 2 (by decide) (by decide)⟩

end ResidualsScenario

section CheckpointCount

variable {α : Type} [LinearOrderedField α]

theorem setInsert_length_le (x : Nat) (l : List Nat) : (setInsert x l).length ≤ l.length + 1 := by
  induction l with
  | nil => simp [setInsert]
  | cons y ys ih =>
    unfold setInsert
    split_ifs
    · simp
    · simp
    · simp only [List.length_cons]
      omega

theorem foldl_setInsert_length_le (f : Nat → Nat) (l : List Nat) :
    ∀ s : List Nat, (l.foldl (fun s i => setInsert (f i) s) s).length ≤ s.length + l.length := by
  induction l with
  | nil => intro s; simp
  | cons a l ih =>
    intro s
    simp only [List.foldl_cons, List.length_cons]
    have h1 := ih (setInsert (f a) s)
    have h2 := setInsert_length_le (f a) s
    omega

theorem ireg_length_le_n_rank (m n_rank : Nat) : (ireg m n_rank).length ≤ n_rank := by
  have h := foldl_setInsert_length_le (fun i => ulongPred (roundPow m (i + 1) n_rank))
    (List.range n_rank) []
  simpa [ireg] using h

theorem ireg_length_le_m (m n_rank : Nat) (hm : 1 ≤ m) : (ireg m n_rank).length ≤ m := by
  have hnd : (ireg m n_rank).Nodup :=
    (ireg_pairwise m n_rank).imp (fun h => Nat.ne_of_lt h)
  have hsub : (ireg m n_rank).toFinset ⊆ range m := by
    intro c hc
    exact Finset.mem_range.mpr (ireg_lt m n_rank hm c (List.mem_toFinset.mp hc))
  have hcard := Finset.card_le_card hsub
  rw [List.toFinset_card_of_nodup hnd, Finset.card_range] at hcard
  exact hcard

theorem checkpoint_times (inp : TrainInput α) (i : Nat) (s : CholState α) (sel : SelState α) :
    (checkpoint inp i s sel).times = sel.times + 1 := by
  unfold checkpoint
  simp only
  split_ifs
  · rfl
  · rfl

theorem foldl_checkpoint_times (inp : TrainInput α) (S : Nat → CholState α) (l : List Nat) :
    ∀ sel : SelState α,
      (l.foldl (fun sel i => checkpoint inp i (S i) sel) sel).times = sel.times + l.length := by
  induction l with
  | nil => intro sel; simp
  | cons a l ih =>
    intro sel
    simp only [List.foldl_cons, List.length_cons]
    rw [ih, checkpoint_times]
    omega

theorem ireg_two_four : ireg 2 4 = [0, 1] := by decide

/-- Claim C28: for every rank budget `m ≥ 1` the number of checkpoints evaluated by
`train`, which is the length of the published performance and timing vectors and
the number of scores and times written, is at most `min(n_rank, m)`; it can be
strictly smaller than `n_rank`, because several geometric steps round to the same
rank: `m = 2`, `n_rank = 4` gives the two checkpoints `0` and `1`. -/
theorem checkpoint_count_at_most_min (sqrt exp : α → α) (inp : TrainInput α) (hm : 1 ≤ inp.m) :
    (ireg inp.m inp.n_rank).length ≤ min inp.n_rank inp.m ∧
    (train sqrt exp inp).acc.cols = (ireg inp.m inp.n_rank).length ∧
    (train sqrt exp inp).times.cols = (ireg inp.m inp.n_rank).length ∧
    (trainLoop sqrt exp inp inp.m).2.perfs = (ireg inp.m inp.n_rank).length ∧
    (trainLoop sqrt exp inp inp.m).2.times = (ireg inp.m inp.n_rank).length ∧
    (ireg 2 4 = [0, 1] ∧ (ireg 2 4).length < 4) := by
  refine ⟨le_min (ireg_length_le_n_rank _ _) (ireg_length_le_m _ _ hm), rfl, rfl, ?_, ?_, ?_⟩
  · rw [trainLoop_snd_final sqrt exp inp hm]
    have h := (foldl_checkpoint_perfs inp (fun i => (trainLoop sqrt exp inp (i + 1)).1)
      (ireg inp.m inp.n_rank) (initSel inp)).1
    rw [h]
    simp [initSel]
  · rw [trainLoop_snd_final sqrt exp inp hm]
    have h := foldl_checkpoint_times inp (fun i => (trainLoop sqrt exp inp (i + 1)).1)
      (ireg inp.m inp.n_rank) (initSel inp)
    rw [h]
    simp [initSel]
  · rw [ireg_two_four]
    exact ⟨rfl, by decide⟩

theorem checkpoint_count_at_most_min_witness :
    1 ≤ (scenarioInput ℝ).m ∧
    (ireg (scenarioInput ℝ).m (scenarioInput ℝ).n_rank).length ≤
      min (scenarioInput ℝ).n_rank (scenarioInput ℝ).m :=
  ⟨by decide,
    (checkpoint_count_at_most_min Real.sqrt Real.exp (scenarioInput ℝ) (by decide)).1⟩

end CheckpointCount

section LastCheckpoint

variable {α : Type} [LinearOrderedField α]

theorem pred_mem_ireg (m n_rank : Nat) (hm : 1 ≤ m) (hM : m ≤ 2 ^ 64) (hr : 1 ≤ n_rank) :
    m - 1 ∈ ireg m n_rank := by
  rw [mem_ireg]
  refine ⟨n_rank - 1, by omega, ?_⟩
  rw [Nat.sub_add_cancel hr, roundPow_self, ulongPred_eq m hm hM]

/-- In an ascending list whose entries are below `m`, the entry `m - 1` is the last
one. -/
theorem getD_last_of_pairwise (l : List Nat) (m : Nat) (hp : l.Pairwise (· < ·))
    (hlt : ∀ c ∈ l, c < m) (hmem : m - 1 ∈ l) : 1 ≤ l.length ∧ l.getD (l.length - 1) 0 = m - 1 := by
  obtain ⟨k, hk, hkv⟩ := List.mem_iff_getElem.mp hmem
  have hlen : 1 ≤ l.length := by omega
  refine ⟨hlen, ?_⟩
  rw [List.getD_eq_getElem l 0 (by omega)]
  by_cases hkl : k = l.length - 1
  · subst hkl
    exact hkv
  · have h1 := List.pairwise_iff_getElem.mp hp k (l.length - 1) hk (by omega) (by omega)
    have h2 := hlt _ (List.getElem_mem (show l.length - 1 < l.length by omega))
    omega

/-- Claim C27: for every rank budget `m ≥ 1` (an `unsigned long`) and checkpoint
count `n_rank ≥ 1`, the last loop iteration `m - 1` (rank `m`) belongs to the
checkpoint set; so the performance vector is not empty, and its last entry is the
score of the full-budget model, computed from the state after all `m` iterations. -/
theorem last_iteration_is_checkpoint (sqrt exp : α → α) (inp : TrainInput α) (hm : 1 ≤ inp.m)
    (hM : inp.m ≤ 2 ^ 64) (hr : 1 ≤ inp.n_rank) :
    inp.m - 1 ∈ ireg inp.m inp.n_rank ∧
    1 ≤ (train sqrt exp inp).acc.cols ∧
    1 ≤ (trainLoop sqrt exp inp inp.m).2.perfs ∧
    (train sqrt exp inp).acc.data 0 ((train sqrt exp inp).acc.cols - 1) =
      perf_i inp (inp.m - 1) (trainLoop sqrt exp inp inp.m).1 := by
  have hmem := pred_mem_ireg inp.m inp.n_rank hm hM hr
  obtain ⟨hlen, hlast⟩ := getD_last_of_pairwise (ireg inp.m inp.n_rank) inp.m
    (ireg_pairwise _ _) (ireg_lt _ _ hm) hmem
  have hcols : (train sqrt exp inp).acc.cols = (ireg inp.m inp.n_rank).length := rfl
  refine ⟨hmem, by rw [hcols]; exact hlen, ?_, ?_⟩
  · rw [trainLoop_snd_final sqrt exp inp hm]
    have h := (foldl_checkpoint_perfs inp (fun i => (trainLoop sqrt exp inp (i + 1)).1)
      (ireg inp.m inp.n_rank) (initSel inp)).1
    rw [h]
    omega
  · rw [hcols, train_acc_data sqrt exp inp hm _ (by omega), hlast, Nat.sub_add_cancel hm]

theorem last_iteration_is_checkpoint_witness :
    (1 ≤ (scenarioInput ℝ).m ∧ (scenarioInput ℝ).m ≤ 2 ^ 64 ∧ 1 ≤ (scenarioInput ℝ).n_rank) ∧
    (scenarioInput ℝ).m - 1 ∈ ireg (scenarioInput ℝ).m (scenarioInput ℝ).n_rank :=
  ⟨⟨by decide, by norm_num [scenarioInput], by decide⟩,
    (last_iteration_is_checkpoint Real.sqrt Real.exp (scenarioInput ℝ) (by decide)
      (by norm_num [scenarioInput]) (by decide)).1⟩

end LastCheckpoint

section KernelColumn

/-- Claim C23 (amended): in exact real arithmetic (exact `exp`, exact `-1/sigma^2`), for
every training matrix, pivot order `pVec`, `sigma ≠ 0` and `1 ≤ start ≤ n`,
`computeNewKcol` returns a vector of length `n - start` whose `k`-th entry is
`exp(-||x_pVec[start+k] - x_pVec[start-1]||^2 / sigma^2)`; every entry lies in `(0, 1]`,
and the result is empty when `start = n`. -/
theorem computeNewKcol_is_kernel_column (X : Nat → Nat → ℝ) (xr xc : Nat) (sigma : ℝ)
    (pVec : Nat → Nat) (start n : Nat) (hsigma : sigma ≠ 0) (_h1 : 1 ≤ start) (_h2 : start ≤ n) :
    (computeNewKcol Real.exp X xr xc sigma pVec start n).length = n - start ∧
    (∀ k, k < n - start →
      (computeNewKcol Real.exp X xr xc sigma pVec start n)[k]? =
        some (Real.exp (-(∑ c ∈ range xc,
          (X (pVec (start + k)) c - X (pVec (start - 1)) c) ^ 2) / sigma ^ 2))) ∧
    (∀ v ∈ computeNewKcol Real.exp X xr xc sigma pVec start n, 0 < v ∧ v ≤ 1) ∧
    (start = n → computeNewKcol Real.exp X xr xc sigma pVec start n = []) := by
  have hlen := computeNewKcol_length Real.exp X xr xc sigma pVec start n
  have hent : ∀ k, k < n - start →
      (computeNewKcol Real.exp X xr xc sigma pVec start n)[k]? =
        some (Real.exp (-(∑ c ∈ range xc,
          (X (pVec (start + k)) c - X (pVec (start - 1)) c) ^ 2) / sigma ^ 2)) := by
    intro k hk
    have hg := computeNewKcol_getD Real.exp X xr xc sigma pVec start n k hk
    rw [kernel_real] at hg
    rw [← hg, List.getD_eq_getElem _ _ (by rw [hlen]; exact hk)]
    exact List.getElem?_eq_getElem (by rw [hlen]; exact hk)
  refine ⟨hlen, hent, fun v hv => ?_, fun hsn => ?_⟩
  · obtain ⟨k, hk, hkv⟩ := List.mem_iff_getElem.mp hv
    have hk2 : k < n - start := by rw [← hlen]; exact hk
    have h3 := hent k hk2
    rw [List.getElem?_eq_getElem hk, hkv] at h3
    have h4 := Option.some.inj h3
    rw [h4]
    refine ⟨Real.exp_pos _, ?_⟩
    rw [Real.exp_le_one_iff]
    have hsum : 0 ≤ ∑ c ∈ range xc, (X (pVec (start + k)) c - X (pVec (start - 1)) c) ^ 2 :=
      Finset.sum_nonneg (fun c _ => sq_nonneg _)
    have hs2 : 0 < sigma ^ 2 := by positivity
    have := div_nonneg hsum hs2.le
    rw [neg_div]
    linarith
  · apply List.eq_nil_of_length_eq_zero
    rw [hlen, hsn, Nat.sub_self]

theorem computeNewKcol_is_kernel_column_witness :
    ((1 : ℝ) ≠ 0 ∧ 1 ≤ 1 ∧ 1 ≤ 2) ∧
    ((computeNewKcol Real.exp (twoPointInput ℝ).X 2 1 1 (fun j => j) 1 2).length = 2 - 1 ∧
      (∀ k, k < 2 - 1 →
        (computeNewKcol Real.exp (twoPointInput ℝ).X 2 1 1 (fun j => j) 1 2)[k]? =
          some (Real.exp (-(∑ c ∈ range 1,
            ((twoPointInput ℝ).X ((fun j => j) (1 + k)) c -
              (twoPointInput ℝ).X ((fun j => j) (1 - 1)) c) ^ 2) / (1 : ℝ) ^ 2))) ∧
      (∀ v ∈ computeNewKcol Real.exp (twoPointInput ℝ).X 2 1 1 (fun j => j) 1 2, 0 < v ∧ v ≤ 1) ∧
      (1 = 2 → computeNewKcol Real.exp (twoPointInput ℝ).X 2 1 1 (fun j => j) 1 2 = [])) :=
  ⟨⟨one_ne_zero, le_rfl, by decide⟩,
    computeNewKcol_is_kernel_column (twoPointInput ℝ).X 2 1 1 (fun j => j) 1 2 one_ne_zero le_rfl
      (by decide)⟩

end KernelColumn

section ResidualUpdate

variable {α : Type} [LinearOrderedField α]

/-- After `k ≥ 1` iterations the residual of every remaining row is up to date. -/
theorem trainLoop_diagG (sqrt exp : α → α) (inp : TrainInput α) (k j : Nat) (hk : 1 ≤ k)
    (hkj : k ≤ j) (hjn : j < inp.n) :
    (trainLoop sqrt exp inp k).1.diagG j =
      1 - ∑ c ∈ range k, (trainLoop sqrt exp inp k).1.G j c * (trainLoop sqrt exp inp k).1.G j c := by
  obtain ⟨k', rfl⟩ : ∃ k', k = k' + 1 := ⟨k - 1, by omega⟩
  rcases Nat.eq_zero_or_pos k' with h0 | hpos
  · subst h0
    rw [Nat.zero_add, trainLoop_one_fst, firstIter_diagG _ _ _ _ _ hkj hjn, Finset.sum_range_one,
      firstIter_init_G, if_pos ⟨rfl, hkj, hjn⟩]
  · rw [trainLoop_next_fst _ _ _ _ hpos]
    exact nextIter_diagG sqrt exp inp k' _ j hkj hjn

/-- The recomputed residual of a remaining row is the residual its sample had before
the step minus the square of the new entry. -/
theorem nextIter_diagG_subtract (sqrt exp : α → α) (inp : TrainInput α) (i : Nat)
    (s : CholState α)
    (hd : ∀ r, i ≤ r → r < inp.n → s.diagG r = 1 - ∑ c ∈ range i, s.G r c * s.G r c)
    (j : Nat) (hij : i < j) (hjn : j < inp.n) :
    (nextIter sqrt exp inp i s).diagG j =
      s.diagG (if j = max_element s.diagG i inp.n then i else j) -
        (nextIter sqrt exp inp i s).G j i * (nextIter sqrt exp inp i s).G j i := by
  rw [nextIter_diagG _ _ _ _ _ _ hij hjn, Finset.sum_range_succ]
  have hrow : i ≤ (if j = max_element s.diagG i inp.n then i else j) ∧
      (if j = max_element s.diagG i inp.n then i else j) < inp.n := by
    split_ifs <;> omega
  rw [hd _ hrow.1 hrow.2]
  have hsum : ∑ c ∈ range i, (nextIter sqrt exp inp i s).G j c * (nextIter sqrt exp inp i s).G j c =
      ∑ c ∈ range i, s.G (if j = max_element s.diagG i inp.n then i else j) c *
        s.G (if j = max_element s.diagG i inp.n then i else j) c := by
    apply Finset.sum_congr rfl
    intro c hc
    have hc := Finset.mem_range.mp hc
    rw [nextIter_G_of_ne _ _ _ _ _ _ _ (by omega), swapRows_eq _ _ _ _ _ _ (by omega),
      if_neg (by omega)]
  rw [hsum]
  ring

/-- Claim C21: at every iteration `i ≥ 1` of `train` and for every remaining row `j`
in `(i, n)`, the residual written by the step, which the code recomputes as
`1 - sum_{c ≤ i} G[j][c]^2`, equals the residual that the sample now at position `j`
had before the step minus the square of the newly written entry `G[j][i]`; the
sample is followed through the exchange of the positions `i` and `jast` (`diagG`
itself is not exchanged). -/
theorem residual_recomputation_is_subtraction (sqrt exp : α → α) (inp : TrainInput α)
    (i j : Nat) (hi : 1 ≤ i) (hij : i < j) (hjn : j < inp.n) :
    (trainLoop sqrt exp inp (i + 1)).1.diagG j =
      1 - ∑ c ∈ range (i + 1),
        (trainLoop sqrt exp inp (i + 1)).1.G j c * (trainLoop sqrt exp inp (i + 1)).1.G j c ∧
    (trainLoop sqrt exp inp (i + 1)).1.diagG j =
      diagG_by_subtraction sqrt exp inp i (trainLoop sqrt exp inp i).1 j ∧
    (trainLoop sqrt exp inp (i + 1)).1.diagG j =
      (trainLoop sqrt exp inp i).1.diagG
          (if j = max_element (trainLoop sqrt exp inp i).1.diagG i inp.n then i else j) -
        (trainLoop sqrt exp inp (i + 1)).1.G j i * (trainLoop sqrt exp inp (i + 1)).1.G j i := by
  have h1 := trainLoop_diagG sqrt exp inp (i + 1) j (by omega) (by omega) hjn
  have h2 := nextIter_diagG_subtract sqrt exp inp i (trainLoop sqrt exp inp i).1
    (fun r hr1 hr2 => trainLoop_diagG sqrt exp inp i r hi hr1 hr2) j hij hjn
  rw [← trainLoop_next_fst _ _ _ _ hi] at h2
  refine ⟨h1, ?_, h2⟩
  unfold diagG_by_subtraction
  rw [← trainLoop_next_fst _ _ _ _ hi]
  exact h2

theorem residual_recomputation_is_subtraction_witness :
    (1 ≤ 1 ∧ 1 < 2 ∧ 2 < (scenarioInput ℚ).n) ∧
    (trainLoop id id (scenarioInput ℚ) (1 + 1)).1.diagG 2 =
      diagG_by_subtraction id id (scenarioInput ℚ) 1 (trainLoop id id (scenarioInput ℚ) 1).1 2 :=
  ⟨⟨le_rfl, by decide, by decide⟩,
    (residual_recomputation_is_subtraction id id (scenarioInput ℚ) 1 2 le_rfl (by decide)
      (by decide)).2.1⟩

end ResidualUpdate

section Pivots

variable {α : Type} [LinearOrderedField α]

/-- The diagonal entry written by iteration `c` is not touched by the later
iterations. -/
theorem trainLoop_G_diag_persist (sqrt exp : α → α) (inp : TrainInput α) (c : Nat) :
    ∀ k, c + 1 ≤ k → k ≤ inp.n →
      (trainLoop sqrt exp inp k).1.G c c = (trainLoop sqrt exp inp (c + 1)).1.G c c := by
  intro k
  induction k with
  | zero => intro h; omega
  | succ k ih =>
    intro h1 h2
    rcases Nat.lt_or_ge c k with hck | hck
    · obtain ⟨hj1, -, -, -⟩ :=
        max_element_spec (trainLoop sqrt exp inp k).1.diagG k inp.n (by omega)
      rw [trainLoop_next_fst _ _ _ _ (by omega), nextIter_G_of_ne _ _ _ _ _ _ _ (by omega),
        swapRows_eq _ _ _ _ _ _ (by omega), if_neg (by omega), if_neg (by omega)]
      exact ih (by omega) (by omega)
    · have hkc : k = c := by omega
      rw [hkc]

/-- The pivot written by iteration `i + 1` is the square root of a residual that is
at most the residual under the square root of the pivot of iteration `i`. -/
theorem pivot_residual_le (sqrt exp : α → α) (inp : TrainInput α) (i : Nat) (hi : 1 ≤ i)
    (hin : i + 1 < inp.n) :
    (trainLoop sqrt exp inp (i + 1)).1.diagG
        (max_element (trainLoop sqrt exp inp (i + 1)).1.diagG (i + 1) inp.n) ≤
      (trainLoop sqrt exp inp i).1.diagG
        (max_element (trainLoop sqrt exp inp i).1.diagG i inp.n) := by
  obtain ⟨hj1, hj2, -, -⟩ :=
    max_element_spec (trainLoop sqrt exp inp (i + 1)).1.diagG (i + 1) inp.n hin
  obtain ⟨-, -, hmax, -⟩ :=
    max_element_spec (trainLoop sqrt exp inp i).1.diagG i inp.n (by omega)
  have h2 := nextIter_diagG_subtract sqrt exp inp i (trainLoop sqrt exp inp i).1
    (fun r hr1 hr2 => trainLoop_diagG sqrt exp inp i r hi hr1 hr2)
    (max_element (trainLoop sqrt exp inp (i + 1)).1.diagG (i + 1) inp.n) (by omega) hj2
  rw [← trainLoop_next_fst _ _ _ _ hi] at h2
  rw [h2]
  have hrow : i ≤ (if max_element (trainLoop sqrt exp inp (i + 1)).1.diagG (i + 1) inp.n =
        max_element (trainLoop sqrt exp inp i).1.diagG i inp.n then i
      else max_element (trainLoop sqrt exp inp (i + 1)).1.diagG (i + 1) inp.n) ∧
      (if max_element (trainLoop sqrt exp inp (i + 1)).1.diagG (i + 1) inp.n =
        max_element (trainLoop sqrt exp inp i).1.diagG i inp.n then i
      else max_element (trainLoop sqrt exp inp (i + 1)).1.diagG (i + 1) inp.n) < inp.n := by
    split_ifs <;> omega
  have h3 := hmax _ hrow.1 hrow.2
  have h4 := mul_self_nonneg ((trainLoop sqrt exp inp (i + 1)).1.G
    (max_element (trainLoop sqrt exp inp (i + 1)).1.diagG (i + 1) inp.n) i)
  linarith

/-- The residual under the square root of the pivot of iteration `1` is at most `1`. -/
theorem first_residual_le_one (sqrt exp : α → α) (inp : TrainInput α) (hin : 1 < inp.n) :
    (trainLoop sqrt exp inp 1).1.diagG
        (max_element (trainLoop sqrt exp inp 1).1.diagG 1 inp.n) ≤ 1 := by
  obtain ⟨hj1, hj2, -, -⟩ :=
    max_element_spec (trainLoop sqrt exp inp 1).1.diagG 1 inp.n hin
  rw [trainLoop_diagG sqrt exp inp 1 _ le_rfl hj1 hj2, Finset.sum_range_one]
  have h4 := mul_self_nonneg ((trainLoop sqrt exp inp 1).1.G
    (max_element (trainLoop sqrt exp inp 1).1.diagG 1 inp.n) 0)
  linarith

theorem trainLoop_pivot (sqrt exp : α → α) (inp : TrainInput α) (i : Nat) (hi : 1 ≤ i) :
    (trainLoop sqrt exp inp (i + 1)).1.G i i =
      sqrt ((trainLoop sqrt exp inp i).1.diagG
        (max_element (trainLoop sqrt exp inp i).1.diagG i inp.n)) := by
  rw [trainLoop_next_fst _ _ _ _ hi, nextIter_G, if_neg (by omega), if_pos ⟨rfl, rfl⟩]

theorem trainLoop_G_zero_zero (sqrt exp : α → α) (inp : TrainInput α) :
    (trainLoop sqrt exp inp 1).1.G 0 0 = 1 := by
  rw [trainLoop_one_fst, firstIter_init_G, if_neg (by omega), if_pos ⟨rfl, rfl⟩]

/-- With a monotone square root that fixes `1`, each pivot is at most the previous
one, in the state after any number of iterations. -/
theorem pivot_step_le (sqrt exp : α → α) (hmono : ∀ x y, x ≤ y → sqrt x ≤ sqrt y)
    (hone : sqrt 1 = 1) (inp : TrainInput α) (i k : Nat) (hik : i + 2 ≤ k) (hkn : k ≤ inp.n) :
    (trainLoop sqrt exp inp k).1.G (i + 1) (i + 1) ≤ (trainLoop sqrt exp inp k).1.G i i := by
  rw [trainLoop_G_diag_persist sqrt exp inp (i + 1) k (by omega) hkn,
    trainLoop_G_diag_persist sqrt exp inp i k (by omega) hkn,
    trainLoop_pivot sqrt exp inp (i + 1) (by omega)]
  rcases Nat.eq_zero_or_pos i with h0 | hpos
  · subst h0
    rw [trainLoop_G_zero_zero, ← hone]
    exact hmono _ _ (first_residual_le_one sqrt exp inp (by omega))
  · rw [trainLoop_pivot sqrt exp inp i hpos]
    exact hmono _ _ (pivot_residual_le sqrt exp inp i hpos (by omega))

end Pivots

section Bordering

variable {α : Type} [LinearOrderedField α]

/-- The entries written by the bordering update of `RR` at an iteration `i ≥ 1`. -/
theorem nextIter_RR_entries (sqrt exp : α → α) (inp : TrainInput α) (i : Nat) (s : CholState α) :
    (∀ a b, a < i → b < i → (nextIter sqrt exp inp i s).RR a b = s.RR a b) ∧
    (∀ a, a < i → (nextIter sqrt exp inp i s).RR a i =
      -(∑ b ∈ range i, s.RR a b * Rcol_next sqrt exp inp i s b) / normG_next sqrt exp inp i s) ∧
    (∀ a, a < i → (nextIter sqrt exp inp i s).RR i a =
      -(∑ b ∈ range i, s.RR a b * Rcol_next sqrt exp inp i s b) / normG_next sqrt exp inp i s) ∧
    (nextIter sqrt exp inp i s).RR i i =
      ((∑ c ∈ range i, Rcol_next sqrt exp inp i s c *
          ∑ b ∈ range i, s.RR c b * Rcol_next sqrt exp inp i s b) + 1) /
        (normG_next sqrt exp inp i s * normG_next sqrt exp inp i s) := by
  refine ⟨fun a b ha hb => ?_, fun a ha => ?_, fun a ha => ?_, ?_⟩
  · rw [nextIter_RR, if_neg (by omega), if_neg (by omega), if_neg (by omega)]
  · rw [nextIter_RR, if_neg (by omega), if_neg (by omega), if_pos ⟨rfl, ha⟩, RR_Rcol_eq]
    ring
  · rw [nextIter_RR, if_neg (by omega), if_pos ⟨rfl, ha⟩, if_pos ⟨rfl, ha⟩, RR_Rcol_eq]
    ring
  · rw [nextIter_RR, if_pos ⟨rfl, rfl⟩]
    congr 2
    exact Finset.sum_congr rfl (fun c _ => by rw [RR_Rcol_eq])

/-- The vector `Rcol` of an iteration is the part above the diagonal of the new
column of `R = Q' * G`. -/
theorem Rcol_next_eq_Rfactor (sqrt exp : α → α) (inp : TrainInput α) (i : Nat) (s : CholState α)
    (c : Nat) (hc : c < i) :
    Rcol_next sqrt exp inp i s c = Rfactor inp.n (nextIter sqrt exp inp i s) c i := by
  rw [Rcol_next_eq]
  unfold Rfactor
  apply Finset.sum_congr rfl
  intro j _
  rw [nextIter_Q, if_neg (by omega)]

/-- The norm `normG` of an iteration is the new diagonal entry of `R = Q' * G`, when
the columns of the new `Q` are orthonormal. -/
theorem normG_next_eq_Rfactor (sqrt exp : α → α) (inp : TrainInput α) (i : Nat) (s : CholState α)
    (hρ : normG_next sqrt exp inp i s ≠ 0)
    (horth : ∀ a b, a < i + 1 → b < i + 1 →
      ∑ j ∈ range inp.n, (nextIter sqrt exp inp i s).Q j a * (nextIter sqrt exp inp i s).Q j b =
        if a = b then 1 else 0) :
    normG_next sqrt exp inp i s = Rfactor inp.n (nextIter sqrt exp inp i s) i i := by
  have hG : ∀ j, j < inp.n → (nextIter sqrt exp inp i s).G j i =
      normG_next sqrt exp inp i s * (nextIter sqrt exp inp i s).Q j i +
        ∑ c ∈ range i, (nextIter sqrt exp inp i s).Q j c * Rcol_next sqrt exp inp i s c := by
    intro j hj
    have hq := Qi_next_eq sqrt exp inp i s j
    have hQi : (nextIter sqrt exp inp i s).Q j i =
        (1 / normG_next sqrt exp inp i s) * Qi_next sqrt exp inp i s j := by
      rw [nextIter_Q, if_pos ⟨rfl, hj⟩]
    have hsum : ∑ c ∈ range i, (nextIter sqrt exp inp i s).Q j c * Rcol_next sqrt exp inp i s c =
        ∑ c ∈ range i, swapRows s.Q i (max_element s.diagG i inp.n) i j c *
          ∑ l ∈ range inp.n, swapRows s.Q i (max_element s.diagG i inp.n) i l c *
            (nextIter sqrt exp inp i s).G l i := by
      apply Finset.sum_congr rfl
      intro c hc
      rw [nextIter_Q, if_neg (by have := Finset.mem_range.mp hc; omega), Rcol_next_eq]
    rw [hsum, hQi, ← mul_assoc, mul_one_div_cancel hρ, one_mul, hq]
    ring
  unfold Rfactor
  have h1 : ∀ j ∈ range inp.n,
      (nextIter sqrt exp inp i s).Q j i * (nextIter sqrt exp inp i s).G j i =
        normG_next sqrt exp inp i s *
          ((nextIter sqrt exp inp i s).Q j i * (nextIter sqrt exp inp i s).Q j i) +
        ∑ c ∈ range i, Rcol_next sqrt exp inp i s c *
          ((nextIter sqrt exp inp i s).Q j i * (nextIter sqrt exp inp i s).Q j c) := by
    intro j hj
    rw [hG j (Finset.mem_range.mp hj), mul_add, Finset.mul_sum]
    congr 1
    · ring
    · exact Finset.sum_congr rfl (fun c _ => by ring)
  rw [Finset.sum_congr rfl h1, Finset.sum_add_distrib, ← Finset.mul_sum,
    horth i i (by omega) (by omega), if_pos rfl, mul_one, Finset.sum_comm]
  have h2 : ∑ c ∈ range i, ∑ j ∈ range inp.n, Rcol_next sqrt exp inp i s c *
      ((nextIter sqrt exp inp i s).Q j i * (nextIter sqrt exp inp i s).Q j c) = 0 := by
    apply Finset.sum_eq_zero
    intro c hc
    have hc := Finset.mem_range.mp hc
    rw [← Finset.mul_sum, horth i c (by omega) (by omega), if_neg (by omega), mul_zero]
  rw [h2, add_zero]

end Bordering

section BorderingReal

/-- Claim C22: in exact real arithmetic, after every iteration `i` of `train`
(`0 ≤ i < m ≤ n`, all column norms non-zero), the leading `(i+1)x(i+1)` block of `RR`
is symmetric and is the inverse of `R * R'` (from both sides), where `R = Q' * G` is
upper triangular; at an iteration `i ≥ 1` the bordering update keeps the previous
block, writes `-RR_prev * Rcol / Rii` in the new row and column and
`(Rcol' * RR_prev * Rcol + 1) / Rii^2` on the diagonal, where `Rcol` is the part above
the diagonal of the new column of `R` and `Rii = normG` its diagonal entry. -/
theorem RR_symmetric_inverse_under_bordering (inp : TrainInput ℝ) (i : Nat) (hi : i < inp.m)
    (hmn : inp.m ≤ inp.n)
    (hnorm : ∀ c, 1 ≤ c → c ≤ i → normG_at Real.sqrt Real.exp inp c ≠ 0) :
    (∀ a b, a ≤ i → b ≤ i →
      (trainLoop Real.sqrt Real.exp inp (i + 1)).1.RR a b =
        (trainLoop Real.sqrt Real.exp inp (i + 1)).1.RR b a) ∧
    (∀ a c, c < a → a ≤ i →
      Rfactor inp.n (trainLoop Real.sqrt Real.exp inp (i + 1)).1 a c = 0) ∧
    (∀ a b, a ≤ i → b ≤ i →
      ∑ c ∈ range (i + 1), (trainLoop Real.sqrt Real.exp inp (i + 1)).1.RR a c *
        (∑ l ∈ range (i + 1),
          Rfactor inp.n (trainLoop Real.sqrt Real.exp inp (i + 1)).1 c l *
            Rfactor inp.n (trainLoop Real.sqrt Real.exp inp (i + 1)).1 b l) =
        if a = b then 1 else 0) ∧
    (∀ a b, a ≤ i → b ≤ i →
      ∑ c ∈ range (i + 1),
        (∑ l ∈ range (i + 1),
          Rfactor inp.n (trainLoop Real.sqrt Real.exp inp (i + 1)).1 a l *
            Rfactor inp.n (trainLoop Real.sqrt Real.exp inp (i + 1)).1 c l) *
          (trainLoop Real.sqrt Real.exp inp (i + 1)).1.RR c b =
        if a = b then 1 else 0) ∧
    (1 ≤ i →
      (∀ a b, a < i → b < i →
        (trainLoop Real.sqrt Real.exp inp (i + 1)).1.RR a b =
          (trainLoop Real.sqrt Real.exp inp i).1.RR a b) ∧
      (∀ a, a < i →
        (trainLoop Real.sqrt Real.exp inp (i + 1)).1.RR a i =
          -(∑ b ∈ range i, (trainLoop Real.sqrt Real.exp inp i).1.RR a b *
              Rcol_next Real.sqrt Real.exp inp i (trainLoop Real.sqrt Real.exp inp i).1 b) /
            normG_at Real.sqrt Real.exp inp i ∧
        (trainLoop Real.sqrt Real.exp inp (i + 1)).1.RR i a =
          -(∑ b ∈ range i, (trainLoop Real.sqrt Real.exp inp i).1.RR a b *
              Rcol_next Real.sqrt Real.exp inp i (trainLoop Real.sqrt Real.exp inp i).1 b) /
            normG_at Real.sqrt Real.exp inp i) ∧
      (trainLoop Real.sqrt Real.exp inp (i + 1)).1.RR i i =
        ((∑ c ∈ range i,
            Rcol_next Real.sqrt Real.exp inp i (trainLoop Real.sqrt Real.exp inp i).1 c *
              ∑ b ∈ range i, (trainLoop Real.sqrt Real.exp inp i).1.RR c b *
                Rcol_next Real.sqrt Real.exp inp i (trainLoop Real.sqrt Real.exp inp i).1 b) + 1) /
          (normG_at Real.sqrt Real.exp inp i * normG_at Real.sqrt Real.exp inp i) ∧
      (∀ c, c < i →
        Rcol_next Real.sqrt Real.exp inp i (trainLoop Real.sqrt Real.exp inp i).1 c =
          Rfactor inp.n (trainLoop Real.sqrt Real.exp inp (i + 1)).1 c i) ∧
      normG_at Real.sqrt Real.exp inp i =
        Rfactor inp.n (trainLoop Real.sqrt Real.exp inp (i + 1)).1 i i) := by
  have H := trainLoop_qrInv Real.sqrt Real.exp real_sqrt_sq inp (i + 1) (by omega) (by omega)
    (fun c h1 h2 => hnorm c h1 (by omega))
  refine ⟨fun a b ha hb => H.symm a b (by omega) (by omega),
    fun a c hca ha => H.upper a c hca (by omega),
    fun a b ha hb => H.inv a b (by omega) (by omega),
    fun a b ha hb => H.right_inv a b (by omega) (by omega), fun hi1 => ?_⟩
  have hS := trainLoop_next_fst Real.sqrt Real.exp inp i hi1
  have hρ : normG_at Real.sqrt Real.exp inp i =
      normG_next Real.sqrt Real.exp inp i (trainLoop Real.sqrt Real.exp inp i).1 := by
    unfold normG_at
    rw [if_neg (by omega)]
  have hρ0 := hnorm i hi1 le_rfl
  rw [hS] at H ⊢
  rw [hρ] at hρ0 ⊢
  obtain ⟨e1, e2, e3, e4⟩ :=
    nextIter_RR_entries Real.sqrt Real.exp inp i (trainLoop Real.sqrt Real.exp inp i).1
  exact ⟨e1, fun a ha => ⟨e2 a ha, e3 a ha⟩, e4,
    fun c hc => Rcol_next_eq_Rfactor Real.sqrt Real.exp inp i _ c hc,
    normG_next_eq_Rfactor Real.sqrt Real.exp inp i _ hρ0 H.orth⟩

theorem RR_symmetric_inverse_under_bordering_witness :
    (1 < (twoPointInput ℝ).m ∧ (twoPointInput ℝ).m ≤ (twoPointInput ℝ).n ∧
      ∀ c, 1 ≤ c → c ≤ 1 → normG_at Real.sqrt Real.exp (twoPointInput ℝ) c ≠ 0) ∧
    (trainLoop Real.sqrt Real.exp (twoPointInput ℝ) (1 + 1)).1.RR 0 1 =
      (trainLoop Real.sqrt Real.exp (twoPointInput ℝ) (1 + 1)).1.RR 1 0 := by
  have hnorm : ∀ c, 1 ≤ c → c ≤ 1 → normG_at Real.sqrt Real.exp (twoPointInput ℝ) c ≠ 0 := by
    intro c h1 h2
    have hc : c = 1 := by omega
    rw [hc]
    exact twoPoint_norm_ne_zero
  exact ⟨⟨by decide, by decide, hnorm⟩,
    (RR_symmetric_inverse_under_bordering (twoPointInput ℝ) 1 (by decide) (by decide) hnorm).1 0 1
      (by decide) (by decide)⟩

end BorderingReal

section KernelColumns

/-- Claim C24: in exact real arithmetic with non-zero pivots (those written by the
iterations `1 ≤ c ≤ i`; the pivot of iteration `0` is `1`), after every iteration `i`
of `train` (`0 ≤ i < m ≤ n`) the partial factor reproduces the first `i + 1` pivoted
columns of the kernel matrix: for every row `j < n` and every column `c ≤ i`,
`sum_{k ≤ i} G[j][k] * G[c][k] = exp(-||x_pVec[j] - x_pVec[c]||^2 / sigma^2)`. -/
theorem partial_factor_reproduces_kernel_columns (inp : TrainInput ℝ) (i : Nat)
    (hi : i < inp.m) (hmn : inp.m ≤ inp.n)
    (hpiv : ∀ c, 1 ≤ c → c ≤ i → (trainLoop Real.sqrt Real.exp inp (c + 1)).1.G c c ≠ 0)
    (j c : Nat) (hj : j < inp.n) (hc : c ≤ i) :
    ∑ k ∈ range (i + 1),
      (trainLoop Real.sqrt Real.exp inp (i + 1)).1.G j k *
        (trainLoop Real.sqrt Real.exp inp (i + 1)).1.G c k =
      Real.exp (-(∑ x ∈ range inp.d,
        (inp.X ((trainLoop Real.sqrt Real.exp inp (i + 1)).1.pVec j) x -
          inp.X ((trainLoop Real.sqrt Real.exp inp (i + 1)).1.pVec c) x) ^ 2) / inp.sigma ^ 2) := by
  have H := trainLoop_cholInv_of_pivots Real.sqrt Real.exp Real.exp_zero real_sqrt_of_ne_zero inp
    (i + 1) (by omega) (by omega) (fun c h1 h2 => hpiv c h1 (by omega))
  rw [H.gram j c hj (by omega), kernel_real]

theorem partial_factor_reproduces_kernel_columns_witness :
    (1 < (scenarioInput ℝ).m ∧ (scenarioInput ℝ).m ≤ (scenarioInput ℝ).n ∧
      (∀ c, 1 ≤ c → c ≤ 1 →
        (trainLoop Real.sqrt Real.exp (scenarioInput ℝ) (c + 1)).1.G c c ≠ 0) ∧
      3 < (scenarioInput ℝ).n ∧ 1 ≤ 1) ∧
    ∑ k ∈ range (1 + 1),
      (trainLoop Real.sqrt Real.exp (scenarioInput ℝ) (1 + 1)).1.G 3 k *
        (trainLoop Real.sqrt Real.exp (scenarioInput ℝ) (1 + 1)).1.G 1 k =
      Real.exp (-(∑ x ∈ range (scenarioInput ℝ).d,
        ((scenarioInput ℝ).X ((trainLoop Real.sqrt Real.exp (scenarioInput ℝ) (1 + 1)).1.pVec 3) x -
          (scenarioInput ℝ).X ((trainLoop Real.sqrt Real.exp (scenarioInput ℝ) (1 + 1)).1.pVec 1) x)
          ^ 2) / (scenarioInput ℝ).sigma ^ 2) := by
  have hpiv : ∀ c, 1 ≤ c → c ≤ 1 →
      (trainLoop Real.sqrt Real.exp (scenarioInput ℝ) (c + 1)).1.G c c ≠ 0 := by
    intro c h1 h2
    have hc : c = 1 := by omega
    rw [hc]
    exact scenario_pivot_ne_zero
  exact ⟨⟨by decide, by decide, hpiv, by decide, le_rfl⟩,
    partial_factor_reproduces_kernel_columns (scenarioInput ℝ) 1 (by decide) (by decide) hpiv 3 1
      (by decide) le_rfl⟩

end KernelColumns

section NormalEquations

variable {α : Type} [LinearOrderedField α]

/-- The algebra of the normal equations: with `Q' * Q = 1`, `G = Q * R` and `RR` a
right inverse of `R * R'`, the coefficients `Q * RR * (Q' * y)` satisfy
`(G * G') * alpha = Q * Q' * y`, and `Q * Q'` is a symmetric idempotent that fixes the
columns of `G` and factors through `G`. -/
theorem normal_equations_matrix {n r t : Nat} (Q G : Matrix (Fin n) (Fin r) α)
    (R RR : Matrix (Fin r) (Fin r) α) (y : Matrix (Fin n) (Fin t) α)
    (hQ : Q.transpose * Q = 1) (hG : G = Q * R) (hinv : (R * R.transpose) * RR = 1) :
    (G * G.transpose) * (Q * RR * (Q.transpose * y)) = Q * Q.transpose * y ∧
    (Q * Q.transpose).transpose = Q * Q.transpose ∧
    (Q * Q.transpose) * (Q * Q.transpose) = Q * Q.transpose ∧
    (Q * Q.transpose) * G = G ∧
    Q * Q.transpose = G * (R.transpose * RR * Q.transpose) := by
  subst hG
  refine ⟨?_, ?_, ?_, ?_, ?_⟩
  · rw [Matrix.transpose_mul]
    have h1 : Q * R * (R.transpose * Q.transpose) * (Q * RR * (Q.transpose * y)) =
        Q * ((R * R.transpose) * ((Q.transpose * Q) * RR)) * (Q.transpose * y) := by
      simp only [Matrix.mul_assoc]
    rw [h1, hQ, Matrix.one_mul, hinv, Matrix.mul_one, Matrix.mul_assoc]
  · rw [Matrix.transpose_mul, Matrix.transpose_transpose]
  · have h1 : Q * Q.transpose * (Q * Q.transpose) = Q * ((Q.transpose * Q) * Q.transpose) := by
      simp only [Matrix.mul_assoc]
    rw [h1, hQ, Matrix.one_mul]
  · have h1 : Q * Q.transpose * (Q * R) = Q * ((Q.transpose * Q) * R) := by
      simp only [Matrix.mul_assoc]
    rw [h1, hQ, Matrix.one_mul]
  · have h1 : Q * R * (R.transpose * RR * Q.transpose) =
        Q * (((R * R.transpose) * RR) * Q.transpose) := by
      simp only [Matrix.mul_assoc]
    rw [h1, hinv, Matrix.one_mul]

/-- A square matrix with orthonormal columns has orthonormal rows. -/
theorem orthonormal_square {n r : Nat} (Q : Matrix (Fin n) (Fin r) α) (h : r = n)
    (hQ : Q.transpose * Q = 1) : Q * Q.transpose = 1 := by
  subst h
  exact Matrix.mul_eq_one_comm.mp hQ

/-- Under the orthogonalisation invariant every column of `G` is the combination of
all the `k` columns of `Q` with the coefficients of `R`. -/
theorem QRInv.span_full {n k : Nat} {s : CholState α} (H : QRInv n k s) (j c : Nat) (hj : j < n)
    (hc : c < k) : s.G j c = ∑ a ∈ range k, s.Q j a * Rfactor n s a c := by
  rw [H.span j c hj hc]
  apply Finset.sum_subset (Finset.range_subset.mpr (by omega))
  intro a ha hna
  have ha := Finset.mem_range.mp ha
  have hna : ¬ a < c + 1 := fun h => hna (Finset.mem_range.mpr h)
  rw [H.upper a c (by omega) ha, mul_zero]

/-- The orthogonalisation invariant in matrix form. -/
theorem QRInv.matrix_form {n k : Nat} {s : CholState α} (H : QRInv n k s) :
    (Matrix.of fun (j : Fin n) (a : Fin k) => s.Q j a).transpose *
      (Matrix.of fun (j : Fin n) (a : Fin k) => s.Q j a) = 1 ∧
    (Matrix.of fun (j : Fin n) (c : Fin k) => s.G j c) =
      (Matrix.of fun (j : Fin n) (a : Fin k) => s.Q j a) *
        (Matrix.of fun (a c : Fin k) => Rfactor n s a c) ∧
    ((Matrix.of fun (a c : Fin k) => Rfactor n s a c) *
      (Matrix.of fun (a c : Fin k) => Rfactor n s a c).transpose) *
      (Matrix.of fun (a b : Fin k) => s.RR a b) = 1 := by
  refine ⟨?_, ?_, ?_⟩
  · ext a b
    simp only [Matrix.mul_apply, Matrix.transpose_apply, Matrix.of_apply, Matrix.one_apply]
    rw [Fin.sum_univ_eq_sum_range (fun j => s.Q j a * s.Q j b) n, H.orth a b a.2 b.2]
    simp only [Fin.ext_iff]
  · ext j c
    simp only [Matrix.mul_apply, Matrix.of_apply]
    rw [Fin.sum_univ_eq_sum_range (fun a => s.Q j a * Rfactor n s a c) k]
    exact H.span_full j c j.2 c.2
  · ext a b
    simp only [Matrix.mul_apply, Matrix.transpose_apply, Matrix.of_apply, Matrix.one_apply]
    rw [Fin.sum_univ_eq_sum_range (fun c => (∑ l : Fin k, Rfactor n s a l * Rfactor n s c l) *
      s.RR c b) k]
    have h1 : ∀ c ∈ range k, (∑ l : Fin k, Rfactor n s a l * Rfactor n s c l) * s.RR c b =
        (∑ l ∈ range k, Rfactor n s a l * Rfactor n s c l) * s.RR c b := by
      intro c _
      rw [Fin.sum_univ_eq_sum_range (fun l => Rfactor n s a l * Rfactor n s c l) k]
    rw [Finset.sum_congr rfl h1, H.right_inv a b a.2 b.2]
    simp only [Fin.ext_iff]

/-- The coefficients of a checkpoint as a matrix product. -/
theorem alpha_i_matrix (inp : TrainInput α) (i : Nat) (s : CholState α) :
    (Matrix.of fun (j : Fin inp.n) (c : Fin inp.t) => alpha_i inp i s j c) =
      (Matrix.of fun (j : Fin inp.n) (a : Fin (i + 1)) => s.Q j a) *
        (Matrix.of fun (a b : Fin (i + 1)) => s.RR a b) *
        ((Matrix.of fun (j : Fin inp.n) (a : Fin (i + 1)) => s.Q j a).transpose *
          (Matrix.of fun (j : Fin inp.n) (c : Fin inp.t) => s.yPvec j c)) := by
  rw [Matrix.mul_assoc]
  ext j c
  simp only [Matrix.of_apply, Matrix.mul_apply, Matrix.transpose_apply, alpha_i, dotNN, dotTN]
  rw [← Fin.sum_univ_eq_sum_range (fun k => s.Q j k *
    ∑ k_1 ∈ range (i + 1), s.RR k k_1 * ∑ k ∈ range inp.n, s.Q k k_1 * s.yPvec k c) (i + 1)]
  apply Finset.sum_congr rfl
  intro a _
  congr 1
  rw [← Fin.sum_univ_eq_sum_range (fun k_1 => s.RR a k_1 *
    ∑ k ∈ range inp.n, s.Q k k_1 * s.yPvec k c) (i + 1)]
  apply Finset.sum_congr rfl
  intro b _
  congr 1
  rw [← Fin.sum_univ_eq_sum_range (fun k => s.Q k b * s.yPvec k c) inp.n]

end NormalEquations

section NormalEquationsReal

/-- Claim C25: in exact real arithmetic with non-zero norms, at a checkpoint of rank
`r = i + 1` (`i < m ≤ n`) the permuted coefficients `alpha_p = Q_r * RR_r * Q_r' * yPvec`
satisfy the normal equations of the low-rank kernel approximation,
`(G_r * G_r') * alpha_p = Q_r * Q_r' * yPvec`; `Q_r * Q_r'` is the orthogonal projection onto
the column space of `G_r` (symmetric, idempotent, it fixes the columns of `G_r` and
factors through `G_r`), and when `r = n` the product `G_r * G_r' * alpha_p` is `yPvec`. -/
theorem checkpoint_coefficients_normal_equations (inp : TrainInput ℝ) (i : Nat)
    (hi : i < inp.m) (hmn : inp.m ≤ inp.n)
    (hnorm : ∀ c, 1 ≤ c → c ≤ i → normG_at Real.sqrt Real.exp inp c ≠ 0) :
    ((Matrix.of fun (j : Fin inp.n) (k : Fin (i + 1)) =>
        (trainLoop Real.sqrt Real.exp inp (i + 1)).1.G j k) *
      (Matrix.of fun (j : Fin inp.n) (k : Fin (i + 1)) =>
        (trainLoop Real.sqrt Real.exp inp (i + 1)).1.G j k).transpose) *
      (Matrix.of fun (j : Fin inp.n) (c : Fin inp.t) =>
        alpha_i inp i (trainLoop Real.sqrt Real.exp inp (i + 1)).1 j c) =
      (Matrix.of fun (j : Fin inp.n) (a : Fin (i + 1)) =>
        (trainLoop Real.sqrt Real.exp inp (i + 1)).1.Q j a) *
      (Matrix.of fun (j : Fin inp.n) (a : Fin (i + 1)) =>
        (trainLoop Real.sqrt Real.exp inp (i + 1)).1.Q j a).transpose *
      (Matrix.of fun (j : Fin inp.n) (c : Fin inp.t) =>
        (trainLoop Real.sqrt Real.exp inp (i + 1)).1.yPvec j c) ∧
    ((Matrix.of fun (j : Fin inp.n) (a : Fin (i + 1)) =>
        (trainLoop Real.sqrt Real.exp inp (i + 1)).1.Q j a) *
      (Matrix.of fun (j : Fin inp.n) (a : Fin (i + 1)) =>
        (trainLoop Real.sqrt Real.exp inp (i + 1)).1.Q j a).transpose).transpose =
      (Matrix.of fun (j : Fin inp.n) (a : Fin (i + 1)) =>
        (trainLoop Real.sqrt Real.exp inp (i + 1)).1.Q j a) *
      (Matrix.of fun (j : Fin inp.n) (a : Fin (i + 1)) =>
        (trainLoop Real.sqrt Real.exp inp (i + 1)).1.Q j a).transpose ∧
    ((Matrix.of fun (j : Fin inp.n) (a : Fin (i + 1)) =>
        (trainLoop Real.sqrt Real.exp inp (i + 1)).1.Q j a) *
      (Matrix.of fun (j : Fin inp.n) (a : Fin (i + 1)) =>
        (trainLoop Real.sqrt Real.exp inp (i + 1)).1.Q j a).transpose) *
      ((Matrix.of fun (j : Fin inp.n) (a : Fin (i + 1)) =>
        (trainLoop Real.sqrt Real.exp inp (i + 1)).1.Q j a) *
      (Matrix.of fun (j : Fin inp.n) (a : Fin (i + 1)) =>
        (trainLoop Real.sqrt Real.exp inp (i + 1)).1.Q j a).transpose) =
      (Matrix.of fun (j : Fin inp.n) (a : Fin (i + 1)) =>
        (trainLoop Real.sqrt Real.exp inp (i + 1)).1.Q j a) *
      (Matrix.of fun (j : Fin inp.n) (a : Fin (i + 1)) =>
        (trainLoop Real.sqrt Real.exp inp (i + 1)).1.Q j a).transpose ∧
    ((Matrix.of fun (j : Fin inp.n) (a : Fin (i + 1)) =>
        (trainLoop Real.sqrt Real.exp inp (i + 1)).1.Q j a) *
      (Matrix.of fun (j : Fin inp.n) (a : Fin (i + 1)) =>
        (trainLoop Real.sqrt Real.exp inp (i + 1)).1.Q j a).transpose) *
      (Matrix.of fun (j : Fin inp.n) (k : Fin (i + 1)) =>
        (trainLoop Real.sqrt Real.exp inp (i + 1)).1.G j k) =
      (Matrix.of fun (j : Fin inp.n) (k : Fin (i + 1)) =>
        (trainLoop Real.sqrt Real.exp inp (i + 1)).1.G j k) ∧
    (∃ C : Matrix (Fin (i + 1)) (Fin inp.n) ℝ,
      (Matrix.of fun (j : Fin inp.n) (a : Fin (i + 1)) =>
        (trainLoop Real.sqrt Real.exp inp (i + 1)).1.Q j a) *
      (Matrix.of fun (j : Fin inp.n) (a : Fin (i + 1)) =>
        (trainLoop Real.sqrt Real.exp inp (i + 1)).1.Q j a).transpose =
      (Matrix.of fun (j : Fin inp.n) (k : Fin (i + 1)) =>
        (trainLoop Real.sqrt Real.exp inp (i + 1)).1.G j k) * C) ∧
    (i + 1 = inp.n →
      ((Matrix.of fun (j : Fin inp.n) (k : Fin (i + 1)) =>
          (trainLoop Real.sqrt Real.exp inp (i + 1)).1.G j k) *
        (Matrix.of fun (j : Fin inp.n) (k : Fin (i + 1)) =>
          (trainLoop Real.sqrt Real.exp inp (i + 1)).1.G j k).transpose) *
        (Matrix.of fun (j : Fin inp.n) (c : Fin inp.t) =>
          alpha_i inp i (trainLoop Real.sqrt Real.exp inp (i + 1)).1 j c) =
        (Matrix.of fun (j : Fin inp.n) (c : Fin inp.t) =>
          (trainLoop Real.sqrt Real.exp inp (i + 1)).1.yPvec j c)) := by
  have H := trainLoop_qrInv Real.sqrt Real.exp real_sqrt_sq inp (i + 1) (by omega) (by omega)
    (fun c h1 h2 => hnorm c h1 (by omega))
  obtain ⟨hQ, hG, hinv⟩ := H.matrix_form
  obtain ⟨e1, e2, e3, e4, e5⟩ := normal_equations_matrix _ _ _ _
    (Matrix.of fun (j : Fin inp.n) (c : Fin inp.t) =>
      (trainLoop Real.sqrt Real.exp inp (i + 1)).1.yPvec j c) hQ hG hinv
  have hα := alpha_i_matrix inp i (trainLoop Real.sqrt Real.exp inp (i + 1)).1
  refine ⟨by rw [hα]; exact e1, e2, e3, e4, ⟨_, e5⟩, fun hin => ?_⟩
  rw [hα, e1, orthonormal_square _ hin hQ, Matrix.one_mul]

theorem checkpoint_coefficients_normal_equations_witness :
    (1 < (twoPointInput ℝ).m ∧ (twoPointInput ℝ).m ≤ (twoPointInput ℝ).n ∧
      (∀ c, 1 ≤ c → c ≤ 1 → normG_at Real.sqrt Real.exp (twoPointInput ℝ) c ≠ 0) ∧
      1 + 1 = (twoPointInput ℝ).n) ∧
    ((Matrix.of fun (j : Fin (twoPointInput ℝ).n) (k : Fin (1 + 1)) =>
        (trainLoop Real.sqrt Real.exp (twoPointInput ℝ) (1 + 1)).1.G j k) *
      (Matrix.of fun (j : Fin (twoPointInput ℝ).n) (k : Fin (1 + 1)) =>
        (trainLoop Real.sqrt Real.exp (twoPointInput ℝ) (1 + 1)).1.G j k).transpose) *
      (Matrix.of fun (j : Fin (twoPointInput ℝ).n) (c : Fin (twoPointInput ℝ).t) =>
        alpha_i (twoPointInput ℝ) 1 (trainLoop Real.sqrt Real.exp (twoPointInput ℝ) (1 + 1)).1 j c) =
      (Matrix.of fun (j : Fin (twoPointInput ℝ).n) (c : Fin (twoPointInput ℝ).t) =>
        (trainLoop Real.sqrt Real.exp (twoPointInput ℝ) (1 + 1)).1.yPvec j c) := by
  have hnorm : ∀ c, 1 ≤ c → c ≤ 1 → normG_at Real.sqrt Real.exp (twoPointInput ℝ) c ≠ 0 := by
    intro c h1 h2
    have hc : c = 1 := by omega
    rw [hc]
    exact twoPoint_norm_ne_zero
  exact ⟨⟨by decide, by decide, hnorm, rfl⟩,
    (checkpoint_coefficients_normal_equations (twoPointInput ℝ) 1 (by decide) (by decide)
      hnorm).2.2.2.2.2 rfl⟩

end NormalEquationsReal

section DoublesLoop

variable {α : Type} [LinearOrderedField α]

theorem trainLoopD_one (sqrt exp : α → α) (inp : TrainInput α) :
    trainLoopD sqrt exp inp 1 = firstIterD exp inp initD := rfl

theorem trainLoopD_next (sqrt exp : α → α) (inp : TrainInput α) (k : Nat) (hk : 1 ≤ k) :
    trainLoopD sqrt exp inp (k + 1) = nextIterD sqrt exp inp k (trainLoopD sqrt exp inp k) := by
  show (if k = 0 then _ else _) = _
  rw [if_neg (by omega)]

theorem firstIterD_G (exp : α → α) (inp : TrainInput α) (s : DblState α) (j c : Nat) :
    (firstIterD exp inp s).G j c =
      if c = 0 ∧ 1 ≤ j ∧ j < inp.n then
        Dbl.num ((computeNewKcol exp inp.X inp.n inp.d inp.sigma (fun j => j) 1 inp.n).getD
          (j - 1) 0)
      else if j = 0 ∧ c = 0 then Dbl.num 1 else s.G j c := rfl

theorem firstIterD_diagG (exp : α → α) (inp : TrainInput α) (s : DblState α) (j : Nat) :
    (firstIterD exp inp s).diagG j =
      if 1 ≤ j ∧ j < inp.n then
        Dbl.add (Dbl.num 1) (Dbl.mul (Dbl.num (-1))
          (Dbl.mul
            (Dbl.num ((computeNewKcol exp inp.X inp.n inp.d inp.sigma (fun j => j) 1 inp.n).getD
              (j - 1) 0))
            (Dbl.num ((computeNewKcol exp inp.X inp.n inp.d inp.sigma (fun j => j) 1 inp.n).getD
              (j - 1) 0))))
      else Dbl.num 1 := rfl

/-- The pivot written by the branch `i != 0` on doubles. -/
theorem nextIterD_pivot (sqrt exp : α → α) (inp : TrainInput α) (i : Nat) (s : DblState α) :
    (nextIterD sqrt exp inp i s).G i i =
      Dbl.sqrt sqrt (s.diagG (max_elementD s.diagG i inp.n)) := by
  simp [nextIterD]

/-- The entries of `G` outside column `i` after the branch `i != 0` on doubles. -/
theorem nextIterD_G_of_ne (sqrt exp : α → α) (inp : TrainInput α) (i : Nat) (s : DblState α)
    (j c : Nat) (hc : c ≠ i) :
    (nextIterD sqrt exp inp i s).G j c =
      swapRowsD s.G i (max_elementD s.diagG i inp.n) (i + 1) j c := by
  simp [nextIterD, hc]

theorem max_elementD_single (d : Nat → Dbl α) (i : Nat) : max_elementD d i (i + 1) = i := by
  simp [max_elementD, max_element_loopD]

end DoublesLoop

section ThreeEqualPoints

theorem threeEqual_kernel (a b : Nat) :
    kernel Real.exp (threeEqualInput ℝ).X (threeEqualInput ℝ).d (threeEqualInput ℝ).sigma a b = 1 := by
  rw [kernel_real]
  simp [threeEqualInput]

theorem threeEqual_newKcol (pVec : Nat → Nat) (start k : Nat) (hk : k < 3 - start) :
    (computeNewKcol Real.exp (threeEqualInput ℝ).X (threeEqualInput ℝ).n (threeEqualInput ℝ).d
      (threeEqualInput ℝ).sigma pVec start (threeEqualInput ℝ).n).getD k 0 = 1 := by
  have hk2 : k < (threeEqualInput ℝ).n - start := hk
  rw [computeNewKcol_getD _ _ _ _ _ _ _ _ _ hk2, threeEqual_kernel]

/-- The buffers of doubles after the first iteration on three equal points. -/
theorem threeEqual_first :
    (∀ j, j < 3 → (trainLoopD Real.sqrt Real.exp (threeEqualInput ℝ) 1).G j 0 = Dbl.num 1) ∧
    (trainLoopD Real.sqrt Real.exp (threeEqualInput ℝ) 1).diagG 0 = Dbl.num 1 ∧
    (trainLoopD Real.sqrt Real.exp (threeEqualInput ℝ) 1).diagG 1 = Dbl.num 0 ∧
    (trainLoopD Real.sqrt Real.exp (threeEqualInput ℝ) 1).diagG 2 = Dbl.num 0 := by
  have hn : (threeEqualInput ℝ).n = 3 := rfl
  have hk := threeEqual_newKcol (fun j => j) 1
  refine ⟨fun j hj => ?_, ?_, ?_, ?_⟩
  · rw [trainLoopD_one, firstIterD_G]
    by_cases h0 : j = 0
    · rw [h0, if_neg (by omega), if_pos ⟨rfl, rfl⟩]
    · rw [if_pos ⟨rfl, by omega, hj⟩, hk _ (by omega)]
  · rw [trainLoopD_one, firstIterD_diagG, if_neg (by omega)]
  · rw [trainLoopD_one, firstIterD_diagG, if_pos ⟨le_rfl, by decide⟩, hk _ (by decide)]
    simp [Dbl.mul, Dbl.add]
  · rw [trainLoopD_one, firstIterD_diagG, if_pos ⟨by decide, by decide⟩, hk _ (by decide)]
    simp [Dbl.mul, Dbl.add]

end ThreeEqualPoints

section ThreeEqualPointsRun

theorem threeEqual_newKcol_three (pVec : Nat → Nat) (start k : Nat) (hk : k < 3 - start) :
    (computeNewKcol Real.exp (threeEqualInput ℝ).X 3 (threeEqualInput ℝ).d
      (threeEqualInput ℝ).sigma pVec start 3).getD k 0 = 1 :=
  threeEqual_newKcol pVec start k hk

theorem threeEqual_pivot_one :
    max_elementD (trainLoopD Real.sqrt Real.exp (threeEqualInput ℝ) 1).diagG 1 3 = 1 := by
  obtain ⟨-, -, h1, h2⟩ := threeEqual_first
  simp [max_elementD, max_element_loopD, h1, h2, Dbl.lt]

/-- The buffers of doubles after the second iteration on three equal points: the
pivot is `0`, its reciprocal `+inf`, and the entry and the residual of the last row
are NaN. -/
theorem threeEqual_second :
    (trainLoopD Real.sqrt Real.exp (threeEqualInput ℝ) 2).G 0 0 = Dbl.num 1 ∧
    (trainLoopD Real.sqrt Real.exp (threeEqualInput ℝ) 2).G 1 1 = Dbl.num 0 ∧
    (trainLoopD Real.sqrt Real.exp (threeEqualInput ℝ) 2).G 2 1 = Dbl.nan ∧
    (trainLoopD Real.sqrt Real.exp (threeEqualInput ℝ) 2).diagG 0 = Dbl.num 1 ∧
    (trainLoopD Real.sqrt Real.exp (threeEqualInput ℝ) 2).diagG 1 = Dbl.num 0 ∧
    (trainLoopD Real.sqrt Real.exp (threeEqualInput ℝ) 2).diagG 2 = Dbl.nan := by
  obtain ⟨hG, hd0, hd1, hd2⟩ := threeEqual_first
  have hj := threeEqual_pivot_one
  have hn : (threeEqualInput ℝ).n = 3 := rfl
  have hS := trainLoopD_next Real.sqrt Real.exp (threeEqualInput ℝ) 1 le_rfl
  rw [show (1 : Nat) + 1 = 2 from rfl] at hS
  have hk := threeEqual_newKcol_three
  have hG0 := hG 0 (by decide)
  have hG1 := hG 1 (by decide)
  have hG2 := hG 2 (by decide)
  have hg : Dbl.sqrt Real.sqrt
      ((trainLoopD Real.sqrt Real.exp (threeEqualInput ℝ) 1).diagG 1) = Dbl.num 0 := by
    rw [hd1]
    simp [Dbl.sqrt]
  have hk0 := hk (fun j => if j = 1 then
      (trainLoopD Real.sqrt Real.exp (threeEqualInput ℝ) 1).pVec 1
    else if j = 1 then (trainLoopD Real.sqrt Real.exp (threeEqualInput ℝ) 1).pVec 1
    else (trainLoopD Real.sqrt Real.exp (threeEqualInput ℝ) 1).pVec j) 2 0 (by decide)
  rw [List.getD_eq_getElem?_getD] at hk0
  refine ⟨?_, ?_, ?_, ?_, ?_, ?_⟩
  · rw [hS, nextIterD_G_of_ne _ _ _ _ _ _ _ (by decide), hn, hj]
    simp [swapRowsD, hG0]
  · rw [hS, nextIterD_pivot, hn, hj, hg]
  · rw [hS]
    simp [nextIterD, hn, hj, hg, hk0, gemvNoTransD, Dbl.sum, swapRowsD, hG1, hG2, Dbl.inv,
      Dbl.neg, Dbl.mul, Dbl.add, List.range_succ]
  · rw [hS]
    simp [nextIterD, hn, hd0]
  · rw [hS]
    simp [nextIterD, hn, hd1]
  · rw [hS]
    simp [nextIterD, hn, hj, hg, hk0, gemvNoTransD, Dbl.sum, swapRowsD, hG1, hG2, Dbl.inv,
      Dbl.neg, Dbl.mul, Dbl.add, List.range_succ]

end ThreeEqualPointsRun

section DoublesAgree

variable {α : Type} [LinearOrderedField α]

theorem Dbl.sum_num (n : Nat) (f : Nat → α) :
    Dbl.sum n (fun c => Dbl.num (f c)) = Dbl.num (∑ c ∈ range n, f c) := by
  induction n with
  | zero => simp [Dbl.sum]
  | succ n ih =>
    unfold Dbl.sum at ih ⊢
    rw [List.range_succ, List.foldl_append, ih, Finset.sum_range_succ]
    simp [Dbl.add]

theorem firstIterD_lift (sqrt exp : α → α) (inp : TrainInput α) (t : CholState α) :
    firstIterD exp inp (liftState t) = liftState (firstIter sqrt exp inp t) := by
  simp only [firstIterD, firstIter, liftState, DblState.mk.injEq]
  refine ⟨?_, ?_, trivial⟩
  · funext j c
    split_ifs <;> rfl
  · funext j
    split_ifs <;> simp [Dbl.mul, Dbl.add]

end DoublesAgree

section DoublesAgreeNext

variable {α : Type} [LinearOrderedField α]

theorem Dbl.mul_num (x y : α) : Dbl.mul (Dbl.num x) (Dbl.num y) = Dbl.num (x * y) := rfl

theorem Dbl.add_num (x y : α) : Dbl.add (Dbl.num x) (Dbl.num y) = Dbl.num (x + y) := rfl

theorem Dbl.ite_num {β : Type} (p : Prop) [Decidable p] (x y : β) :
    (if p then Dbl.num x else Dbl.num y) = Dbl.num (if p then x else y) := by
  split_ifs <;> rfl

theorem gemvNoTransD_num (cols : Nat) (a b : α) (A : Nat → Nat → α) (x y : Nat → α) (r : Nat) :
    gemvNoTransD cols (Dbl.num a) (fun r c => Dbl.num (A r c)) (fun c => Dbl.num (x c)) (Dbl.num b)
      (fun r => Dbl.num (y r)) r = Dbl.num (gemvNoTrans cols a A x b y r) := by
  unfold gemvNoTransD gemvNoTrans
  have h1 : (fun c => Dbl.mul (Dbl.num (A r c)) (Dbl.num (x c))) =
      fun c => Dbl.num (A r c * x c) := by
    funext c
    rfl
  rw [h1, Dbl.sum_num]
  rfl

theorem swapRowsD_num {β : Type} (A : Nat → Nat → β) (a b cols j c : Nat) :
    swapRowsD (fun j c => Dbl.num (A j c)) a b cols j c = Dbl.num (swapRows A a b cols j c) := by
  unfold swapRowsD swapRows
  split_ifs <;> rfl

/-- As long as the residual under the square root is not negative and the pivot is
not zero, the branch `i != 0` on doubles computes the numbers of the field model. -/
theorem nextIterD_lift (sqrt exp : α → α) (inp : TrainInput α) (i : Nat) (t : CholState α)
    (hr : 0 ≤ t.diagG (max_element t.diagG i inp.n))
    (hg : sqrt (t.diagG (max_element t.diagG i inp.n)) ≠ 0) :
    nextIterD sqrt exp inp i (liftState t) = liftState (nextIter sqrt exp inp i t) := by
  have hj : max_elementD (fun j => Dbl.num (t.diagG j)) i inp.n = max_element t.diagG i inp.n :=
    max_elementD_num _ _ _
  have hsq : Dbl.sqrt sqrt (Dbl.num (t.diagG (max_element t.diagG i inp.n))) =
      Dbl.num (sqrt (t.diagG (max_element t.diagG i inp.n))) := by
    simp [Dbl.sqrt, not_lt.mpr hr]
  have hinv : Dbl.inv (Dbl.num (sqrt (t.diagG (max_element t.diagG i inp.n)))) =
      Dbl.num (1 / sqrt (t.diagG (max_element t.diagG i inp.n))) := by
    simp [Dbl.inv, hg]
  simp only [nextIterD, nextIter, liftState, DblState.mk.injEq, hj, hsq, hinv, Dbl.neg,
    swapRowsD_num, Dbl.ite_num]
  refine ⟨?_, ?_, trivial⟩
  · funext j c
    split_ifs <;> first | rfl | exact gemvNoTransD_num _ _ _ _ _ _ _
  · funext j
    split_ifs <;> first
      | rfl
      | simp only [gemvNoTransD_num, Dbl.ite_num, Dbl.mul_num, Dbl.sum_num, Dbl.add_num]

end DoublesAgreeNext

section DoublesAgreeLoop

variable {α : Type} [LinearOrderedField α]

/-- As long as the residuals under the square roots are not negative and the pivots
are not zero, the loop on doubles computes the numbers of the field model. -/
theorem trainLoopD_eq_lift (sqrt exp : α → α) (inp : TrainInput α) :
    ∀ k,
      (∀ c, 1 ≤ c → c < k →
        0 ≤ (trainLoop sqrt exp inp c).1.diagG
          (max_element (trainLoop sqrt exp inp c).1.diagG c inp.n) ∧
        sqrt ((trainLoop sqrt exp inp c).1.diagG
          (max_element (trainLoop sqrt exp inp c).1.diagG c inp.n)) ≠ 0) →
      trainLoopD sqrt exp inp k = liftState (trainLoop sqrt exp inp k).1 := by
  intro k
  induction k with
  | zero => intro _; rfl
  | succ k ih =>
    intro h
    have hk := ih (fun c h1 h2 => h c h1 (by omega))
    rcases Nat.eq_zero_or_pos k with h0 | hpos
    · subst h0
      rw [trainLoopD_one, trainLoop_one_fst]
      exact firstIterD_lift sqrt exp inp (initChol inp)
    · rw [trainLoopD_next _ _ _ _ hpos, trainLoop_next_fst _ _ _ _ hpos, hk]
      exact nextIterD_lift sqrt exp inp k _ (h k hpos (by omega)).1 (h k hpos (by omega)).2

end DoublesAgreeLoop

section DoublesCounterexamples

/-- The buffers of doubles after the three iterations on three equal points: the
pivots are `1`, `0` and NaN. -/
theorem threeEqual_third :
    max_elementD (trainLoopD Real.sqrt Real.exp (threeEqualInput ℝ) 2).diagG 2
      (threeEqualInput ℝ).n = 2 ∧
    (trainLoopD Real.sqrt Real.exp (threeEqualInput ℝ) 3).G 0 0 = Dbl.num 1 ∧
    (trainLoopD Real.sqrt Real.exp (threeEqualInput ℝ) 3).G 1 1 = Dbl.num 0 ∧
    (trainLoopD Real.sqrt Real.exp (threeEqualInput ℝ) 3).G 2 2 = Dbl.nan := by
  obtain ⟨hG00, hG11, -, -, -, hd2⟩ := threeEqual_second
  have hn : (threeEqualInput ℝ).n = 2 + 1 := rfl
  have hj : max_elementD (trainLoopD Real.sqrt Real.exp (threeEqualInput ℝ) 2).diagG 2
      (threeEqualInput ℝ).n = 2 := by
    rw [hn]
    exact max_elementD_single _ 2
  have hS := trainLoopD_next Real.sqrt Real.exp (threeEqualInput ℝ) 2 (by decide)
  rw [show (2 : Nat) + 1 = 3 from rfl] at hS
  refine ⟨hj, ?_, ?_, ?_⟩
  · rw [hS, nextIterD_G_of_ne _ _ _ _ _ _ _ (by decide), hj]
    simp [swapRowsD, hG00]
  · rw [hS, nextIterD_G_of_ne _ _ _ _ _ _ _ (by decide), hj]
    simp [swapRowsD, hG11]
  · rw [hS, nextIterD_pivot, hj, hd2]
    rfl

/-- Counterexample to claim C26 as stated: on three equal points (`m = n = 3`,
bandwidth `1`; the kernel matrix is all ones) the pivot of iteration `1` is
`sqrt(0) = 0`, its reciprocal is `+inf`, the entry `G[2][1]` and the residual of the
last row are NaN, and the pivots of the final `G` are `1`, `0`, NaN: the comparison
`G[2][2] <= G[1][1]` of doubles is false. -/
theorem pivots_not_ordered_three_equal_points :
    (1 ≤ (threeEqualInput ℝ).m ∧ (threeEqualInput ℝ).m ≤ (threeEqualInput ℝ).n ∧
      1 + 1 < (threeEqualInput ℝ).m) ∧
    (trainLoopD Real.sqrt Real.exp (threeEqualInput ℝ) (threeEqualInput ℝ).m).G 0 0 = Dbl.num 1 ∧
    (trainLoopD Real.sqrt Real.exp (threeEqualInput ℝ) (threeEqualInput ℝ).m).G 1 1 = Dbl.num 0 ∧
    (trainLoopD Real.sqrt Real.exp (threeEqualInput ℝ) (threeEqualInput ℝ).m).G 2 2 = Dbl.nan ∧
    Dbl.le ((trainLoopD Real.sqrt Real.exp (threeEqualInput ℝ) (threeEqualInput ℝ).m).G (1 + 1) (1 + 1))
      ((trainLoopD Real.sqrt Real.exp (threeEqualInput ℝ) (threeEqualInput ℝ).m).G 1 1) = false := by
  obtain ⟨-, h0, h1, h2⟩ := threeEqual_third
  have hm : (threeEqualInput ℝ).m = 3 := rfl
  rw [hm]
  refine ⟨⟨by decide, by decide, by decide⟩, h0, h1, h2, ?_⟩
  rw [show (1 : Nat) + 1 = 2 from rfl, h2]
  rfl

/-- Counterexample to claim C2 as stated: on three equal points (`m = n = 3`) the
residual vector read by the pivot search of iteration `i = 2` is `[1, 0, NaN]`; the
search returns `jast = 2`, and the comparison `diagG[jast] >= diagG[j]` of doubles is
false at `j = 2`, an index of `[i, n)`. -/
theorem pivot_search_reads_nan_three_equal_points :
    (1 ≤ 2 ∧ 2 < (threeEqualInput ℝ).m ∧ (threeEqualInput ℝ).m ≤ (threeEqualInput ℝ).n) ∧
    ((trainLoopD Real.sqrt Real.exp (threeEqualInput ℝ) 2).diagG 0 = Dbl.num 1 ∧
      (trainLoopD Real.sqrt Real.exp (threeEqualInput ℝ) 2).diagG 1 = Dbl.num 0 ∧
      (trainLoopD Real.sqrt Real.exp (threeEqualInput ℝ) 2).diagG 2 = Dbl.nan) ∧
    max_elementD (trainLoopD Real.sqrt Real.exp (threeEqualInput ℝ) 2).diagG 2
      (threeEqualInput ℝ).n = 2 ∧
    (2 ≤ 2 ∧ 2 < (threeEqualInput ℝ).n) ∧
    Dbl.le ((trainLoopD Real.sqrt Real.exp (threeEqualInput ℝ) 2).diagG 2)
      ((trainLoopD Real.sqrt Real.exp (threeEqualInput ℝ) 2).diagG
        (max_elementD (trainLoopD Real.sqrt Real.exp (threeEqualInput ℝ) 2).diagG 2
          (threeEqualInput ℝ).n)) = false := by
  obtain ⟨-, -, -, hd0, hd1, hd2⟩ := threeEqual_second
  obtain ⟨hj, -, -, -⟩ := threeEqual_third
  refine ⟨⟨by decide, by decide, by decide⟩, ⟨hd0, hd1, hd2⟩, hj, ⟨le_rfl, by decide⟩, ?_⟩
  rw [hj, hd2]
  rfl

/-- Counterexample to claim C23 as stated: for the two points `0` and `100` of the
line, `sigma = 1`, the identity pivot order and `start = 1`, the argument of the
exponential is `-10000`, below the underflow threshold of `double`s, and the single
entry returned by `computeNewKcol` is `0`, which is not in `(0, 1]`. -/
theorem computeNewKcol_entry_zero_on_underflow :
    ((1 : ℝ) ≠ 0 ∧ 1 ≤ 1 ∧ 1 ≤ 2) ∧
    computeNewKcol (expDouble Real.exp) (farPointsX ℝ) 2 1 1 (fun j => j) 1 2 = [0] ∧
    ¬ (∀ v ∈ computeNewKcol (expDouble Real.exp) (farPointsX ℝ) 2 1 1 (fun j => j) 1 2,
      0 < v ∧ v ≤ 1) := by
  have h : computeNewKcol (expDouble Real.exp) (farPointsX ℝ) 2 1 1 (fun j => j) 1 2 = [0] := by
    simp [computeNewKcol, subMatrixFromRows, transpose, getRow, distance, farPointsX, expDouble,
      List.range_succ]
    norm_num
  refine ⟨⟨one_ne_zero, le_rfl, by decide⟩, h, fun hall => ?_⟩
  rw [h] at hall
  exact lt_irrefl _ (hall 0 (List.mem_singleton.mpr rfl)).1

end DoublesCounterexamples

section ScenarioPivots

/-- The kernel matrix of the four corners of the unit square is positive definite. -/
theorem scenario_kernel_pd :
    PosDefOn (scenarioInput ℝ).n
      (kernel Real.exp (scenarioInput ℝ).X (scenarioInput ℝ).d (scenarioInput ℝ).sigma) := by
  intro v hv
  have he1 : Real.exp (-1) < 1 := by
    rw [Real.exp_lt_one_iff]
    norm_num
  have he0 : 0 < Real.exp (-1) := Real.exp_pos _
  have he2 : Real.exp (-2) = Real.exp (-1) * Real.exp (-1) := by
    rw [← Real.exp_add]
    norm_num
  have hv4 : v 0 ≠ 0 ∨ v 1 ≠ 0 ∨ v 2 ≠ 0 ∨ v 3 ≠ 0 := by
    obtain ⟨a, ha, hva⟩ := hv
    have ha4 : a < 4 := ha
    interval_cases a
    · exact Or.inl hva
    · exact Or.inr (Or.inl hva)
    · exact Or.inr (Or.inr (Or.inl hva))
    · exact Or.inr (Or.inr (Or.inr hva))
  simp only [kernel_real, scenarioInput, Finset.sum_range_succ, Finset.sum_range_zero]
  norm_num
  rw [he2]
  generalize Real.exp (-1) = e at he0 he1
  have h1 : 0 < 1 - e * e := by nlinarith
  have hsos : v 0 * v 0 + v 0 * e * v 1 + v 0 * e * v 2 + v 0 * (e * e) * v 3 +
          (v 1 * e * v 0 + v 1 * v 1 + v 1 * (e * e) * v 2 + v 1 * e * v 3) +
        (v 2 * e * v 0 + v 2 * (e * e) * v 1 + v 2 * v 2 + v 2 * e * v 3) +
      (v 3 * (e * e) * v 0 + v 3 * e * v 1 + v 3 * e * v 2 + v 3 * v 3) =
      (v 0 + e * v 1 + e * v 2 + e * e * v 3) ^ 2 + (1 - e * e) * (v 1 + e * v 3) ^ 2 +
        (1 - e * e) * (v 2 + e * v 3) ^ 2 + (1 - e * e) * (1 - e * e) * v 3 ^ 2 := by
    ring
  rw [hsos]
  have t1 := sq_nonneg (v 0 + e * v 1 + e * v 2 + e * e * v 3)
  have t2 := mul_nonneg h1.le (sq_nonneg (v 1 + e * v 3))
  have t3 := mul_nonneg h1.le (sq_nonneg (v 2 + e * v 3))
  have t4 := mul_nonneg (mul_nonneg h1.le h1.le) (sq_nonneg (v 3))
  by_contra hcon
  have hz : (v 0 + e * v 1 + e * v 2 + e * e * v 3) ^ 2 = 0 ∧
      (1 - e * e) * (v 1 + e * v 3) ^ 2 = 0 ∧ (1 - e * e) * (v 2 + e * v 3) ^ 2 = 0 ∧
      (1 - e * e) * (1 - e * e) * v 3 ^ 2 = 0 := by
    refine ⟨?_, ?_, ?_, ?_⟩ <;> linarith
  obtain ⟨z1, z2, z3, z4⟩ := hz
  have hv3 : v 3 = 0 := by
    rcases mul_eq_zero.mp z4 with h | h
    · exact absurd h (mul_pos h1 h1).ne'
    · exact pow_eq_zero_iff (two_ne_zero) |>.mp h
  have hv1 : v 1 = 0 := by
    rcases mul_eq_zero.mp z2 with h | h
    · exact absurd h h1.ne'
    · have := pow_eq_zero_iff (two_ne_zero) |>.mp h
      rw [hv3, mul_zero, add_zero] at this
      exact this
  have hv2 : v 2 = 0 := by
    rcases mul_eq_zero.mp z3 with h | h
    · exact absurd h h1.ne'
    · have := pow_eq_zero_iff (two_ne_zero) |>.mp h
      rw [hv3, mul_zero, add_zero] at this
      exact this
  have hv0 : v 0 = 0 := by
    have := pow_eq_zero_iff (two_ne_zero) |>.mp z1
    rw [hv1, hv2, hv3] at this
    simpa using this
  rcases hv4 with h | h | h | h
  · exact h hv0
  · exact h hv1
  · exact h hv2
  · exact h hv3

/-- In the scenario every pivot is positive. -/
theorem scenario_pivots_ne_zero (c : Nat) (hc : c < (scenarioInput ℝ).m) :
    (trainLoop Real.sqrt Real.exp (scenarioInput ℝ) (c + 1)).1.G c c ≠ 0 := by
  have hm : (scenarioInput ℝ).m = 3 := rfl
  have H := trainLoop_cholInv Real.sqrt Real.exp Real.exp_zero real_sqrt_exact (scenarioInput ℝ)
    scenario_kernel_pd (c + 1) (by omega) (by
      have hn : (scenarioInput ℝ).n = 4 := rfl
      omega)
  exact (H.pos c (by omega)).ne'

end ScenarioPivots

section PivotsRealNonZero

/-- A non-zero pivot is the square root of a positive residual. -/
theorem pivot_radicand_pos (inp : TrainInput ℝ) (c : Nat) (hc : 1 ≤ c)
    (h : (trainLoop Real.sqrt Real.exp inp (c + 1)).1.G c c ≠ 0) :
    0 < (trainLoop Real.sqrt Real.exp inp c).1.diagG
        (max_element (trainLoop Real.sqrt Real.exp inp c).1.diagG c inp.n) ∧
    Real.sqrt ((trainLoop Real.sqrt Real.exp inp c).1.diagG
        (max_element (trainLoop Real.sqrt Real.exp inp c).1.diagG c inp.n)) ≠ 0 := by
  rw [trainLoop_pivot Real.sqrt Real.exp inp c hc] at h
  exact ⟨Real.sqrt_pos.mp (lt_of_le_of_ne (Real.sqrt_nonneg _) (Ne.symm h)), h⟩

/-- Claim C26 (amended): in exact real arithmetic with non-zero pivots (those written by
the iterations `1 ≤ c < m`; the pivot of iteration `0` is `1`), for every run of `train`
with `1 ≤ m ≤ n` the diagonal pivots of the final `G` are non-increasing:
`G[i+1][i+1] ≤ G[i][i]` for every `i` with `0 ≤ i < m - 1`; `G[0][0] = 1` and every pivot
lies in `(0, 1]`.  Under this condition the buffers of doubles hold the numbers of the
field model, and the comparison of doubles `G[i+1][i+1] <= G[i][i]` is true. -/
theorem pivots_non_increasing (inp : TrainInput ℝ) (hm : 1 ≤ inp.m) (hmn : inp.m ≤ inp.n)
    (hpiv : ∀ c, 1 ≤ c → c < inp.m → (trainLoop Real.sqrt Real.exp inp (c + 1)).1.G c c ≠ 0) :
    (∀ i, i + 1 < inp.m →
      (trainLoop Real.sqrt Real.exp inp inp.m).1.G (i + 1) (i + 1) ≤
        (trainLoop Real.sqrt Real.exp inp inp.m).1.G i i) ∧
    (trainLoop Real.sqrt Real.exp inp inp.m).1.G 0 0 = 1 ∧
    (∀ c, c < inp.m → 0 < (trainLoop Real.sqrt Real.exp inp inp.m).1.G c c ∧
      (trainLoop Real.sqrt Real.exp inp inp.m).1.G c c ≤ 1) ∧
    (∀ j c, (trainLoopD Real.sqrt Real.exp inp inp.m).G j c =
      Dbl.num ((trainLoop Real.sqrt Real.exp inp inp.m).1.G j c)) ∧
    (∀ i, i + 1 < inp.m →
      Dbl.le ((trainLoopD Real.sqrt Real.exp inp inp.m).G (i + 1) (i + 1))
        ((trainLoopD Real.sqrt Real.exp inp inp.m).G i i) = true) := by
  have hstep : ∀ i, i + 1 < inp.m →
      (trainLoop Real.sqrt Real.exp inp inp.m).1.G (i + 1) (i + 1) ≤
        (trainLoop Real.sqrt Real.exp inp inp.m).1.G i i :=
    fun i hi => pivot_step_le Real.sqrt Real.exp (fun x y h => Real.sqrt_le_sqrt h) Real.sqrt_one
      inp i inp.m (by omega) hmn
  have h0 : (trainLoop Real.sqrt Real.exp inp inp.m).1.G 0 0 = 1 := by
    rw [trainLoop_G_diag_persist Real.sqrt Real.exp inp 0 inp.m (by omega) hmn,
      trainLoop_G_zero_zero]
  have hle1 : ∀ c, c < inp.m → (trainLoop Real.sqrt Real.exp inp inp.m).1.G c c ≤ 1 := by
    intro c
    induction c with
    | zero => intro _; rw [h0]
    | succ c ih =>
      intro hc
      exact le_trans (hstep c hc) (ih (by omega))
  have hpos : ∀ c, c < inp.m → 0 < (trainLoop Real.sqrt Real.exp inp inp.m).1.G c c := by
    intro c hc
    rcases Nat.eq_zero_or_pos c with hc0 | hc1
    · rw [hc0, h0]
      exact one_pos
    · rw [trainLoop_G_diag_persist Real.sqrt Real.exp inp c inp.m (by omega) hmn]
      have hne := hpiv c hc1 hc
      rw [trainLoop_pivot Real.sqrt Real.exp inp c hc1] at hne ⊢
      exact lt_of_le_of_ne (Real.sqrt_nonneg _) (Ne.symm hne)
  have hD := trainLoopD_eq_lift Real.sqrt Real.exp inp inp.m (fun c h1 h2 =>
    ⟨(pivot_radicand_pos inp c h1 (hpiv c h1 h2)).1.le,
      (pivot_radicand_pos inp c h1 (hpiv c h1 h2)).2⟩)
  refine ⟨hstep, h0, fun c hc => ⟨hpos c hc, hle1 c hc⟩, fun j c => by rw [hD]; rfl,
    fun i hi => ?_⟩
  rw [hD]
  exact decide_eq_true (hstep i hi)

theorem pivots_non_increasing_witness :
    (1 ≤ (scenarioInput ℝ).m ∧ (scenarioInput ℝ).m ≤ (scenarioInput ℝ).n ∧
      (∀ c, 1 ≤ c → c < (scenarioInput ℝ).m →
        (trainLoop Real.sqrt Real.exp (scenarioInput ℝ) (c + 1)).1.G c c ≠ 0) ∧
      1 + 1 < (scenarioInput ℝ).m) ∧
    (trainLoop Real.sqrt Real.exp (scenarioInput ℝ) (scenarioInput ℝ).m).1.G (1 + 1) (1 + 1) ≤
      (trainLoop Real.sqrt Real.exp (scenarioInput ℝ) (scenarioInput ℝ).m).1.G 1 1 :=
  ⟨⟨by decide, by decide, fun c _ h2 => scenario_pivots_ne_zero c h2, by decide⟩,
    (pivots_non_increasing (scenarioInput ℝ) (by decide) (by decide)
      (fun c _ h2 => scenario_pivots_ne_zero c h2)).1 1 (by decide)⟩

end PivotsRealNonZero

end Gurls
